import Mathlib

/-!
# chrome-collect: the bookmark store of `packages/tray`

A shallow embedding of `packages/tray/db.go` (and of the `POST /api/save`
branch of `packages/tray/routes.go`).

Modelling conventions.

* The `bookmarks` table is the list of its rows in rowid (insertion) order.
  `id` is the primary key, so a well-formed table has pairwise distinct ids
  (`idsUnique`); `dbInsert` enforces it.
* The file system is a finite list of entries keyed by absolute, cleaned
  paths.  An absolute path is kept as the list of its components below the
  root, which is the form `filepath.Clean` gives it; the path flavour is the
  POSIX one (separator `/`), for which `filepath.ToSlash` and
  `filepath.FromSlash` are the identity.
* Everything the Go code obtains from its environment is an explicit input:
  the clock reading `now`, the 16 random bytes of `uuid.New()`, and the record
  `Env` holding the data root, the URL parser, the base64 decoder and the
  error oracles of the SQL driver and of the operating system.
* The entries of the file system are directories and regular files that the
  process may read and write; links and permissions are not part of the model.
  The limits on names are those of the kernel: no zero byte in a path,
  `nameMax` bytes for a component and `pathMax` for a whole path.
* Go `int` / `int64` values are `Int`; the only arithmetic performed on them is
  `now - trashRetentionMs`, which stays far inside the 64-bit range for every
  clock reading of the millisecond Unix clock.
-/

namespace ChromeCollect

/-! ## Data types (`db.go` 31-54) -/

/-- One row of the `bookmarks` table; the field `alias_` is the column `alias`. -/
structure Bookmark where
  id : String
  url : String
  title : String
  alias_ : String
  favicon : String
  filePath : String
  thumbPath : String
  fileSize : Int
  createdAt : Int
  deletedAt : Int
  notes : String
  tags : String
  bookmarkId : String
deriving DecidableEq, Repr

/-- The JSON body of `POST /api/save`. -/
structure SaveInput where
  url : String
  title : String
  favicon : String
  html : String
  screenshot : String
  bookmarkId : String
deriving DecidableEq, Repr

/-- The table, in rowid order. -/
abbrev Store := List Bookmark

/-- The primary-key constraint on `id`. -/
def idsUnique (db : Store) : Prop := (db.map (fun b => b.id)).Nodup

instance (db : Store) : Decidable (idsUnique db) := by
  unfold idsUnique; infer_instance

/-- Retention of the trash: 7 days in milliseconds (`db.go` 27). -/
def trashRetentionMs : Int := 7 * 24 * 60 * 60 * 1000

/-! ## Paths (`path/filepath`, POSIX flavour) -/

/-- An absolute cleaned path: its components below the root. -/
abbrev Path := List String

/-- Split a character sequence at every `/`. -/
def splitSlash : List Char → List (List Char)
  | [] => [[]]
  | c :: cs =>
    if c = '/' then [] :: splitSlash cs
    else
      match splitSlash cs with
      | [] => [[c]]
      | x :: xs => (c :: x) :: xs

/-- The `/`-separated components of a string. -/
def components (s : String) : List String := (splitSlash s.data).map String.mk

/-- One step of `filepath.Clean` on an absolute path: empty and `.` components
are dropped, `..` removes the last component (and is dropped at the root). -/
def pushComponent (acc : Path) (c : String) : Path :=
  if c = "" ∨ c = "." then acc
  else if c = ".." then acc.dropLast
  else acc ++ [c]

/-- The result of `filepath.Join(base, rel)` for a cleaned absolute `base`. -/
def joinPath (base : Path) (rel : String) : Path :=
  (components rel).foldl pushComponent base

/-- The result of `filepath.Dir` on a cleaned absolute path. -/
def parentDir (p : Path) : Path := p.dropLast

/-- Number of leading components two paths share. -/
def commonLen : Path → Path → Nat
  | a :: as, b :: bs => if a = b then commonLen as bs + 1 else 0
  | _, _ => 0

/-- The result of `filepath.Rel(base, targ)` for two cleaned absolute paths,
which never fails: one `..` per remaining component of `base`, then the
remaining components of `targ`; `.` when nothing remains. -/
def relPath (base targ : Path) : String :=
  let k := commonLen base targ
  let parts := List.replicate (base.length - k) ".." ++ targ.drop k
  if parts = [] then "." else "/".intercalate parts

/-! ## File system (`os`) -/

/-- What a path holds. -/
inductive Node where
  | dir
  | file (content : List UInt8)
deriving DecidableEq, Repr

/-- The file system: its entries other than the root directory. -/
structure FS where
  entries : List (Path × Node)
deriving DecidableEq, Repr

/-- The entry stored under a path; the root is always a directory. -/
def FS.node (fs : FS) (p : Path) : Option Node :=
  if p = [] then some Node.dir
  else (fs.entries.find? (fun e => decide (e.1 = p))).map (fun e => e.2)

/-- Longest file name a directory takes, in bytes (`NAME_MAX`). -/
def nameMax : Nat := 255

/-- Bound on the length of a path text handed to the kernel, its closing zero
byte included (`PATH_MAX`, the Linux value). -/
def pathMax : Nat := 4096

/-- Some component of the path holds the character U+0000. -/
def hasNul (p : Path) : Bool :=
  p.any (fun c => c.data.any (fun ch => decide (ch = Char.ofNat 0)))

/-- Length in bytes of the text of a path: for every component a separator and
the UTF-8 bytes of the component. -/
def pathBytes (p : Path) : Nat := (p.map (fun c => c.utf8ByteSize + 1)).sum

/-- The operating system takes the path as a name for a new entry: no zero
byte, the text shorter than `pathMax` and no component longer than `nameMax`. -/
def osAccepts (p : Path) : Bool :=
  !hasNul p && decide (pathBytes p < pathMax) &&
    p.all (fun c => decide (c.utf8ByteSize ≤ nameMax))

/-- Outcome of `os.Stat`. -/
inductive StatResult where
  | found (n : Node)
  /-- ENOENT -/
  | notExist
  /-- ENOTDIR -/
  | notDir
  /-- EINVAL: the path text holds a zero byte -/
  | invalid
  /-- ENAMETOOLONG -/
  | nameTooLong
deriving DecidableEq, Repr

/-- Path resolution below the already resolved directory `pre`, one component
at a time: a component longer than `nameMax` is ENAMETOOLONG, a missing
component is ENOENT, a regular file in the middle of the path is ENOTDIR. -/
def statFrom (fs : FS) (pre : Path) : List String → StatResult
  | [] => StatResult.found Node.dir
  | c :: rest =>
    if nameMax < c.utf8ByteSize then StatResult.nameTooLong
    else
      match fs.node (pre ++ [c]) with
      | none => StatResult.notExist
      | some (Node.file d) =>
        if rest = [] then StatResult.found (Node.file d) else StatResult.notDir
      | some Node.dir => statFrom fs (pre ++ [c]) rest

/-- The model of `os.Stat`.  A zero byte in the path is refused before the
system call (EINVAL), a text of `pathMax` bytes or more by the kernel before it
resolves anything (ENAMETOOLONG); then the path is resolved. -/
def FS.stat (fs : FS) (p : Path) : StatResult :=
  if hasNul p then StatResult.invalid
  else if pathMax ≤ pathBytes p then StatResult.nameTooLong
  else statFrom fs [] p

/-- The test `os.IsNotExist(err)` on the result of `os.Stat`: true for ENOENT
only. -/
def StatResult.isNotExist : StatResult → Bool
  | StatResult.notExist => true
  | _ => false

/-- Replace (or add) the entry of a path. -/
def FS.put (fs : FS) (p : Path) (n : Node) : FS :=
  ⟨(p, n) :: fs.entries.filter (fun e => decide (e.1 ≠ p))⟩

/-- Drop the entry of a path. -/
def FS.erase (fs : FS) (p : Path) : FS :=
  ⟨fs.entries.filter (fun e => decide (e.1 ≠ p))⟩

/-- The entries directly inside a directory. -/
def FS.children (fs : FS) (d : Path) : List (Path × Node) :=
  fs.entries.filter (fun e => decide (e.1 ≠ [] ∧ parentDir e.1 = d))

/-- Directory creation below the resolved directory `pre`, one component at a
time: an existing directory is kept, a regular file stops with an error. -/
def mkdirFrom (ioErr : Path → Bool) (fs : FS) (pre : Path) : List String → Option FS
  | [] => some fs
  | c :: rest =>
    match fs.node (pre ++ [c]) with
    | some Node.dir => mkdirFrom ioErr fs (pre ++ [c]) rest
    | some (Node.file _) => none
    | none =>
      if ioErr (pre ++ [c]) then none
      else mkdirFrom ioErr (fs.put (pre ++ [c]) Node.dir) (pre ++ [c]) rest

/-- The model of `os.MkdirAll`; `none` is an error return.  A path the
operating system does not accept cannot be created. -/
def FS.mkdirAll (ioErr : Path → Bool) (fs : FS) (p : Path) : Option FS :=
  if osAccepts p then mkdirFrom ioErr fs [] p else none

/-- The model of `os.WriteFile`: the operating system must accept the path,
the parent must resolve to a directory and the path must not be a directory;
the file is created or truncated. -/
def FS.writeFile (ioErr : Path → Bool) (fs : FS) (p : Path) (data : List UInt8) : Option FS :=
  if p = [] then none
  else if ioErr p || !osAccepts p then none
  else
    match fs.stat (parentDir p) with
    | StatResult.found Node.dir =>
      match fs.node p with
      | some Node.dir => none
      | _ => some (fs.put p (Node.file data))
    | _ => none

/-- The model of `os.ReadDir`; `none` is an error return. -/
def FS.readDir (fs : FS) (d : Path) : Option (List (Path × Node)) :=
  match fs.stat d with
  | StatResult.found Node.dir => some (fs.children d)
  | _ => none

/-- The model of `os.Remove`: removes a file or an empty directory. -/
def FS.remove (ioErr : Path → Bool) (fs : FS) (p : Path) : Option FS :=
  if p = [] then none
  else if ioErr p then none
  else
    match fs.stat p with
    | StatResult.found (Node.file _) => some (fs.erase p)
    | StatResult.found Node.dir => if fs.children p = [] then some (fs.erase p) else none
    | _ => none

/-- A call of `os.Remove` whose error is ignored. -/
def FS.removeIgnoringError (ioErr : Path → Bool) (fs : FS) (p : Path) : FS :=
  (fs.remove ioErr p).getD fs

/-- The model of `os.Rename`.  The operating system must accept the target,
the source must exist and the parent of the target must resolve to a
directory.  A regular file replaces a regular file at the target and cannot
replace a directory; a directory is moved with everything below it, to a target
that does not exist and is not inside the source. -/
def FS.rename (ioErr : Path → Bool) (fs : FS) (old new : Path) : Option FS :=
  if old = [] ∨ new = [] then none
  else if ioErr old || ioErr new || !osAccepts new then none
  else
    match fs.stat (parentDir new) with
    | StatResult.found Node.dir =>
      match fs.stat old with
      | StatResult.found (Node.file d) =>
        match fs.node new with
        | some Node.dir => none
        | _ => if old = new then some fs else some ((fs.erase old).put new (Node.file d))
      | StatResult.found Node.dir =>
        if old = new then some fs
        else if fs.node new ≠ none ∨ old.isPrefixOf new then none
        else some ⟨fs.entries.map (fun e =>
          if old.isPrefixOf e.1 then (new ++ e.1.drop old.length, e.2) else e)⟩
      | _ => none
    | _ => none

/-! ## File names (`db.go` 111-162) -/

/-- The character class of `illegalCharsRe`: backslash, slash, colon, asterisk,
question mark, double quote, `<`, `>`, `|`, carriage return, line feed, tab. -/
def isIllegalChar (c : Char) : Bool :=
  c = '\\' || c = '/' || c = ':' || c = '*' || c = '?' || c = '"' || c = '<' || c = '>'
    || c = '|' || c = '\r' || c = '\n' || c = '\t'

/-- The result of `illegalCharsRe.ReplaceAllString(name, "_")`. -/
def replaceIllegal (cs : List Char) : List Char :=
  cs.map (fun c => if isIllegalChar c then '_' else c)

/-- The result of `multiUnderscoreRe.ReplaceAllString(safe, "_")`: every maximal
run of underscores becomes one underscore. -/
def collapseUnderscores : List Char → List Char
  | [] => []
  | c :: cs =>
    if c = '_' then
      match collapseUnderscores cs with
      | [] => ['_']
      | d :: ds => if d = '_' then d :: ds else '_' :: d :: ds
    else c :: collapseUnderscores cs

/-- Membership in the cutset `". "` of `strings.Trim`. -/
def isTrimChar (c : Char) : Bool := c = '.' || c = ' '

/-- The result of `strings.Trim(safe, ". ")`. -/
def trimDotsSpaces (cs : List Char) : List Char :=
  ((cs.dropWhile isTrimChar).reverse.dropWhile isTrimChar).reverse

/-- The function `sanitizeFilename` on rune sequences. -/
def sanitizeChars (name : List Char) (maxLen : Int) : List Char :=
  let safe := trimDotsSpaces (collapseUnderscores (replaceIllegal name))
  let maxLen := if maxLen ≤ 0 then 80 else maxLen
  let safe := if (safe.length : Int) > maxLen then safe.take maxLen.toNat else safe
  if safe = [] then "untitled".data else safe

/-- The function `sanitizeFilename` (`db.go` 122-138). -/
def sanitizeFilename (name : String) (maxLen : Int) : String :=
  String.mk (sanitizeChars name.data maxLen)

/-- Environment of the store operations. -/
structure Env where
  /-- the global `dataDir`, an absolute cleaned path -/
  dataDir : Path
  /-- `url.Parse` followed by `Hostname()`; `none` when `url.Parse` returns an error -/
  hostname : String → Option String
  /-- `base64.StdEncoding.DecodeString`; `none` when it returns an error -/
  decodeBase64 : String → Option (List UInt8)
  /-- the operating system refuses to create, write or remove this path -/
  ioErr : Path → Bool
  /-- the SQL driver fails the `SELECT ... WHERE id = ?` for this id -/
  selectErr : String → Bool
  /-- the SQL driver fails the `INSERT`, `UPDATE` or `DELETE` for this id -/
  execErr : String → Bool
  /-- the SQL driver fails a `SELECT` over the whole table (a locked database,
  or a `LIKE` pattern beyond SQLite's length limit) -/
  queryErr : Bool
  /-- the SQL driver fails the `SELECT COUNT(*)`, for the same causes -/
  countErr : Bool

/-- The function `getDomain` (`db.go` 114-120). -/
def getDomain (env : Env) (rawURL : String) : String :=
  match env.hostname rawURL with
  | none => "unknown"
  | some h => if h = "" then "unknown" else h

/-- The file name tried by `getUniqueFilePath` in its `k`-th round: `baseName+ext`
first, then `fmt.Sprintf("%s_%d%s", baseName, k, ext)` with the counter in
decimal. -/
def candidateName (baseName ext : String) : Nat → String
  | 0 => baseName ++ ext
  | k + 1 => baseName ++ "_" ++ toString (k + 1) ++ ext

/-- The path tried by `getUniqueFilePath` in its `k`-th round. -/
def candidatePath (dir : Path) (baseName ext : String) (k : Nat) : Path :=
  joinPath dir (candidateName baseName ext k)

/-- The loop of `getUniqueFilePath`, started in round `k` and run for at most
`fuel` rounds; `none` when the rounds are used up. -/
def uniqueFrom (fs : FS) (dir : Path) (baseName ext : String) : Nat → Nat → Option Path
  | 0, _ => none
  | fuel + 1, k =>
    if (fs.stat (candidatePath dir baseName ext k)).isNotExist then
      some (candidatePath dir baseName ext k)
    else uniqueFrom fs dir baseName ext fuel (k + 1)

/-- The function `getUniqueFilePath` (`db.go` 140-150), with one round more
than the file system has entries; `none` stands for a loop that does not
return.  A round returns only on ENOENT: a candidate that exists, and one on
which `os.Stat` fails with ENOTDIR, EINVAL or ENAMETOOLONG, lead to the next
round. -/
def getUniqueFilePath (fs : FS) (dir : Path) (baseName ext : String) : Option Path :=
  uniqueFrom fs dir baseName ext (fs.entries.length + 1) 0

/-- The function `getAbsoluteFilePath` (`db.go` 152-154). -/
def getAbsoluteFilePath (env : Env) (relativePath : String) : Path :=
  joinPath env.dataDir relativePath

/-- The function `toRelativePath` (`db.go` 156-162); `filepath.Rel` does not
fail on two absolute paths. -/
def toRelativePath (env : Env) (absPath : Path) : String :=
  relPath env.dataDir absPath

/-! ## Identifiers (`github.com/google/uuid`) -/

/-- One lower-case hexadecimal digit. -/
def hexDigit (n : Nat) : Char :=
  if n % 16 < 10 then Char.ofNat (48 + n % 16) else Char.ofNat (87 + n % 16)

/-- The two hexadecimal digits of a byte. -/
def hexByte (n : Nat) : List Char := [hexDigit (n / 16), hexDigit n]

/-- The text `uuid.UUID.String` gives for 16 bytes: `8-4-4-4-12` hexadecimal digits. -/
def uuidString (u : Fin 16 → Nat) : String :=
  String.mk (hexByte (u 0) ++ hexByte (u 1) ++ hexByte (u 2) ++ hexByte (u 3) ++ ['-']
    ++ hexByte (u 4) ++ hexByte (u 5) ++ ['-'] ++ hexByte (u 6) ++ hexByte (u 7) ++ ['-']
    ++ hexByte (u 8) ++ hexByte (u 9) ++ ['-'] ++ hexByte (u 10) ++ hexByte (u 11)
    ++ hexByte (u 12) ++ hexByte (u 13) ++ hexByte (u 14) ++ hexByte (u 15))

/-! ## Rows and statements (`database/sql`) -/

/-- The errors the operations return. -/
inductive Err where
  /-- `os.MkdirAll` failed -/
  | mkdir
  /-- `os.WriteFile` of the HTML failed -/
  | writeHtml
  /-- the SQL driver reported an error -/
  | driver
  /-- the primary key already exists -/
  | constraint
deriving DecidableEq, Repr

/-- The store and the file system together. -/
structure World where
  fs : FS
  db : Store
deriving DecidableEq, Repr

/-- The statement `INSERT INTO bookmarks ...`: refused by the driver, or by the
primary key when the id is already present, else the row is appended. -/
def dbInsert (env : Env) (db : Store) (row : Bookmark) : Except Err Store :=
  if env.execErr row.id then Except.error Err.driver
  else if db.any (fun b => decide (b.id = row.id)) then Except.error Err.constraint
  else Except.ok (db ++ [row])

/-- The function `getBookmark` (`db.go` 270-277): `ok none` is the pair
`(nil, nil)` returned for `sql.ErrNoRows`. -/
def getBookmark (env : Env) (db : Store) (id : String) : Except Err (Option Bookmark) :=
  if env.selectErr id then Except.error Err.driver
  else Except.ok (db.find? (fun b => decide (b.id = id)))

/-! ## Saving (`db.go` 178-228, `routes.go` 88-101) -/

/-- The UTF-8 bytes of a string, the conversion `[]byte(s)`. -/
def utf8Bytes (s : String) : List UInt8 := s.data.flatMap String.utf8EncodeChar

/-- The result of `strings.SplitN(s, ",", 2)` when it has two parts: the text
before the first comma and the text after it. -/
def splitFirstComma : List Char → Option (List Char × List Char)
  | [] => none
  | c :: cs =>
    if c = ',' then some ([], cs)
    else
      match splitFirstComma cs with
      | none => none
      | some (a, b) => some (c :: a, b)

/-- The thumbnail step of `saveBookmark` (`db.go` 200-212): the new file
system and `thumbRelative`; `none` when `getUniqueFilePath` does not return. -/
def saveThumbnail (env : Env) (fs : FS) (domainDir : Path) (safeTitle screenshot : String) :
    Option (FS × String) :=
  if "data:image/".data.isPrefixOf screenshot.data then
    match splitFirstComma screenshot.data with
    | none => some (fs, "")
    | some (_, payload) =>
      match env.decodeBase64 (String.mk payload) with
      | none => some (fs, "")
      | some data =>
        match getUniqueFilePath fs domainDir safeTitle ".png" with
        | none => none
        | some thumbPath =>
          match fs.writeFile env.ioErr thumbPath data with
          | none => some (fs, "")
          | some fs1 => some (fs1, toRelativePath env thumbPath)
  else some (fs, "")

/-- The function `saveBookmark` (`db.go` 178-228).  Inputs `u` and `now` are the
bytes of `uuid.New()` and the reading of `time.Now().UnixMilli()`.  The result
is the world left behind together with the returned pair; `none` when a call
of `getUniqueFilePath` does not return. -/
def saveBookmark (env : Env) (w : World) (u : Fin 16 → Nat) (now : Int) (input : SaveInput) :
    Option (World × Except Err (Option Bookmark)) :=
  let id := uuidString u
  let domain := getDomain env input.url
  let domainDir := joinPath (joinPath env.dataDir "pages") domain
  match w.fs.mkdirAll env.ioErr domainDir with
  | none => some (w, Except.error Err.mkdir)
  | some fs1 =>
    let safeTitle0 := sanitizeFilename input.title 80
    let safeTitle := if safeTitle0 = "" then "untitled" else safeTitle0
    match getUniqueFilePath fs1 domainDir safeTitle ".html" with
    | none => none
    | some htmlPath =>
      match fs1.writeFile env.ioErr htmlPath (utf8Bytes input.html) with
      | none => some (⟨fs1, w.db⟩, Except.error Err.writeHtml)
      | some fs2 =>
        let fileSize : Int := input.html.utf8ByteSize
        let htmlRelative := toRelativePath env htmlPath
        match saveThumbnail env fs2 domainDir safeTitle input.screenshot with
        | none => none
        | some (fs3, thumbRelative) =>
          let favicon := if input.favicon.utf8ByteSize > 100000 then "" else input.favicon
          let row : Bookmark :=
            { id := id, url := input.url, title := input.title, alias_ := "",
              favicon := favicon, filePath := htmlRelative, thumbPath := thumbRelative,
              fileSize := fileSize, createdAt := now, deletedAt := 0, notes := "",
              tags := "[]", bookmarkId := input.bookmarkId }
          match dbInsert env w.db row with
          | Except.error e => some (⟨fs3, w.db⟩, Except.error e)
          | Except.ok db1 => some (⟨fs3, db1⟩, getBookmark env db1 id)

/-- What the handler of `POST /api/save` answers. -/
inductive SaveReply where
  /-- status 400, body `缺少 url 或 html 字段` -/
  | badRequest
  /-- status 500, the save failed -/
  | serverError (e : Err)
  /-- status 200 with the id of the new record -/
  | saved (id : String)
  /-- the handler dereferences the nil record of a `(nil, nil)` result -/
  | nilRecord
deriving DecidableEq, Repr

/-- The branch `POST /api/save` of `handleRequest` (`routes.go` 88-101); `body`
is the decoded JSON, `none` when decoding fails. -/
def handleSave (env : Env) (w : World) (u : Fin 16 → Nat) (now : Int) (body : Option SaveInput) :
    Option (World × SaveReply) :=
  match body with
  | none => some (w, SaveReply.badRequest)
  | some input =>
    if input.url = "" ∨ input.html = "" then some (w, SaveReply.badRequest)
    else
      match saveBookmark env w u now input with
      | none => none
      | some (w1, Except.error e) => some (w1, SaveReply.serverError e)
      | some (w1, Except.ok none) => some (w1, SaveReply.nilRecord)
      | some (w1, Except.ok (some bm)) => some (w1, SaveReply.saved bm.id)

/-! ## Listing (`db.go` 230-268) -/

/-- ASCII lower-casing, the only case folding of SQLite's `LIKE`. -/
def asciiLower (c : Char) : Char :=
  if 'A' ≤ c ∧ c ≤ 'Z' then Char.ofNat (c.toNat + 32) else c

/-- The matching of SQLite's `LIKE` without escape character on two character
sequences: `%` matches any sequence, `_` any single character, every other
character itself up to ASCII case. -/
def likeMatch : List Char → List Char → Bool
  | [], ts => ts.isEmpty
  | p :: ps, ts =>
    if p = '%' then ts.tails.any (fun suffix => likeMatch ps suffix)
    else
      match ts with
      | [] => false
      | t :: ts1 =>
        if p = '_' then likeMatch ps ts1
        else decide (asciiLower p = asciiLower t) && likeMatch ps ts1

/-- What SQLite's `LIKE` reads of a text value: pattern and operand are taken
as zero-terminated strings, so only the characters before the first U+0000
count. -/
def cText (cs : List Char) : List Char :=
  cs.takeWhile (fun c => decide (c ≠ Char.ofNat 0))

/-- SQLite's `text LIKE pattern` for two text values. -/
def sqliteLike (pattern text : String) : Bool :=
  likeMatch (cText pattern.data) (cText text.data)

/-- The `WHERE` clause built by `getAllBookmarks`: always `deleted_at = 0`, then
the exact URL when `urlParam` is given, else the `LIKE` search when `q` is. -/
def matchesFilter (q urlParam : String) (b : Bookmark) : Bool :=
  decide (b.deletedAt = 0) &&
    (if urlParam ≠ "" then decide (b.url = urlParam)
     else if q ≠ "" then
       let like := "%" ++ q ++ "%"
       sqliteLike like b.title || sqliteLike like b.alias_ || sqliteLike like b.url
     else true)

/-- The clause `ORDER BY created_at DESC`. -/
def orderByCreatedDesc (rows : List Bookmark) : List Bookmark :=
  rows.insertionSort (fun a b => a.createdAt ≥ b.createdAt)

/-- The clause `LIMIT limit OFFSET offset` of SQLite: a negative offset counts
as zero and a negative limit is no limit. -/
def limitOffset (rows : List Bookmark) (limit offset : Int) : List Bookmark :=
  let rest := rows.drop offset.toNat
  if limit < 0 then rest else rest.take limit.toNat

/-- The function `getAllBookmarks` (`db.go` 230-268): the page and the total. -/
def getAllBookmarks (env : Env) (db : Store) (q urlParam : String) (limit offset : Int) :
    Except Err (List Bookmark × Int) :=
  if env.countErr then Except.error Err.driver
  else
    let total : Int := (db.filter (matchesFilter q urlParam)).length
    if env.queryErr then Except.error Err.driver
    else
      Except.ok (limitOffset (orderByCreatedDesc (db.filter (matchesFilter q urlParam)))
        limit offset, total)

/-! ## Edits, trash and deletion (`db.go` 279-405) -/

/-- The function `updateAlias` (`db.go` 279-286). -/
def updateAlias (env : Env) (db : Store) (id alias_ : String) : Store × Except Err Bool :=
  if env.execErr id then (db, Except.error Err.driver)
  else
    let n := (db.filter (fun b => decide (b.id = id ∧ b.deletedAt = 0))).length
    (db.map (fun b => if b.id = id ∧ b.deletedAt = 0 then { b with alias_ := alias_ } else b),
      Except.ok (decide (n > 0)))

/-- The function `updateNotes` (`db.go` 288-295). -/
def updateNotes (env : Env) (db : Store) (id notes : String) : Store × Except Err Bool :=
  if env.execErr id then (db, Except.error Err.driver)
  else
    let n := (db.filter (fun b => decide (b.id = id ∧ b.deletedAt = 0))).length
    (db.map (fun b => if b.id = id ∧ b.deletedAt = 0 then { b with notes := notes } else b),
      Except.ok (decide (n > 0)))

/-- The statement `UPDATE bookmarks SET deleted_at = ? WHERE id = ?`. -/
def setDeletedAt (db : Store) (id : String) (t : Int) : Store :=
  db.map (fun b => if b.id = id then { b with deletedAt := t } else b)

/-- The function `softDeleteBookmark` (`db.go` 297-304). -/
def softDeleteBookmark (env : Env) (db : Store) (now : Int) (id : String) :
    Store × Except Err Bool :=
  match getBookmark env db id with
  | Except.error e => (db, Except.error e)
  | Except.ok none => (db, Except.ok false)
  | Except.ok (some bm) =>
    if bm.deletedAt > 0 then (db, Except.ok false)
    else if env.execErr id then (db, Except.error Err.driver)
    else (setDeletedAt db id now, Except.ok true)

/-- The clause `ORDER BY deleted_at DESC`. -/
def orderByDeletedDesc (rows : List Bookmark) : List Bookmark :=
  rows.insertionSort (fun a b => a.deletedAt ≥ b.deletedAt)

/-- The function `getTrashItems` (`db.go` 306-324). -/
def getTrashItems (env : Env) (db : Store) : Except Err (List Bookmark) :=
  if env.queryErr then Except.error Err.driver
  else Except.ok (orderByDeletedDesc (db.filter (fun b => decide (b.deletedAt > 0))))

/-- The function `restoreBookmark` (`db.go` 332-339). -/
def restoreBookmark (env : Env) (db : Store) (id : String) : Store × Except Err Bool :=
  match getBookmark env db id with
  | Except.error e => (db, Except.error e)
  | Except.ok none => (db, Except.ok false)
  | Except.ok (some bm) =>
    if bm.deletedAt = 0 then (db, Except.ok false)
    else if env.execErr id then (db, Except.error Err.driver)
    else (setDeletedAt db id 0, Except.ok true)

/-- The file part of `permanentDelete` (`db.go` 347-361): remove the HTML file,
remove its directory when `os.ReadDir` then lists nothing, and only after that
remove the thumbnail.  Every error of `os.Remove` is ignored. -/
def removeBackingFiles (env : Env) (fs : FS) (bm : Bookmark) : FS :=
  let fs1 :=
    if bm.filePath ≠ "" then
      let htmlFile := getAbsoluteFilePath env bm.filePath
      let fs0 := fs.removeIgnoringError env.ioErr htmlFile
      let dir := parentDir htmlFile
      match fs0.readDir dir with
      | some [] => fs0.removeIgnoringError env.ioErr dir
      | _ => fs0
    else fs
  if bm.thumbPath ≠ "" then
    fs1.removeIgnoringError env.ioErr (getAbsoluteFilePath env bm.thumbPath)
  else fs1

/-- The function `permanentDelete` (`db.go` 341-365). -/
def permanentDelete (env : Env) (w : World) (id : String) : World × Except Err Bool :=
  match getBookmark env w.db id with
  | Except.error e => (w, Except.error e)
  | Except.ok none => (w, Except.ok false)
  | Except.ok (some bm) =>
    let fs2 := removeBackingFiles env w.fs bm
    if env.execErr id then (⟨fs2, w.db⟩, Except.error Err.driver)
    else (⟨fs2, w.db.filter (fun b => decide (b.id ≠ id))⟩, Except.ok true)

/-- One round of the loops of `emptyTrash` and `purgeExpiredTrash`: delete the
record and count it when `permanentDelete` reports success. -/
def deleteAndCount (env : Env) (acc : World × Int) (item : Bookmark) : World × Int :=
  match permanentDelete env acc.1 item.id with
  | (w1, Except.ok true) => (w1, acc.2 + 1)
  | (w1, _) => (w1, acc.2)

/-- The function `emptyTrash` (`db.go` 367-379). -/
def emptyTrash (env : Env) (w : World) : World × Except Err Int :=
  match getTrashItems env w.db with
  | Except.error e => (w, Except.error e)
  | Except.ok items =>
    let r := items.foldl (deleteAndCount env) (w, 0)
    (r.1, Except.ok r.2)

/-- The function `purgeExpiredTrash` (`db.go` 381-405); `now` is the reading of
`time.Now().UnixMilli()`. -/
def purgeExpiredTrash (env : Env) (w : World) (now : Int) : World × Int :=
  let cutoff := now - trashRetentionMs
  if env.queryErr then (w, 0)
  else
    let expired := w.db.filter (fun b => decide (b.deletedAt > 0 ∧ b.deletedAt < cutoff))
    expired.foldl (deleteAndCount env) (w, 0)

/-! ## Migration of legacy files (`db.go` 420-486) -/

/-- The class `[0-9a-f]` of `uuidPattern`. -/
def isLowerHexChar (c : Char) : Bool := ('0' ≤ c && c ≤ '9') || ('a' ≤ c && c ≤ 'f')

/-- The part `[0-9a-f]{8}-[0-9a-f]{4}-[0-9a-f]{4}-[0-9a-f]{4}-[0-9a-f]{12}` of
`uuidPattern`: 36 characters, hyphens at positions 8, 13, 18 and 23. -/
def isUuidText (cs : List Char) : Bool :=
  decide (cs.length = 36) &&
    cs.enum.all (fun p =>
      if p.1 = 8 ∨ p.1 = 13 ∨ p.1 = 18 ∨ p.1 = 23 then decide (p.2 = '-')
      else isLowerHexChar p.2)

/-- The test `uuidPattern.MatchString(filePath)`: the whole text is `pages/`,
a uuid text and `.html`. -/
def matchesLegacyPattern (filePath : String) : Bool :=
  decide (filePath.data.take 6 = "pages/".data) &&
    isUuidText ((filePath.data.drop 6).take 36) &&
    decide (filePath.data.drop 42 = ".html".data)

/-- The base name `migrateOldFiles` computes for a record (`db.go` 446-452). -/
def migrationBaseName (item : Bookmark) : String :=
  let safeTitle := sanitizeFilename item.title 80
  let safeTitle := if safeTitle = "" then sanitizeFilename item.alias_ 80 else safeTitle
  if safeTitle = "" then "untitled" else safeTitle

/-- The thumbnail step of one migration (`db.go` 469-478): the new file system
and `newThumbRelative`; `none` when `getUniqueFilePath` does not return. -/
def migrateThumbnail (env : Env) (fs : FS) (domainDir : Path) (safeTitle : String)
    (item : Bookmark) : Option (FS × String) :=
  if item.thumbPath ≠ "" then
    match fs.stat (getAbsoluteFilePath env item.thumbPath) with
    | StatResult.found _ =>
      match getUniqueFilePath fs domainDir safeTitle ".png" with
      | none => none
      | some newThumbPath =>
        match fs.rename env.ioErr (getAbsoluteFilePath env item.thumbPath) newThumbPath with
        | none => some (fs, item.thumbPath)
        | some fs1 => some (fs1, toRelativePath env newThumbPath)
    | _ => some (fs, item.thumbPath)
  else some (fs, item.thumbPath)

/-- The statement `UPDATE bookmarks SET file_path = ?, thumb_path = ? WHERE id = ?`,
whose error `migrateOldFiles` ignores. -/
def setPaths (env : Env) (db : Store) (id filePath thumbPath : String) : Store :=
  if env.execErr id then db
  else db.map (fun b => if b.id = id then { b with filePath := filePath, thumbPath := thumbPath }
    else b)

/-- One round of the loop of `migrateOldFiles` (`db.go` 444-484); `none` when a
call of `getUniqueFilePath` does not return.  A failed `os.MkdirAll` is ignored
and taken to leave the file system as it was. -/
def migrateOne (env : Env) (w : World) (item : Bookmark) : Option World :=
  let domain := getDomain env item.url
  let safeTitle := migrationBaseName item
  let domainDir := joinPath (joinPath env.dataDir "pages") domain
  let fs1 := (w.fs.mkdirAll env.ioErr domainDir).getD w.fs
  let oldHtmlPath := getAbsoluteFilePath env item.filePath
  match fs1.stat oldHtmlPath with
  | StatResult.found _ =>
    match getUniqueFilePath fs1 domainDir safeTitle ".html" with
    | none => none
    | some newHtmlPath =>
      match fs1.rename env.ioErr oldHtmlPath newHtmlPath with
      | none => some ⟨fs1, w.db⟩
      | some fs2 =>
        match migrateThumbnail env fs2 domainDir safeTitle item with
        | none => none
        | some (fs3, newThumbRelative) =>
          some ⟨fs3, setPaths env w.db item.id (toRelativePath env newHtmlPath) newThumbRelative⟩
  | _ => some ⟨fs1, w.db⟩

/-- The loop of `migrateOldFiles` over the records to migrate. -/
def migrateAll (env : Env) : World → List Bookmark → Option World
  | w, [] => some w
  | w, item :: rest =>
    match migrateOne env w item with
    | none => none
    | some w1 => migrateAll env w1 rest

/-- The function `migrateOldFiles` (`db.go` 420-486); `none` when it does not
return. -/
def migrateOldFiles (env : Env) (w : World) : Option World :=
  if env.queryErr then some w
  else migrateAll env w (w.db.filter (fun b => matchesLegacyPattern b.filePath))

/-! ## Self-update (`updater.go`) -/

/-- A Go string as its bytes. -/
abbrev Bytes := List UInt8

/-- Result of one liveness probe of the wait loop: `os.FindProcess` fails, or
`tryPing` returns an error (the process is no longer running), or the process
is alive. -/
inductive Probe where
  | alive
  | findFailed
  | pingFailed
deriving DecidableEq, Repr

/-- What `runUpdaterMode` does, in order. -/
inductive Event where
  /-- the probe of round `i` -/
  | probe (i : Nat)
  /-- a call of `time.Sleep` with so many milliseconds -/
  | sleep (ms : Nat)
  /-- the call `os.Rename(selfPath, targetPath)` -/
  | rename (selfPath targetPath : Bytes)
  /-- the call `copyFile(selfPath, targetPath)` -/
  | copy (selfPath targetPath : Bytes)
  /-- the call `os.Remove(selfPath)` -/
  | remove (selfPath : Bytes)
  /-- the call `exec.Command(targetPath).Start()` -/
  | start (targetPath : Bytes)
deriving DecidableEq, Repr

/-- Environment of the updater process. -/
structure UpdaterEnv where
  /-- result of the probe made in round `i` -/
  probes : Nat → Probe
  /-- `os.Executable()`; `none` when it returns an error -/
  executable : Option Bytes
  /-- `os.Rename` succeeds -/
  renameOk : Bool
  /-- `copyFile` succeeds -/
  copyOk : Bool

/-- The wait loop of `runUpdaterMode` (`updater.go` 20-31) from round `i` on,
with `remaining` rounds left before `i` reaches 300. -/
def waitLoop (probes : Nat → Probe) : Nat → Nat → List Event
  | 0, _ => []
  | remaining + 1, i =>
    match probes i with
    | Probe.alive => Event.probe i :: Event.sleep 100 :: waitLoop probes remaining (i + 1)
    | _ => [Event.probe i]

/-- The steps of `runUpdaterMode` after the wait (`updater.go` 33-53). -/
def replaceAndRestart (env : UpdaterEnv) (targetPath : Bytes) : List Event :=
  Event.sleep 500 ::
    (match env.executable with
      | none => []
      | some selfPath =>
        if env.renameOk then [Event.rename selfPath targetPath, Event.start targetPath]
        else if env.copyOk then
          [Event.rename selfPath targetPath, Event.copy selfPath targetPath,
            Event.remove selfPath, Event.start targetPath]
        else [Event.rename selfPath targetPath, Event.copy selfPath targetPath])

/-- The function `runUpdaterMode` (`updater.go` 18-54). -/
def runUpdaterMode (env : UpdaterEnv) (targetPath : Bytes) : List Event :=
  waitLoop env.probes 300 0 ++ replaceAndRestart env targetPath

/-- Outcome of reading the digits of a number (`strconv.ParseUint`, base 10,
64 bits). -/
inductive DigitScan where
  /-- a byte that is not a decimal digit -/
  | invalid
  /-- the value does not fit 64 bits -/
  | overflow
  | value (n : Nat)
deriving DecidableEq, Repr

/-- Reading decimal digits from the left, as `strconv.ParseUint` does. -/
def scanDigits : Bytes → Nat → DigitScan
  | [], acc => DigitScan.value acc
  | b :: bs, acc =>
    if b.toNat < 48 ∨ 57 < b.toNat then DigitScan.invalid
    else if 2 ^ 64 ≤ acc * 10 + (b.toNat - 48) then DigitScan.overflow
    else scanDigits bs (acc * 10 + (b.toNat - 48))

/-- The number `strconv.Atoi` returns, its error dropped, for a 64-bit `int`:
0 for text that is not a number, and the nearest bound when out of range. -/
def atoi (s : Bytes) : Int :=
  let digits := if s.head? = some 45 ∨ s.head? = some 43 then s.drop 1 else s
  if digits = [] then 0
  else
    match scanDigits digits 0 with
    | DigitScan.invalid => 0
    | DigitScan.overflow => if s.head? = some 45 then -(2 ^ 63) else 2 ^ 63 - 1
    | DigitScan.value n =>
      if s.head? = some 45 then (if 2 ^ 63 < n then -(2 ^ 63) else -(n : Int))
      else (if 2 ^ 63 ≤ n then 2 ^ 63 - 1 else (n : Int))

/-- The slice `s[:n]`; `none` is the run-time panic for `n > len(s)`. -/
def sliceTo (s : Bytes) (n : Nat) : Option Bytes :=
  if n ≤ s.length then some (s.take n) else none

/-- The slice `s[n:]`; `none` is the run-time panic for `n > len(s)`. -/
def sliceFrom (s : Bytes) (n : Nat) : Option Bytes :=
  if n ≤ s.length then some (s.drop n) else none

/-- The first test of the loop body of `parseUpdaterArgs` (`updater.go` 131-133):
the new value of `pid`. -/
def parsePidArg (pid : Int) (arg : Bytes) : Option Int :=
  if arg.length > 12 then
    match sliceTo arg 12 with
    | none => none
    | some head =>
      if head = utf8Bytes "--update-pid" then (sliceFrom arg 13).map atoi else some pid
  else some pid

/-- The second test of the loop body of `parseUpdaterArgs` (`updater.go` 134-136):
the new value of `target`. -/
def parseTargetArg (target : Bytes) (arg : Bytes) : Option Bytes :=
  if arg.length > 16 then
    match sliceTo arg 16 with
    | none => none
    | some head =>
      if head = utf8Bytes "--update-target=" then sliceFrom arg 16 else some target
  else some target

/-- The loop of `parseUpdaterArgs` over the arguments. -/
def parseArgs : List Bytes → Int × Bytes → Option (Int × Bytes)
  | [], acc => some acc
  | arg :: rest, acc =>
    match parsePidArg acc.1 arg with
    | none => none
    | some pid =>
      match parseTargetArg acc.2 arg with
      | none => none
      | some target => parseArgs rest (pid, target)

/-- The function `parseUpdaterArgs` (`updater.go` 126-141) on the value of
`os.Args`; `none` is a run-time panic of a slice expression. -/
def parseUpdaterArgs (osArgs : List Bytes) : Option (Int × Bytes × Bool) :=
  match osArgs with
  | [] => none
  | _ :: args =>
    match parseArgs args (0, []) with
    | none => none
    | some (pid, target) =>
      if pid > 0 ∧ target ≠ [] then some (pid, target, true) else some (0, [], false)

/-- The value of `os.Args` in the process that `launchUpdater` starts
(`updater.go` 94-106): the program, `--update-pid=%d` and `--update-target=%s`. -/
def launchUpdaterArgs (tmpPath : Bytes) (pid : Int) (selfPath : Bytes) : List Bytes :=
  [tmpPath, utf8Bytes "--update-pid=" ++ utf8Bytes (toString pid),
    utf8Bytes "--update-target=" ++ selfPath]

/-! ## Startup (`db.go` 58-107) -/

/-- What `db.Exec` returns for an `ALTER TABLE ... ADD COLUMN` statement. -/
inductive AlterResult where
  /-- the column was added -/
  | added
  /-- the error `duplicate column name` -/
  | duplicateColumn
  /-- an error with another cause -/
  | otherError
deriving DecidableEq, Repr

/-- The two columns that `initDB` adds by `ALTER TABLE`. -/
inductive Column where
  | deletedAt
  | notes
deriving DecidableEq, Repr

/-- The columns the `bookmarks` table has after the eleven of the
`CREATE TABLE` statement, in table order, which is the order of `SELECT *`. -/
abbrev Schema := List Column

/-- Environment of `initDB` beyond `Env`. -/
structure StartupEnv where
  /-- `sql.Open` returns an error -/
  openFails : Bool
  /-- the `CREATE TABLE IF NOT EXISTS` statement returns an error -/
  createFails : Bool
  /-- the `i`-th `ADD COLUMN` statement fails for a cause other than an
  existing column -/
  alterFails : Nat → Bool

/-- How `initDB` ends. -/
inductive Startup where
  /-- `log.Fatal("创建数据目录失败:", err)` -/
  | fatalMkdir
  /-- `log.Fatal("打开数据库失败:", err)` -/
  | fatalOpen
  /-- `log.Fatal("建表失败:", err)` -/
  | fatalCreate
  /-- the function returns, with the world and the columns it leaves -/
  | started (w : World) (schema : Schema)
deriving DecidableEq, Repr

/-- One `ADD COLUMN` statement: the columns afterwards, a new column coming
last, and what `db.Exec` returns. -/
def addColumn (schema : Schema) (col : Column) (fails : Bool) : Schema × AlterResult :=
  if fails then (schema, AlterResult.otherError)
  else if schema.contains col then (schema, AlterResult.duplicateColumn)
  else (schema ++ [col], AlterResult.added)

/-- The text is one that `strconv.ParseInt(s, 10, 64)` accepts: an optional
sign, then decimal digits, the value within the 64-bit range. -/
def isInt64Text (s : String) : Bool :=
  let bytes := utf8Bytes s
  let digits := if bytes.head? = some 45 ∨ bytes.head? = some 43 then bytes.drop 1 else bytes
  if digits = [] then false
  else
    match scanDigits digits 0 with
    | DigitScan.value n =>
      if bytes.head? = some 45 then decide (n ≤ 2 ^ 63) else decide (n < 2 ^ 63)
    | _ => false

/-- Whether `scanBookmark` (`db.go` 166-176) succeeds on a row of `SELECT *`.
It reads the columns by position into 13 fields, `deleted_at` twelfth and
`notes` last.  With a column missing the count is wrong and every row fails.
With the two columns in the other order the text of `notes` is converted to
the integer field `DeletedAt`, which fails unless it is a number. -/
def scanSucceeds (schema : Schema) (b : Bookmark) : Bool :=
  if schema = [Column.deletedAt, Column.notes] then true
  else if schema = [Column.notes, Column.deletedAt] then isInt64Text b.notes
  else false

/-- The function `initDB` (`db.go` 58-107) on a table with the given columns;
`none` when `migrateOldFiles` does not return.  The results of the two
`ADD COLUMN` statements are not looked at.  On a table whose columns are not
the thirteen in the order of `scanBookmark`, `migrateOldFiles` and
`purgeExpiredTrash` work on the rows that `scanBookmark` reads without error;
the fields they use of such a row (`id`, `url`, `title`, `alias`, `file_path`,
`thumb_path`) are read from the right columns. -/
def initDB (env : Env) (senv : StartupEnv) (w : World) (schema : Schema) (now : Int) :
    Option Startup :=
  match w.fs.mkdirAll env.ioErr (joinPath env.dataDir "pages") with
  | none => some Startup.fatalMkdir
  | some fs1 =>
    if senv.openFails then some Startup.fatalOpen
    else if senv.createFails then some Startup.fatalCreate
    else
      let s1 := (addColumn schema Column.deletedAt (senv.alterFails 0)).1
      let s2 := (addColumn s1 Column.notes (senv.alterFails 1)).1
      if s2 = [Column.deletedAt, Column.notes] then
        match migrateOldFiles env ⟨fs1, w.db⟩ with
        | none => none
        | some w1 => some (Startup.started (purgeExpiredTrash env w1 now).1 s2)
      else
        let legacy := w.db.filter (fun b => scanSucceeds s2 b && matchesLegacyPattern b.filePath)
        match (if env.queryErr then some ⟨fs1, w.db⟩ else migrateAll env ⟨fs1, w.db⟩ legacy) with
        | none => none
        | some w1 =>
          let expired := w1.db.filter (fun b =>
            scanSucceeds s2 b && decide (b.deletedAt > 0 ∧ b.deletedAt < now - trashRetentionMs))
          if env.queryErr then some (Startup.started w1 s2)
          else some (Startup.started (expired.foldl (deleteAndCount env) (w1, 0)).1 s2)

/-! ## Notions used to state the properties -/

/-- Whether `permanentDelete` of the id reports success in the given world. -/
def deletionSucceeds (env : Env) (w : World) (id : String) : Bool :=
  match (permanentDelete env w id).2 with
  | Except.ok true => true
  | _ => false

/-- A record is in the trash. -/
def isTrashed (b : Bookmark) : Bool := decide (b.deletedAt > 0)

/-- A record is in the trash and its deletion time is before `now - retention`. -/
def isExpired (now retention : Int) (b : Bookmark) : Bool :=
  decide (b.deletedAt > 0 ∧ b.deletedAt < now - retention)

/-- The window `[offset, offset + limit)` of a list: its rows at the positions
`i` with `offset ≤ i < offset + limit`, in order. -/
def pageWindow (rows : List Bookmark) (limit offset : Int) : List Bookmark :=
  (List.range limit.toNat).filterMap
    (fun (k : Nat) => if 0 ≤ offset + (k : Int) then rows[(offset + (k : Int)).toNat]? else none)

/-- The row that `saveBookmark` inserts for an input, given the identifier
bytes, the clock reading, the path of the HTML file and the relative path of
the thumbnail. -/
def savedRow (env : Env) (u : Fin 16 → Nat) (now : Int) (input : SaveInput) (htmlPath : Path)
    (thumbRelative : String) : Bookmark :=
  { id := uuidString u, url := input.url, title := input.title, alias_ := "",
    favicon := if input.favicon.utf8ByteSize > 100000 then "" else input.favicon,
    filePath := toRelativePath env htmlPath, thumbPath := thumbRelative,
    fileSize := input.html.utf8ByteSize, createdAt := now, deletedAt := 0, notes := "",
    tags := "[]", bookmarkId := input.bookmarkId }

/-- Round `j` of `getUniqueFilePath` is the first whose candidate path is not an
entry of the file system. -/
def firstMissing (fs : FS) (dir : Path) (base ext : String) (j : Nat) : Prop :=
  fs.node (candidatePath dir base ext j) = none ∧
    ∀ i, i < j → fs.node (candidatePath dir base ext i) ≠ none

/-- The bytes `saveBookmark` decodes from the screenshot of a request
(`db.go` 201-205): there are some when the text begins with `data:image/` and
what follows its first comma is valid base64. -/
def screenshotData (env : Env) (screenshot : String) : Option (List UInt8) :=
  if "data:image/".data.isPrefixOf screenshot.data then
    match splitFirstComma screenshot.data with
    | none => none
    | some (_, payload) => env.decodeBase64 (String.mk payload)
  else none

/-- The directory `saveBookmark` stores the files of a URL in. -/
def domainDirOf (env : Env) (rawURL : String) : Path :=
  joinPath (joinPath env.dataDir "pages") (getDomain env rawURL)

/-- A host name that is an ordinary path component: not empty, not `.`, not
`..`, and without separator. -/
def plainComponent (h : String) : Prop := h ≠ "" ∧ h ≠ "." ∧ h ≠ ".." ∧ '/' ∉ h.data

instance (h : String) : Decidable (plainComponent h) := by
  unfold plainComponent; infer_instance

/-- The limit `sanitizeFilename` works with: 80 when `maxLen` is not positive. -/
def effectiveMaxLen (maxLen : Int) : Int := if maxLen ≤ 0 then 80 else maxLen

/-- The name after the replacing, collapsing and trimming steps of
`sanitizeFilename`, before it is cut to length. -/
def cleanedChars (name : List Char) : List Char :=
  trimDotsSpaces (collapseUnderscores (replaceIllegal name))

/-- Two neighbouring characters are not both underscores. -/
def notBothUnderscore (a b : Char) : Prop := ¬ (a = '_' ∧ b = '_')

/-- An argument that the first test of `parseUpdaterArgs` accepts: longer than
12 bytes and beginning with `--update-pid`. -/
def isPidArg (arg : Bytes) : Prop := arg.length > 12 ∧ arg.take 12 = utf8Bytes "--update-pid"

/-- An argument that the second test of `parseUpdaterArgs` accepts: longer than
16 bytes and beginning with `--update-target=`. -/
def isTargetArg (arg : Bytes) : Prop :=
  arg.length > 16 ∧ arg.take 16 = utf8Bytes "--update-target="

instance (arg : Bytes) : Decidable (isPidArg arg) := by
  unfold isPidArg; infer_instance

instance (arg : Bytes) : Decidable (isTargetArg arg) := by
  unfold isTargetArg; infer_instance

/-- Number of probes in a trace. -/
def probeCount : List Event → Nat
  | [] => 0
  | Event.probe _ :: rest => probeCount rest + 1
  | _ :: rest => probeCount rest

/-- Number of sleeps in a trace. -/
def sleepCount : List Event → Nat
  | [] => 0
  | Event.sleep _ :: rest => sleepCount rest + 1
  | _ :: rest => sleepCount rest

/-- Milliseconds slept in a trace. -/
def sleepMs : List Event → Nat
  | [] => 0
  | Event.sleep ms :: rest => sleepMs rest + ms
  | _ :: rest => sleepMs rest

/-- The order of `ORDER BY created_at DESC` is total. -/
instance createdDesc_total : IsTotal Bookmark (fun a b => a.createdAt ≥ b.createdAt) :=
  ⟨fun a b => le_total b.createdAt a.createdAt⟩

/-- The order of `ORDER BY created_at DESC` is transitive. -/
instance createdDesc_trans : IsTrans Bookmark (fun a b => a.createdAt ≥ b.createdAt) :=
  ⟨fun _ _ _ h1 h2 => le_trans h2 h1⟩

/-! ## Example data -/

/-- An environment without faults: data root `/srv/data`, every URL on host
`example.com`, a decoder that rejects everything. -/
def quietEnv : Env :=
  { dataDir := ["srv", "data"], hostname := fun _ => some "example.com",
    decodeBase64 := fun _ => none, ioErr := fun _ => false, selectErr := fun _ => false,
    execErr := fun _ => false, queryErr := false, countErr := false }

/-- A record with the given id, creation time and deletion time. -/
def sampleRow (id : String) (createdAt deletedAt : Int) : Bookmark :=
  { id := id, url := "https://example.com/a", title := "T", alias_ := "", favicon := "",
    filePath := "", thumbPath := "", fileSize := 0, createdAt := createdAt,
    deletedAt := deletedAt, notes := "", tags := "[]", bookmarkId := "" }

/-- An environment whose URL parser reports the host `..`, the host of
`http://../a`. -/
def parentHostEnv : Env := { quietEnv with hostname := fun _ => some ".." }

/-- A save request for the page `http://../a` titled `Hello/World`. -/
def parentInput : SaveInput :=
  { url := "http://../a", title := "Hello/World", favicon := "", html := "<p>hi</p>",
    screenshot := "", bookmarkId := "" }

/-- The world after a first start: the directories `/srv`, `/srv/data` and
`/srv/data/pages`, and an empty table. -/
def startedWorld : World :=
  ⟨⟨[(["srv"], Node.dir), (["srv", "data"], Node.dir), (["srv", "data", "pages"], Node.dir)]⟩,
    []⟩

/-- A save request for the page `https://example.com/a` titled `Hello/World`. -/
def helloInput : SaveInput :=
  { url := "https://example.com/a", title := "Hello/World", favicon := "", html := "<p>hi</p>",
    screenshot := "", bookmarkId := "" }

/-- A world whose one record has its HTML file and its thumbnail as the only
entries of `pages/example.com`. -/
def thumbWorld : World :=
  ⟨⟨[(["srv"], Node.dir), (["srv", "data"], Node.dir), (["srv", "data", "pages"], Node.dir),
      (["srv", "data", "pages", "example.com"], Node.dir),
      (["srv", "data", "pages", "example.com", "a.html"], Node.file [60, 112, 62]),
      (["srv", "data", "pages", "example.com", "a.png"], Node.file [137, 80])]⟩,
    [{ sampleRow "a" 1 9 with filePath := "pages/example.com/a.html",
                              thumbPath := "pages/example.com/a.png", fileSize := 3 }]⟩

/-- The same world for a record saved without thumbnail. -/
def plainWorld : World :=
  ⟨⟨[(["srv"], Node.dir), (["srv", "data"], Node.dir), (["srv", "data", "pages"], Node.dir),
      (["srv", "data", "pages", "example.com"], Node.dir),
      (["srv", "data", "pages", "example.com", "a.html"], Node.file [60, 112, 62])]⟩,
    [{ sampleRow "a" 1 9 with filePath := "pages/example.com/a.html", fileSize := 3 }]⟩

/-- A title of 80 emoji (U+1F600), four bytes each in UTF-8. -/
def emojiTitle : String := String.mk (List.replicate 80 (Char.ofNat 128512))

/-- The name `a` followed by the character U+0000. -/
def nulName : String := String.mk ['a', Char.ofNat 0]

/-- An environment whose URL parser reports the host `.`, the host of
`http://./a`. -/
def dotHostEnv : Env := { quietEnv with hostname := fun _ => some "." }

/-- The directories `/srv`, `/srv/data`, `/srv/data/pages` and one legacy file. -/
def legacyFS : FS :=
  ⟨[(["srv"], Node.dir), (["srv", "data"], Node.dir), (["srv", "data", "pages"], Node.dir),
    (["srv", "data", "pages", "0a1b2c3d-0000-4000-8000-00000000000e.html"],
      Node.file [60, 112, 62])]⟩

/-- A legacy record with an empty title and the alias `My Page`. -/
def aliasOnlyWorld : World :=
  ⟨legacyFS,
    [{ sampleRow "0a1b2c3d-0000-4000-8000-00000000000e" 1 0 with
        title := "", alias_ := "My Page",
        filePath := "pages/0a1b2c3d-0000-4000-8000-00000000000e.html", fileSize := 3 }]⟩

/-- A legacy record whose title has itself the shape of a uuid. -/
def uuidTitleWorld : World :=
  ⟨legacyFS,
    [{ sampleRow "0a1b2c3d-0000-4000-8000-00000000000e" 1 0 with
        url := "http://./a", title := "01234567-89ab-cdef-0123-456789abcdef",
        filePath := "pages/0a1b2c3d-0000-4000-8000-00000000000e.html", fileSize := 3 }]⟩

/-- An updater environment in which the controller is gone at the third probe
and the rename succeeds. -/
def quickExitEnv : UpdaterEnv :=
  { probes := fun i => if i < 2 then Probe.alive else Probe.pingFailed,
    executable := some (utf8Bytes "/tmp/chrome-collect-v2"), renameOk := true, copyOk := true }

/-- A start in which the first `ADD COLUMN` statement fails for a cause other
than an existing column. -/
def lockedAlterEnv : StartupEnv :=
  { openFails := false, createFails := false, alterFails := fun i => decide (i = 0) }

/-- An empty world. -/
def emptyWorld : World := ⟨⟨[]⟩, []⟩


/-! ## Lemmas on rows -/

theorem find_none_of_absent (db : Store) (id : String) (h : ∀ b ∈ db, b.id ≠ id) :
    db.find? (fun b => decide (b.id = id)) = none := by
  rw [List.find?_eq_none]
  intro b hb
  simpa using h b hb

theorem find_of_mem_unique (db : Store) (r : Bookmark) (hu : idsUnique db) (hr : r ∈ db) :
    db.find? (fun b => decide (b.id = r.id)) = some r := by
  induction db with
  | nil => cases hr
  | cons a t ih =>
    unfold idsUnique at hu
    simp only [List.map_cons, List.nodup_cons] at hu
    rcases List.mem_cons.1 hr with h | h
    · subst h; simp [List.find?]
    · have hne : a.id ≠ r.id := by
        intro he
        exact hu.1 (he ▸ List.mem_map_of_mem (fun b => b.id) h)
      simp only [List.find?, hne, decide_False]
      exact ih hu.2 h

theorem eq_of_mem_unique (db : Store) (r b : Bookmark) (hu : idsUnique db) (hr : r ∈ db)
    (hb : b ∈ db) (hid : b.id = r.id) : b = r := by
  have h1 := find_of_mem_unique db r hu hr
  have h2 := find_of_mem_unique db b hu hb
  rw [hid, h1] at h2
  exact (Option.some.inj h2).symm

/-- An update of the rows with a given id is the replacement of the one row that has it. -/
theorem map_update_unique (db : Store) (r : Bookmark) (f : Bookmark → Bookmark)
    (hu : idsUnique db) (hr : r ∈ db) (c : Bookmark → Prop) [DecidablePred c]
    (hc : ∀ b ∈ db, c b ↔ b.id = r.id) :
    db.map (fun b => if c b then f b else b) = db.map (fun b => if b = r then f r else b) := by
  apply List.map_congr_left
  intro b hb
  by_cases h : b.id = r.id
  · have := eq_of_mem_unique db r b hu hr hb h
    subst this
    simp [(hc b hb).2 h]
  · have hne : b ≠ r := fun e => h (e ▸ rfl)
    have hnc : ¬ c b := fun e => h ((hc b hb).1 e)
    simp [hne, hnc]

theorem map_update_absent (db : Store) (f : Bookmark → Bookmark) (c : Bookmark → Prop)
    [DecidablePred c] (hc : ∀ b ∈ db, ¬ c b) :
    db.map (fun b => if c b then f b else b) = db := by
  conv_rhs => rw [← List.map_id db]
  apply List.map_congr_left
  intro b hb
  simp [hc b hb]

theorem idsUnique_setDeletedAt (db : Store) (id : String) (t : Int) (hu : idsUnique db) :
    idsUnique (setDeletedAt db id t) := by
  unfold idsUnique setDeletedAt at *
  rw [List.map_map]
  have : ((fun b : Bookmark => b.id) ∘ fun b => if b.id = id then { b with deletedAt := t } else b)
      = fun b => b.id := by
    funext b
    by_cases h : b.id = id <;> simp [h]
  rw [this]; exact hu

/-! ## Theorems -/

/-- C3: the save operation of the HTTP surface validates its input: when the
url or the html of the decoded body is empty it answers 400 and leaves the
file system and the table exactly as they were. -/
theorem handleSave_rejects_empty_input (env : Env) (w : World) (u : Fin 16 → Nat) (now : Int)
    (input : SaveInput) (h : input.url = "" ∨ input.html = "") :
    handleSave env w u now (some input) = some (w, SaveReply.badRequest) := by
  simp [handleSave, h]

theorem handleSave_rejects_empty_input_witness :
    handleSave quietEnv emptyWorld (fun _ => 0) 5
      (some { url := "", title := "t", favicon := "", html := "<p>", screenshot := "",
              bookmarkId := "" }) = some (emptyWorld, SaveReply.badRequest) :=
  handleSave_rejects_empty_input quietEnv emptyWorld (fun _ => 0) 5 _ (Or.inl rfl)

/-- Behaviour of `softDeleteBookmark` in its three cases. -/
theorem softDeleteBookmark_core (env : Env) (db : Store) (now : Int) (id : String)
    (hu : idsUnique db) (hs : env.selectErr id = false) (he : env.execErr id = false) :
    ((∀ b ∈ db, b.id ≠ id) → softDeleteBookmark env db now id = (db, Except.ok false)) ∧
    (∀ r ∈ db, r.id = id → r.deletedAt > 0 →
      softDeleteBookmark env db now id = (db, Except.ok false)) ∧
    (∀ r ∈ db, r.id = id → ¬ r.deletedAt > 0 →
      softDeleteBookmark env db now id =
        (db.map (fun b => if b = r then { r with deletedAt := now } else b),
          Except.ok true)) := by
  refine ⟨?_, ?_, ?_⟩
  · intro h
    simp [softDeleteBookmark, getBookmark, hs, find_none_of_absent db id h]
  · intro r hr hid hdel
    subst hid
    simp [softDeleteBookmark, getBookmark, hs, find_of_mem_unique db r hu hr, hdel]
  · intro r hr hid hdel
    subst hid
    have hm := map_update_unique db r (fun b => { b with deletedAt := now }) hu hr
      (fun b => b.id = r.id) (fun b _ => Iff.rfl)
    simp only [softDeleteBookmark, getBookmark, hs, find_of_mem_unique db r hu hr, he,
      setDeletedAt, if_neg hdel, Bool.false_eq_true, if_false]
    rw [hm]

/-- C6: with the driver executing its statements, `softDeleteBookmark` returns
false without error and leaves the table unchanged when no record has the id
or the record is already trashed; otherwise it returns true and the table
differs only in that record, whose `deletedAt` is now the current time. -/
theorem softDeleteBookmark_spec (env : Env) (db : Store) (now : Int) (id : String)
    (hu : idsUnique db) (hs : env.selectErr id = false) (he : env.execErr id = false) :
    ((∀ b ∈ db, b.id ≠ id) → softDeleteBookmark env db now id = (db, Except.ok false)) ∧
    (∀ r ∈ db, r.id = id → r.deletedAt > 0 →
      softDeleteBookmark env db now id = (db, Except.ok false)) ∧
    (∀ r ∈ db, r.id = id → ¬ r.deletedAt > 0 →
      softDeleteBookmark env db now id =
        (db.map (fun b => if b = r then { r with deletedAt := now } else b),
          Except.ok true)) :=
  softDeleteBookmark_core env db now id hu hs he

theorem softDeleteBookmark_spec_witness :
    softDeleteBookmark quietEnv [sampleRow "a" 1 0, sampleRow "b" 2 9] 50 "a" =
      ([sampleRow "a" 1 50, sampleRow "b" 2 9], Except.ok true) := by
  have h := (softDeleteBookmark_spec quietEnv [sampleRow "a" 1 0, sampleRow "b" 2 9] 50 "a"
    (by decide) rfl rfl).2.2 (sampleRow "a" 1 0) (by decide) rfl (by decide)
  rw [h]
  rfl


/-- C7: with the driver executing its statements and a clock that does not
read 0, soft-deleting an active record and then restoring it both return true
and give back the table as it was, so `getBookmark` returns the record equal in
every field, `deletedAt` being 0 again; `restoreBookmark` on a missing or an
active record returns false and leaves the table unchanged. -/
theorem softDelete_restore_roundtrip (env : Env) (hs : ∀ id, env.selectErr id = false)
    (he : ∀ id, env.execErr id = false) :
    (∀ (db : Store) (now : Int) (r : Bookmark), idsUnique db → r ∈ db → r.deletedAt = 0 →
      now ≠ 0 →
      (softDeleteBookmark env db now r.id).2 = Except.ok true ∧
      (restoreBookmark env (softDeleteBookmark env db now r.id).1 r.id).2 = Except.ok true ∧
      (restoreBookmark env (softDeleteBookmark env db now r.id).1 r.id).1 = db ∧
      getBookmark env (restoreBookmark env (softDeleteBookmark env db now r.id).1 r.id).1 r.id
        = Except.ok (some r)) ∧
    (∀ (db : Store) (id : String), idsUnique db →
      ((∀ b ∈ db, b.id ≠ id) ∨ ∃ b ∈ db, b.id = id ∧ b.deletedAt = 0) →
      restoreBookmark env db id = (db, Except.ok false)) := by
  refine ⟨?_, ?_⟩
  · intro db now r hu hr hact hnow
    have hnot : ¬ r.deletedAt > 0 := by omega
    have h1 := (softDeleteBookmark_core env db now r.id hu (hs _) (he _)).2.2 r hr rfl hnot
    have hmem : ({ r with deletedAt := now } : Bookmark) ∈
        db.map (fun b => if b = r then { r with deletedAt := now } else b) :=
      List.mem_map.2 ⟨r, hr, by simp⟩
    have hu1 : idsUnique (db.map (fun b => if b = r then { r with deletedAt := now } else b)) := by
      have := idsUnique_setDeletedAt db r.id now hu
      rw [setDeletedAt, map_update_unique db r (fun b => { b with deletedAt := now }) hu hr
        (fun b => b.id = r.id) (fun b _ => Iff.rfl)] at this
      exact this
    have hf := find_of_mem_unique _ _ hu1 hmem
    have hback : setDeletedAt
        (db.map (fun b => if b = r then { r with deletedAt := now } else b)) r.id 0 = db := by
      rw [setDeletedAt, List.map_map]
      conv_rhs => rw [← List.map_id db]
      apply List.map_congr_left
      intro b hb
      by_cases hbr : b = r
      · subst hbr
        simp [hact.symm]
      · have hid : b.id ≠ r.id := fun e => hbr (eq_of_mem_unique db r b hu hr hb e)
        simp [hbr, hid]
    have h2 : restoreBookmark env
        (db.map (fun b => if b = r then { r with deletedAt := now } else b)) r.id
        = (db, Except.ok true) := by
      simp only [restoreBookmark, getBookmark, hs, Bool.false_eq_true, if_false]
      have hf2 : List.find? (fun b => decide (b.id = r.id))
          (db.map (fun b => if b = r then { r with deletedAt := now } else b))
          = some { r with deletedAt := now } := hf
      rw [hf2]
      simp only [if_neg hnow, he, Bool.false_eq_true, if_false, hback]
    rw [h1]
    refine ⟨rfl, ?_, ?_, ?_⟩
    · rw [h2]
    · rw [h2]
    · rw [h2]
      simp [getBookmark, hs, find_of_mem_unique db r hu hr]
  · intro db id hu h
    rcases h with h | ⟨b, hb, hid, hact⟩
    · simp [restoreBookmark, getBookmark, hs, find_none_of_absent db id h]
    · subst hid
      simp [restoreBookmark, getBookmark, hs, find_of_mem_unique db b hu hb, hact]

theorem softDelete_restore_roundtrip_witness :
    (restoreBookmark quietEnv
        (softDeleteBookmark quietEnv [sampleRow "a" 1 0, sampleRow "b" 2 9] 50 "a").1 "a").1
      = [sampleRow "a" 1 0, sampleRow "b" 2 9] :=
  ((softDelete_restore_roundtrip quietEnv (fun _ => rfl) (fun _ => rfl)).1
    [sampleRow "a" 1 0, sampleRow "b" 2 9] 50 (sampleRow "a" 1 0) (by decide) (by decide) rfl
    (by decide)).2.2.1


theorem activeCount_pos_iff (db : Store) (id : String) :
    (db.filter (fun b => decide (b.id = id ∧ b.deletedAt = 0))).length > 0 ↔
      ∃ b ∈ db, b.id = id ∧ b.deletedAt = 0 := by
  rw [gt_iff_lt, List.length_pos_iff_exists_mem]
  constructor
  · rintro ⟨b, hb⟩
    rw [List.mem_filter] at hb
    exact ⟨b, hb.1, by simpa using hb.2⟩
  · rintro ⟨b, hb, h⟩
    exact ⟨b, List.mem_filter.2 ⟨hb, by simpa using h⟩⟩

/-- C10: with the driver executing the statement, `updateAlias` (and likewise
`updateNotes`) returns true exactly when an active record with the id exists;
then the table differs only in that record and that record only in its alias
(resp. notes), every other field being kept; when no active record has the id
the table is unchanged. -/
theorem updateAlias_updateNotes_frame (env : Env) (db : Store) (id v : String)
    (hu : idsUnique db) (he : env.execErr id = false) :
    ((updateAlias env db id v).2 = Except.ok true ↔ ∃ b ∈ db, b.id = id ∧ b.deletedAt = 0) ∧
    ((updateAlias env db id v).2 = Except.ok false ↔ ¬ ∃ b ∈ db, b.id = id ∧ b.deletedAt = 0) ∧
    (∀ r ∈ db, r.id = id → r.deletedAt = 0 →
      (updateAlias env db id v).1 = db.map (fun b => if b = r then { r with alias_ := v } else b)) ∧
    ((¬ ∃ b ∈ db, b.id = id ∧ b.deletedAt = 0) → (updateAlias env db id v).1 = db) ∧
    ((updateNotes env db id v).2 = Except.ok true ↔ ∃ b ∈ db, b.id = id ∧ b.deletedAt = 0) ∧
    ((updateNotes env db id v).2 = Except.ok false ↔ ¬ ∃ b ∈ db, b.id = id ∧ b.deletedAt = 0) ∧
    (∀ r ∈ db, r.id = id → r.deletedAt = 0 →
      (updateNotes env db id v).1 = db.map (fun b => if b = r then { r with notes := v } else b)) ∧
    ((¬ ∃ b ∈ db, b.id = id ∧ b.deletedAt = 0) → (updateNotes env db id v).1 = db) := by
  have hcount := activeCount_pos_iff db id
  have hkey : ∀ r ∈ db, r.id = id → r.deletedAt = 0 →
      ∀ b ∈ db, (b.id = id ∧ b.deletedAt = 0) ↔ b.id = r.id := by
    intro r hr hid hact b hb
    constructor
    · intro h; rw [h.1, hid]
    · intro h
      have := eq_of_mem_unique db r b hu hr hb h
      subst this
      exact ⟨hid, hact⟩
  refine ⟨?_, ?_, ?_, ?_, ?_, ?_, ?_, ?_⟩
  · simp only [updateAlias, he, Bool.false_eq_true, if_false]
    rw [← hcount]; simp
  · simp only [updateAlias, he, Bool.false_eq_true, if_false]
    rw [← hcount]; simp
  · intro r hr hid hact
    simp only [updateAlias, he, Bool.false_eq_true, if_false]
    exact map_update_unique db r (fun b => { b with alias_ := v }) hu hr
      (fun b => b.id = id ∧ b.deletedAt = 0) (hkey r hr hid hact)
  · intro h
    simp only [updateAlias, he, Bool.false_eq_true, if_false]
    exact map_update_absent db _ (fun b => b.id = id ∧ b.deletedAt = 0)
      (fun b hb hc => h ⟨b, hb, hc⟩)
  · simp only [updateNotes, he, Bool.false_eq_true, if_false]
    rw [← hcount]; simp
  · simp only [updateNotes, he, Bool.false_eq_true, if_false]
    rw [← hcount]; simp
  · intro r hr hid hact
    simp only [updateNotes, he, Bool.false_eq_true, if_false]
    exact map_update_unique db r (fun b => { b with notes := v }) hu hr
      (fun b => b.id = id ∧ b.deletedAt = 0) (hkey r hr hid hact)
  · intro h
    simp only [updateNotes, he, Bool.false_eq_true, if_false]
    exact map_update_absent db _ (fun b => b.id = id ∧ b.deletedAt = 0)
      (fun b hb hc => h ⟨b, hb, hc⟩)

theorem updateAlias_updateNotes_frame_witness :
    (updateAlias quietEnv [sampleRow "a" 1 0, sampleRow "b" 2 9] "a" "x").1 =
      [{ sampleRow "a" 1 0 with alias_ := "x" }, sampleRow "b" 2 9] ∧
    (updateAlias quietEnv [sampleRow "a" 1 0, sampleRow "b" 2 9] "b" "x").1 =
      [sampleRow "a" 1 0, sampleRow "b" 2 9] := by
  have h := updateAlias_updateNotes_frame quietEnv [sampleRow "a" 1 0, sampleRow "b" 2 9]
  refine ⟨?_, ?_⟩
  · rw [(h "a" "x" (by decide) rfl).2.2.1 (sampleRow "a" 1 0) (by decide) rfl rfl]
    rfl
  · exact (h "b" "x" (by decide) rfl).2.2.2.1 (by decide)


/-! ## The deletion loops -/

theorem permanentDelete_of_mem (env : Env) (w : World) (b : Bookmark) (hu : idsUnique w.db)
    (hb : b ∈ w.db) :
    permanentDelete env w b.id =
      if env.selectErr b.id then (w, Except.error Err.driver)
      else if env.execErr b.id then
        (⟨removeBackingFiles env w.fs b, w.db⟩, Except.error Err.driver)
      else (⟨removeBackingFiles env w.fs b, w.db.filter (fun x => decide (x ≠ b))⟩,
        Except.ok true) := by
  unfold permanentDelete getBookmark
  by_cases hs : env.selectErr b.id = true
  · simp [hs]
  · simp only [hs, if_false, find_of_mem_unique w.db b hu hb]
    by_cases he : env.execErr b.id = true
    · simp [he]
    · have hf : w.db.filter (fun x => decide (x.id ≠ b.id)) =
          w.db.filter (fun x => decide (x ≠ b)) := by
        apply List.filter_congr
        intro x hx
        by_cases hxb : x = b
        · subst hxb; simp
        · have : x.id ≠ b.id := fun e => hxb (eq_of_mem_unique w.db b x hu hb hx e)
          simp [hxb, this]
      simp only [he, hf, Bool.false_eq_true, if_false]

/-- The deletion of a stored record succeeds exactly when the driver fails
neither its `SELECT` nor its `DELETE`. -/
theorem deletionSucceeds_iff (env : Env) (w : World) (b : Bookmark) (hu : idsUnique w.db)
    (hb : b ∈ w.db) :
    deletionSucceeds env w b.id = (!env.selectErr b.id && !env.execErr b.id) := by
  unfold deletionSucceeds
  rw [permanentDelete_of_mem env w b hu hb]
  by_cases hs : env.selectErr b.id = true
  · simp [hs]
  · by_cases he : env.execErr b.id = true
    · simp [hs, he]
    · simp [hs, he]

theorem idsUnique_filter (db : Store) (p : Bookmark → Bool) (hu : idsUnique db) :
    idsUnique (db.filter p) := by
  unfold idsUnique at *
  exact List.Nodup.sublist (List.Sublist.map _ (List.filter_sublist db)) hu

/-- The loop of `emptyTrash` and `purgeExpiredTrash` over pairwise distinct
stored records removes exactly those whose deletion the driver does not fail,
and counts them. -/
theorem foldl_deleteAndCount (env : Env) : ∀ (items : List Bookmark) (w : World) (c : Int),
    idsUnique w.db → items.Nodup → (∀ i ∈ items, i ∈ w.db) →
    ((items.foldl (deleteAndCount env) (w, c)).1.db =
        w.db.filter (fun b => decide (b ∉ items.filter
          (fun i => !env.selectErr i.id && !env.execErr i.id)))) ∧
    ((items.foldl (deleteAndCount env) (w, c)).2 =
        c + ((items.filter (fun i => !env.selectErr i.id && !env.execErr i.id)).length : Int)) := by
  intro items
  induction items with
  | nil =>
    intro w c _ _ _
    simp
  | cons i rest ih =>
    intro w c hu hnd hmem
    have hi : i ∈ w.db := hmem i (List.mem_cons_self _ _)
    have hnd' := List.nodup_cons.1 hnd
    rw [List.foldl_cons]
    have hstep := permanentDelete_of_mem env w i hu hi
    by_cases hs : env.selectErr i.id = true
    · have hd : deleteAndCount env (w, c) i = (w, c) := by
        simp [deleteAndCount, hstep, hs]
      rw [hd]
      have := ih w c hu hnd'.2 (fun j hj => hmem j (List.mem_cons_of_mem _ hj))
      simpa [List.filter_cons, hs] using this
    · by_cases he : env.execErr i.id = true
      · have hd : deleteAndCount env (w, c) i = (⟨removeBackingFiles env w.fs i, w.db⟩, c) := by
          simp [deleteAndCount, hstep, hs, he]
        rw [hd]
        have := ih ⟨removeBackingFiles env w.fs i, w.db⟩ c hu hnd'.2
          (fun j hj => hmem j (List.mem_cons_of_mem _ hj))
        simpa [List.filter_cons, hs, he] using this
      · have hd : deleteAndCount env (w, c) i =
            (⟨removeBackingFiles env w.fs i, w.db.filter (fun x => decide (x ≠ i))⟩, c + 1) := by
          simp [deleteAndCount, hstep, hs, he]
        rw [hd]
        have hmem' : ∀ j ∈ rest, j ∈ w.db.filter (fun x => decide (x ≠ i)) := by
          intro j hj
          refine List.mem_filter.2 ⟨hmem j (List.mem_cons_of_mem _ hj), ?_⟩
          have : j ≠ i := fun e => hnd'.1 (e ▸ hj)
          simpa using this
        have := ih ⟨removeBackingFiles env w.fs i, w.db.filter (fun x => decide (x ≠ i))⟩ (c + 1)
          (idsUnique_filter _ _ hu) hnd'.2 hmem'
        obtain ⟨h1, h2⟩ := this
        refine ⟨?_, ?_⟩
        · rw [h1]
          simp only [List.filter_filter]
          apply List.filter_congr
          intro x _
          simp [List.filter_cons, hs, he, List.mem_cons, not_or]
          exact Bool.and_comm _ _
        · rw [h2]
          simp [List.filter_cons, hs, he]
          ring

theorem nodup_of_idsUnique (db : Store) (hu : idsUnique db) : db.Nodup :=
  List.Nodup.of_map _ hu


/-- What the deletion loop leaves, for a list of stored records given by a predicate. -/
theorem foldl_deleteAndCount_filter (env : Env) (w : World) (items : List Bookmark)
    (p : Bookmark → Bool) (hu : idsUnique w.db) (hperm : items.Perm (w.db.filter p)) :
    (items.foldl (deleteAndCount env) (w, 0)).1.db =
      w.db.filter (fun b => !(p b && deletionSucceeds env w b.id)) ∧
    (items.foldl (deleteAndCount env) (w, 0)).2 =
      ((w.db.filter (fun b => p b && deletionSucceeds env w b.id)).length : Int) := by
  have hnd : items.Nodup :=
    (List.Perm.nodup_iff hperm).2 (List.Nodup.sublist (List.filter_sublist _)
      (nodup_of_idsUnique _ hu))
  have hmem : ∀ i ∈ items, i ∈ w.db := fun i hi =>
    (List.mem_filter.1 ((List.Perm.mem_iff hperm).1 hi)).1
  obtain ⟨h1, h2⟩ := foldl_deleteAndCount env items w 0 hu hnd hmem
  refine ⟨?_, ?_⟩
  · rw [h1]
    apply List.filter_congr
    intro b hb
    have hd := deletionSucceeds_iff env w b hu hb
    have hin : b ∈ items ↔ p b = true := by
      rw [List.Perm.mem_iff hperm, List.mem_filter]
      exact ⟨fun h => h.2, fun h => ⟨hb, h⟩⟩
    rw [hd]
    by_cases hp : p b = true
    · simp [List.mem_filter, hin, hp]
    · simp [List.mem_filter, hin, hp]
  · rw [h2, zero_add]
    congr 1
    rw [List.Perm.length_eq (List.Perm.filter _ hperm), List.filter_filter]
    congr 1
    apply List.filter_congr
    intro b hb
    rw [deletionSucceeds_iff env w b hu hb, Bool.and_comm]

/-- C4: the retention is 604 800 000 ms, and when the driver runs the query and
every deletion of an expired record succeeds, `purgeExpiredTrash` leaves
exactly the records that are not expired (`deletedAt > 0` and
`deletedAt < now - retention`), each as it was, and returns the number of
expired records: an active record, one trashed at `now - R` and one trashed at
`now - R + 1` stay, one trashed at `now - R - 1` goes. -/
theorem purgeExpiredTrash_removes_exactly_expired (env : Env) (w : World) (now : Int)
    (hu : idsUnique w.db) (hq : env.queryErr = false)
    (hok : ∀ b ∈ w.db, isExpired now trashRetentionMs b = true →
      deletionSucceeds env w b.id = true) :
    trashRetentionMs = 604800000 ∧
    (purgeExpiredTrash env w now).1.db =
      w.db.filter (fun b => !isExpired now trashRetentionMs b) ∧
    (purgeExpiredTrash env w now).2 =
      ((w.db.filter (isExpired now trashRetentionMs)).length : Int) ∧
    (∀ b ∈ w.db, (b.deletedAt = 0 ∨ b.deletedAt = now - trashRetentionMs ∨
        b.deletedAt = now - trashRetentionMs + 1) → b ∈ (purgeExpiredTrash env w now).1.db) ∧
    (∀ b ∈ w.db, b.deletedAt > 0 → b.deletedAt = now - trashRetentionMs - 1 →
        b ∉ (purgeExpiredTrash env w now).1.db) := by
  have hfold := foldl_deleteAndCount_filter env w (w.db.filter (isExpired now trashRetentionMs))
    (isExpired now trashRetentionMs) hu (List.Perm.refl _)
  have hrun : purgeExpiredTrash env w now =
      (w.db.filter (isExpired now trashRetentionMs)).foldl (deleteAndCount env) (w, 0) := by
    simp only [purgeExpiredTrash, hq, Bool.false_eq_true, if_false]
    rfl
  have hdb : (purgeExpiredTrash env w now).1.db =
      w.db.filter (fun b => !isExpired now trashRetentionMs b) := by
    rw [hrun, hfold.1]
    apply List.filter_congr
    intro b hb
    by_cases he : isExpired now trashRetentionMs b = true
    · simp [he, hok b hb he]
    · simp [he]
  refine ⟨by decide, hdb, ?_, ?_, ?_⟩
  · rw [hrun, hfold.2]
    congr 2
    apply List.filter_congr
    intro b hb
    by_cases he : isExpired now trashRetentionMs b = true
    · simp [he, hok b hb he]
    · simp [he]
  · intro b hb h
    rw [hdb, List.mem_filter]
    refine ⟨hb, ?_⟩
    simp only [isExpired, Bool.not_eq_true', decide_eq_false_iff_not]
    omega
  · intro b hb hpos h
    rw [hdb, List.mem_filter]
    intro hc
    have := hc.2
    simp only [isExpired, Bool.not_eq_true', decide_eq_false_iff_not] at this
    omega

theorem purgeExpiredTrash_removes_exactly_expired_witness :
    (purgeExpiredTrash quietEnv
        ⟨⟨[]⟩, [sampleRow "a" 1 0, sampleRow "b" 2 1000, sampleRow "c" 3 1001,
          sampleRow "d" 4 999]⟩ 604801000).1.db =
      [sampleRow "a" 1 0, sampleRow "b" 2 1000, sampleRow "c" 3 1001] ∧
    (purgeExpiredTrash quietEnv
        ⟨⟨[]⟩, [sampleRow "a" 1 0, sampleRow "b" 2 1000, sampleRow "c" 3 1001,
          sampleRow "d" 4 999]⟩ 604801000).2 = 1 := by
  have h := purgeExpiredTrash_removes_exactly_expired quietEnv
    ⟨⟨[]⟩, [sampleRow "a" 1 0, sampleRow "b" 2 1000, sampleRow "c" 3 1001,
      sampleRow "d" 4 999]⟩ 604801000 (by decide) rfl (by decide)
  refine ⟨?_, ?_⟩
  · rw [h.2.1]; decide
  · rw [h.2.2.1]; decide

/-- C8: when the driver runs the trash query, `emptyTrash` removes every trashed
record (`deletedAt > 0`) whose `permanentDelete` succeeds, whether or not the
deletion of another one fails, keeps every other record as it was, and returns
the number of deletions that succeeded; in particular active records stay, and
when every deletion succeeds no trashed record remains. -/
theorem emptyTrash_deletes_trashed (env : Env) (w : World) (hu : idsUnique w.db)
    (hq : env.queryErr = false) :
    (emptyTrash env w).2 = Except.ok
      ((w.db.filter (fun b => isTrashed b && deletionSucceeds env w b.id)).length : Int) ∧
    (emptyTrash env w).1.db =
      w.db.filter (fun b => !(isTrashed b && deletionSucceeds env w b.id)) ∧
    (∀ b ∈ w.db, b.deletedAt = 0 → b ∈ (emptyTrash env w).1.db) ∧
    ((∀ b ∈ w.db, isTrashed b = true → deletionSucceeds env w b.id = true) →
      ∀ b ∈ (emptyTrash env w).1.db, ¬ b.deletedAt > 0) := by
  have hperm : (orderByDeletedDesc (w.db.filter isTrashed)).Perm (w.db.filter isTrashed) :=
    List.perm_insertionSort _ _
  have hfold := foldl_deleteAndCount_filter env w _ isTrashed hu hperm
  have hrun : emptyTrash env w =
      (((orderByDeletedDesc (w.db.filter isTrashed)).foldl (deleteAndCount env) (w, 0)).1,
        Except.ok ((orderByDeletedDesc (w.db.filter isTrashed)).foldl
          (deleteAndCount env) (w, 0)).2) := by
    simp only [emptyTrash, getTrashItems, hq, Bool.false_eq_true, if_false]
    rfl
  have hdb : (emptyTrash env w).1.db =
      w.db.filter (fun b => !(isTrashed b && deletionSucceeds env w b.id)) := by
    rw [hrun]; exact hfold.1
  refine ⟨?_, hdb, ?_, ?_⟩
  · rw [hrun]; simp only [hfold.2]
  · intro b hb hact
    rw [hdb, List.mem_filter]
    refine ⟨hb, ?_⟩
    simp [isTrashed, hact]
  · intro hall b hb
    rw [hdb, List.mem_filter] at hb
    intro hpos
    have ht : isTrashed b = true := by simp [isTrashed, hpos]
    have := hb.2
    simp [ht, hall b hb.1 ht] at this

theorem emptyTrash_deletes_trashed_witness :
    (emptyTrash { quietEnv with execErr := fun id => decide (id = "b") }
        ⟨⟨[]⟩, [sampleRow "a" 1 0, sampleRow "b" 2 7, sampleRow "c" 3 5]⟩).1.db =
      [sampleRow "a" 1 0, sampleRow "b" 2 7] := by
  rw [(emptyTrash_deletes_trashed { quietEnv with execErr := fun id => decide (id = "b") }
    ⟨⟨[]⟩, [sampleRow "a" 1 0, sampleRow "b" 2 7, sampleRow "c" 3 5]⟩ (by decide) rfl).2.1]
  decide


/-! ## Listing -/

theorem pageWindow_nat (rows : List Bookmark) (l o : Nat) :
    pageWindow rows (l : Int) (o : Int) = (rows.drop o).take l := by
  unfold pageWindow
  simp only [Int.toNat_ofNat]
  induction l with
  | zero => simp
  | succ n ih =>
    rw [List.range_succ, List.filterMap_append, ih, List.take_succ]
    congr 1
    have h0 : (0 : Int) ≤ (o : Int) + (n : Int) := by omega
    have h1 : ((o : Int) + (n : Int)).toNat = o + n := by omega
    simp only [List.filterMap_cons, List.filterMap_nil, h0, if_true, h1, List.getElem?_drop]
    cases rows[o + n]? <;> rfl

theorem limitOffset_eq_window (rows : List Bookmark) (limit offset : Int) :
    limitOffset rows limit offset =
      pageWindow rows (if limit < 0 then (rows.length : Int) else limit) (max offset 0) := by
  obtain ⟨o, ho⟩ : ∃ o : Nat, max offset 0 = (o : Int) := ⟨(max offset 0).toNat, by omega⟩
  have ho' : offset.toNat = o := by omega
  unfold limitOffset
  rw [ho, ho']
  by_cases hl : limit < 0
  · simp only [hl, if_true]
    rw [pageWindow_nat]
    rw [List.take_of_length_le]
    simp
  · obtain ⟨l, hl'⟩ : ∃ l : Nat, limit = (l : Int) := ⟨limit.toNat, by omega⟩
    subst hl'
    simp only [hl, if_false, pageWindow_nat, Int.toNat_ofNat]


theorem matchesFilter_sound (q urlParam : String) (b : Bookmark)
    (h : matchesFilter q urlParam b = true) :
    b.deletedAt = 0 ∧ (urlParam ≠ "" → b.url = urlParam) ∧
    (urlParam = "" → q ≠ "" →
      sqliteLike ("%" ++ q ++ "%") b.title = true ∨
      sqliteLike ("%" ++ q ++ "%") b.alias_ = true ∨
      sqliteLike ("%" ++ q ++ "%") b.url = true) := by
  unfold matchesFilter at h
  rw [Bool.and_eq_true] at h
  obtain ⟨h1, h2⟩ := h
  refine ⟨by simpa using h1, ?_, ?_⟩
  · intro hu
    rw [if_pos hu] at h2
    simpa using h2
  · intro hu hq
    rw [if_neg (not_not.2 hu), if_pos hq] at h2
    simpa [Bool.or_eq_true, or_assoc] using h2

/-- C9 (amended): with the driver running both queries, `getAllBookmarks`
returns only stored records with `deletedAt = 0` that match the filter (the
exact URL when one is given, else the `LIKE` search when `q` is given, which
reads `q` and the title, alias and URL up to their first U+0000 only), ordered
by `createdAt` descending; the page is the window `[offset, offset + limit)` of
the ordered matches when `limit` and `offset` are not negative, a negative
offset counting as 0 and a negative limit as no limit; the total is the number
of all active matching records, whatever `limit` and `offset` are. -/
theorem getAllBookmarks_page (env : Env) (db : Store) (q urlParam : String)
    (limit offset : Int) (hc : env.countErr = false) (hq : env.queryErr = false) :
    ∃ items ordered,
      getAllBookmarks env db q urlParam limit offset =
        Except.ok (items, ((db.filter (matchesFilter q urlParam)).length : Int)) ∧
      (∀ b ∈ items, b ∈ db ∧ b.deletedAt = 0 ∧ (urlParam ≠ "" → b.url = urlParam) ∧
        (urlParam = "" → q ≠ "" →
          sqliteLike ("%" ++ q ++ "%") b.title = true ∨
          sqliteLike ("%" ++ q ++ "%") b.alias_ = true ∨
          sqliteLike ("%" ++ q ++ "%") b.url = true)) ∧
      items.Pairwise (fun a b => a.createdAt ≥ b.createdAt) ∧
      ordered.Perm (db.filter (matchesFilter q urlParam)) ∧
      ordered.Pairwise (fun a b => a.createdAt ≥ b.createdAt) ∧
      items = pageWindow ordered (if limit < 0 then (ordered.length : Int) else limit)
        (max offset 0) ∧
      (0 ≤ limit → 0 ≤ offset → items = pageWindow ordered limit offset) := by
  have hperm : (orderByCreatedDesc (db.filter (matchesFilter q urlParam))).Perm
      (db.filter (matchesFilter q urlParam)) := List.perm_insertionSort _ _
  have hsorted : (orderByCreatedDesc (db.filter (matchesFilter q urlParam))).Pairwise
      (fun a b => a.createdAt ≥ b.createdAt) :=
    List.sorted_insertionSort (fun a b : Bookmark => a.createdAt ≥ b.createdAt) _
  have hsub : (limitOffset (orderByCreatedDesc (db.filter (matchesFilter q urlParam)))
      limit offset).Sublist (orderByCreatedDesc (db.filter (matchesFilter q urlParam))) := by
    unfold limitOffset
    by_cases hl : limit < 0
    · simp only [hl, if_true]
      exact List.drop_sublist _ _
    · simp only [hl, if_false]
      exact (List.take_sublist _ _).trans (List.drop_sublist _ _)
  refine ⟨limitOffset (orderByCreatedDesc (db.filter (matchesFilter q urlParam))) limit offset,
    orderByCreatedDesc (db.filter (matchesFilter q urlParam)), ?_, ?_, ?_, hperm, hsorted, ?_, ?_⟩
  · simp [getAllBookmarks, hc, hq]
  · intro b hb
    have hb1 := (List.Perm.mem_iff hperm).1 (hsub.subset hb)
    rw [List.mem_filter] at hb1
    exact ⟨hb1.1, matchesFilter_sound q urlParam b hb1.2⟩
  · exact List.Pairwise.sublist hsub hsorted
  · exact limitOffset_eq_window _ limit offset
  · intro hl ho
    rw [limitOffset_eq_window]
    have h1 : ¬ limit < 0 := by omega
    rw [if_neg h1, max_eq_left ho]

theorem getAllBookmarks_page_witness :
    ∃ items ordered,
      getAllBookmarks quietEnv [sampleRow "a" 1 0, sampleRow "b" 2 9, sampleRow "c" 3 0]
        "" "https://example.com/a" 1 1 = Except.ok (items, 2) ∧
      ordered.Perm [sampleRow "a" 1 0, sampleRow "c" 3 0] ∧
      items = pageWindow ordered 1 1 := by
  obtain ⟨items, ordered, h1, _, _, h4, _, _, h7⟩ := getAllBookmarks_page quietEnv
    [sampleRow "a" 1 0, sampleRow "b" 2 9, sampleRow "c" 3 0] "" "https://example.com/a" 1 1
    rfl rfl
  exact ⟨items, ordered, h1, h4, h7 (by decide) (by decide)⟩

/-- The `LIKE` search stops at U+0000: a search text that begins with it leaves
the pattern `%`, which every active record matches, and a title is searched
only up to its first U+0000. -/
theorem getAllBookmarks_search_stops_at_nul :
    getAllBookmarks quietEnv [sampleRow "a" 1 0, sampleRow "b" 2 0]
      (String.mk [Char.ofNat 0, 'z', 'z', 'z']) "" 10 0 =
        Except.ok ([sampleRow "b" 2 0, sampleRow "a" 1 0], 2) ∧
    getAllBookmarks quietEnv
      [{ sampleRow "a" 1 0 with title := String.mk ['a', 'b', Char.ofNat 0, 'n'] }]
      "n" "" 10 0 = Except.ok ([], 0) ∧
    getAllBookmarks quietEnv
      [{ sampleRow "a" 1 0 with title := String.mk ['a', 'n', Char.ofNat 0, 'b'] }]
      "N" "" 10 0 = Except.ok
        ([{ sampleRow "a" 1 0 with title := String.mk ['a', 'n', Char.ofNat 0, 'b'] }], 1) := by
  refine ⟨by rfl, by rfl, by rfl⟩

/-- C9, as stated, fails for a negative offset: with one active record, limit 1
and offset -1 the window `[-1, 0)` holds no position, yet `getAllBookmarks`
returns the record. -/
theorem getAllBookmarks_negative_offset :
    getAllBookmarks quietEnv [sampleRow "a" 1 0] "" "" 1 (-1) =
      Except.ok ([sampleRow "a" 1 0], 1) ∧
    pageWindow (orderByCreatedDesc ([sampleRow "a" 1 0].filter (matchesFilter "" ""))) 1 (-1)
      = [] ∧
    ¬ (∀ (db : Store) (q urlParam : String) (limit offset : Int),
        getAllBookmarks quietEnv db q urlParam limit offset =
          Except.ok (pageWindow (orderByCreatedDesc (db.filter (matchesFilter q urlParam)))
            limit offset, ((db.filter (matchesFilter q urlParam)).length : Int))) := by
  have h1 : getAllBookmarks quietEnv [sampleRow "a" 1 0] "" "" 1 (-1) =
      Except.ok ([sampleRow "a" 1 0], 1) := by rfl
  have h2 : pageWindow (orderByCreatedDesc ([sampleRow "a" 1 0].filter (matchesFilter "" "")))
      1 (-1) = [] := by rfl
  refine ⟨h1, h2, ?_⟩
  intro h
  have h3 := h [sampleRow "a" 1 0] "" "" 1 (-1)
  rw [h1, h2] at h3
  simp at h3


/-! ## File-system lemmas -/

theorem find_filter_ne (l : List (Path × Node)) (p q : Path) (hqp : q ≠ p) :
    (l.filter (fun e => decide (e.1 ≠ p))).find? (fun e => decide (e.1 = q)) =
      l.find? (fun e => decide (e.1 = q)) := by
  induction l with
  | nil => rfl
  | cons e t ih =>
    by_cases h1 : e.1 = p
    · have h2 : ¬ e.1 = q := fun e2 => hqp (e2 ▸ h1)
      have hf : (e :: t).filter (fun e => decide (e.1 ≠ p)) =
          t.filter (fun e => decide (e.1 ≠ p)) := by
        rw [List.filter_cons]; simp only [h1, ne_eq, not_true_eq_false, decide_False]
        rfl
      rw [hf, ih, List.find?_cons]
      simp only [h2, decide_False]
    · have hf : (e :: t).filter (fun e => decide (e.1 ≠ p)) =
          e :: t.filter (fun e => decide (e.1 ≠ p)) := by
        rw [List.filter_cons]; simp only [h1, ne_eq, not_false_eq_true, decide_True, if_true]
      rw [hf, List.find?_cons, List.find?_cons, ih]

theorem node_put (fs : FS) (p q : Path) (n : Node) (hp : p ≠ []) :
    (fs.put p n).node q = if q = p then some n else fs.node q := by
  unfold FS.node FS.put
  by_cases hq : q = []
  · subst hq
    have : ([] : Path) ≠ p := fun e => hp e.symm
    simp [this]
  · by_cases hqp : q = p
    · subst hqp
      simp [hq, List.find?]
    · have hpq : ¬ p = q := fun e => hqp e.symm
      simp only [hq, hqp, if_false, List.find?_cons, hpq, decide_False]
      rw [find_filter_ne _ _ _ hqp]

theorem node_erase (fs : FS) (p q : Path) (hq : q ≠ []) :
    (fs.erase p).node q = if q = p then none else fs.node q := by
  unfold FS.node FS.erase
  simp only [hq, if_false]
  by_cases hqp : q = p
  · subst hqp
    simp only [if_true, Option.map_eq_none', List.find?_eq_none]
    intro e he
    rw [List.mem_filter] at he
    simpa using he.2
  · simp only [hqp, if_false]
    rw [find_filter_ne _ _ _ hqp]

theorem osAccepts_iff (p : Path) :
    osAccepts p = true ↔
      hasNul p = false ∧ pathBytes p < pathMax ∧ ∀ c ∈ p, c.utf8ByteSize ≤ nameMax := by
  unfold osAccepts
  simp [Bool.and_eq_true, and_assoc]

/-- On a path the operating system accepts, `os.Stat` is plain resolution. -/
theorem stat_of_accepts (fs : FS) (p : Path) (h : osAccepts p = true) :
    fs.stat p = statFrom fs [] p := by
  obtain ⟨h1, h2, _⟩ := (osAccepts_iff p).1 h
  unfold FS.stat
  rw [h1, if_neg (by simp), if_neg (by omega)]

theorem hasNul_append (p q : Path) : hasNul (p ++ q) = (hasNul p || hasNul q) := by
  unfold hasNul
  rw [List.any_append]

theorem pathBytes_append (p q : Path) : pathBytes (p ++ q) = pathBytes p + pathBytes q := by
  unfold pathBytes
  rw [List.map_append, List.sum_append]

theorem pathBytes_single (c : String) : pathBytes [c] = c.utf8ByteSize + 1 := by
  simp [pathBytes]

/-- Resolution only looks at the entries of the prefixes of the path. -/
theorem statFrom_congr (fs fs1 : FS) : ∀ (rest : List String) (pre : Path),
    (∀ q, q.length ≤ pre.length + rest.length → fs1.node q = fs.node q) →
    statFrom fs1 pre rest = statFrom fs pre rest := by
  intro rest
  induction rest with
  | nil => intro pre _; rfl
  | cons c r ih =>
    intro pre h
    have hc : fs1.node (pre ++ [c]) = fs.node (pre ++ [c]) := by
      apply h
      simp
    have hrec : statFrom fs1 (pre ++ [c]) r = statFrom fs (pre ++ [c]) r := by
      apply ih
      intro q hq
      apply h
      simp only [List.length_append, List.length_cons, List.length_nil] at hq ⊢
      omega
    simp only [statFrom, hc, hrec]

theorem mkdirFrom_keeps_dirs (ioErr : Path → Bool) : ∀ (rest : List String) (fs fs1 : FS)
    (pre : Path), mkdirFrom ioErr fs pre rest = some fs1 →
    ∀ q, fs.node q = some Node.dir → fs1.node q = some Node.dir := by
  intro rest
  induction rest with
  | nil =>
    intro fs fs1 pre h q hq
    simp only [mkdirFrom, Option.some.injEq] at h
    subst h; exact hq
  | cons c r ih =>
    intro fs fs1 pre h q hq
    unfold mkdirFrom at h
    cases hn : fs.node (pre ++ [c]) with
    | none =>
      rw [hn] at h
      by_cases hio : ioErr (pre ++ [c]) = true
      · simp [hio] at h
      · simp only [hio, if_false] at h
        apply ih _ _ _ h
        rw [node_put _ _ _ _ (by simp)]
        by_cases hqp : q = pre ++ [c]
        · simp [hqp]
        · simp [hqp, hq]
    | some n =>
      rw [hn] at h
      cases n with
      | dir => exact ih _ _ _ h q hq
      | file d => simp at h

theorem mkdirFrom_frame (ioErr : Path → Bool) : ∀ (rest : List String) (fs fs1 : FS)
    (pre : Path), mkdirFrom ioErr fs pre rest = some fs1 →
    ∀ q, pre.length + rest.length < q.length → fs1.node q = fs.node q := by
  intro rest
  induction rest with
  | nil =>
    intro fs fs1 pre h q _
    simp only [mkdirFrom, Option.some.injEq] at h
    subst h; rfl
  | cons c r ih =>
    intro fs fs1 pre h q hq
    have hlen : (pre ++ [c]).length + r.length < q.length := by
      simp only [List.length_append, List.length_cons, List.length_nil] at hq ⊢
      omega
    unfold mkdirFrom at h
    cases hn : fs.node (pre ++ [c]) with
    | none =>
      rw [hn] at h
      by_cases hio : ioErr (pre ++ [c]) = true
      · simp [hio] at h
      · simp only [hio, if_false] at h
        rw [ih _ _ _ h q hlen, node_put _ _ _ _ (by simp)]
        have hqp : q ≠ pre ++ [c] := by
          intro e
          rw [e] at hlen
          omega
        simp [hqp]
    | some n =>
      rw [hn] at h
      cases n with
      | dir => exact ih _ _ _ h q hlen
      | file d => simp at h

/-- After `os.MkdirAll` the created path resolves as a directory. -/
theorem mkdirFrom_resolves (ioErr : Path → Bool) : ∀ (rest : List String) (fs fs1 : FS)
    (pre : Path), (∀ c ∈ rest, c.utf8ByteSize ≤ nameMax) →
    mkdirFrom ioErr fs pre rest = some fs1 →
    ∀ tail, statFrom fs1 pre (rest ++ tail) = statFrom fs1 (pre ++ rest) tail := by
  intro rest
  induction rest with
  | nil => intro fs fs1 pre _ _ tail; simp
  | cons c r ih =>
    intro fs fs1 pre hshort h tail
    have hc : ¬ nameMax < c.utf8ByteSize := by
      have := hshort c (List.mem_cons_self _ _)
      omega
    have hdir : fs1.node (pre ++ [c]) = some Node.dir := by
      unfold mkdirFrom at h
      cases hn : fs.node (pre ++ [c]) with
      | none =>
        rw [hn] at h
        by_cases hio : ioErr (pre ++ [c]) = true
        · simp [hio] at h
        · simp only [hio, if_false] at h
          apply mkdirFrom_keeps_dirs ioErr _ _ _ _ h
          rw [node_put _ _ _ _ (by simp)]
          simp
      | some n =>
        rw [hn] at h
        cases n with
        | dir => exact mkdirFrom_keeps_dirs ioErr _ _ _ _ h _ hn
        | file d => simp at h
    have hrec : mkdirFrom ioErr
        (match fs.node (pre ++ [c]) with
          | none => fs.put (pre ++ [c]) Node.dir
          | some _ => fs) (pre ++ [c]) r = some fs1 := by
      unfold mkdirFrom at h
      cases hn : fs.node (pre ++ [c]) with
      | none =>
        rw [hn] at h
        by_cases hio : ioErr (pre ++ [c]) = true
        · simp [hio] at h
        · simpa [hio] using h
      | some n =>
        rw [hn] at h
        cases n with
        | dir => simpa using h
        | file d => simp at h
    have := ih _ _ _ (fun x hx => hshort x (List.mem_cons_of_mem _ hx)) hrec tail
    rw [List.cons_append, statFrom, if_neg hc, hdir]
    simp only
    rw [this]
    simp


/-! ## Path and name lemmas -/

theorem statFrom_append_of_dir (fs : FS) : ∀ (rest : List String) (pre : Path),
    statFrom fs pre rest = StatResult.found Node.dir →
    ∀ tail, statFrom fs pre (rest ++ tail) = statFrom fs (pre ++ rest) tail := by
  intro rest
  induction rest with
  | nil => intro pre _ tail; simp
  | cons c r ih =>
    intro pre h tail
    rw [statFrom] at h
    rw [List.cons_append, statFrom]
    by_cases hc : nameMax < c.utf8ByteSize
    · rw [if_pos hc] at h; cases h
    · rw [if_neg hc] at h ⊢
      cases hn : fs.node (pre ++ [c]) with
      | none => rw [hn] at h; simp at h
      | some n =>
        rw [hn] at h
        cases n with
        | dir =>
          simp only at h ⊢
          rw [ih _ h tail]
          simp
        | file d =>
          simp only at h
          by_cases hr : r = []
          · simp [hr] at h
          · simp [hr] at h

/-- What `os.Stat` tells when it finds a directory: the path has passed the
checks on its text and resolves. -/
theorem stat_dir_inv (fs : FS) (d : Path) (hd : fs.stat d = StatResult.found Node.dir) :
    hasNul d = false ∧ pathBytes d < pathMax ∧
      statFrom fs [] d = StatResult.found Node.dir := by
  unfold FS.stat at hd
  by_cases h1 : hasNul d = true
  · rw [if_pos h1] at hd; cases hd
  · rw [if_neg h1] at hd
    by_cases h2 : pathMax ≤ pathBytes d
    · rw [if_pos h2] at hd; cases hd
    · rw [if_neg h2] at hd
      exact ⟨by simpa using h1, by omega, hd⟩

/-- Below a directory, `os.Stat` of a name the operating system accepts finds
the entry or reports ENOENT. -/
theorem stat_child (fs : FS) (d : Path) (name : String)
    (hd : fs.stat d = StatResult.found Node.dir) (hok : osAccepts (d ++ [name]) = true) :
    fs.stat (d ++ [name]) =
      match fs.node (d ++ [name]) with
      | none => StatResult.notExist
      | some n => StatResult.found n := by
  obtain ⟨_, _, hres⟩ := stat_dir_inv fs d hd
  obtain ⟨_, _, h3⟩ := (osAccepts_iff _).1 hok
  have hname : ¬ nameMax < name.utf8ByteSize := by
    have := h3 name (by simp)
    omega
  rw [stat_of_accepts fs _ hok, statFrom_append_of_dir fs d [] hres [name]]
  simp only [List.nil_append, statFrom, if_neg hname]
  cases fs.node (d ++ [name]) with
  | none => rfl
  | some n => cases n <;> simp

theorem splitSlash_of_no_slash : ∀ (l : List Char), '/' ∉ l → splitSlash l = [l] := by
  intro l
  induction l with
  | nil => intro _; rfl
  | cons c cs ih =>
    intro h
    have hc : c ≠ '/' := fun e => h (e ▸ List.mem_cons_self _ _)
    have hcs : '/' ∉ cs := fun e => h (List.mem_cons_of_mem _ e)
    simp only [splitSlash, hc, if_false, ih hcs]

theorem joinPath_single (base : Path) (s : String) (h1 : '/' ∉ s.data) (h2 : s ≠ "")
    (h3 : s ≠ ".") (h4 : s ≠ "..") : joinPath base s = base ++ [s] := by
  unfold joinPath components
  rw [splitSlash_of_no_slash _ h1]
  simp [pushComponent, h2, h3, h4]

theorem commonLen_append (base rest : Path) : commonLen base (base ++ rest) = base.length := by
  induction base with
  | nil => cases rest <;> rfl
  | cons a t ih => simp [commonLen, ih]

theorem relPath_below (base : Path) (a b c : String) :
    relPath base (base ++ [a, b, c]) = a ++ "/" ++ b ++ "/" ++ c := by
  unfold relPath
  simp only [commonLen_append, Nat.sub_self, List.replicate_zero, List.nil_append,
    List.drop_left]
  rfl

/-! ### Sanitised names -/

theorem mem_collapseUnderscores : ∀ (l : List Char) (c : Char),
    c ∈ collapseUnderscores l → c ∈ l := by
  intro l
  induction l with
  | nil => intro c h; simp [collapseUnderscores] at h
  | cons a t ih =>
    intro c h
    unfold collapseUnderscores at h
    by_cases ha : a = '_'
    · simp only [ha, if_true] at h
      subst ha
      cases hc : collapseUnderscores t with
      | nil =>
        rw [hc] at h
        simp only [List.mem_singleton] at h
        simp [h]
      | cons d ds =>
        rw [hc] at h
        by_cases hd : d = '_'
        · simp only [hd, if_true] at h
          rcases List.mem_cons.1 h with h | h
          · simp [h]
          · exact List.mem_cons_of_mem _ (ih c (by rw [hc]; exact List.mem_cons_of_mem _ h))
        · simp only [hd, if_false] at h
          rcases List.mem_cons.1 h with h | h
          · simp [h]
          · exact List.mem_cons_of_mem _ (ih c (by rw [hc]; exact h))
    · simp only [ha, if_false] at h
      rcases List.mem_cons.1 h with h | h
      · simp [h]
      · exact List.mem_cons_of_mem _ (ih c h)

theorem mem_trimDotsSpaces (l : List Char) (c : Char) (h : c ∈ trimDotsSpaces l) : c ∈ l := by
  unfold trimDotsSpaces at h
  rw [List.mem_reverse] at h
  have h1 := (List.dropWhile_sublist _).subset h
  rw [List.mem_reverse] at h1
  exact (List.dropWhile_sublist _).subset h1

theorem sanitizeChars_shape (name : List Char) (maxLen : Int) :
    ∃ safe : List Char, safe.Sublist (trimDotsSpaces (collapseUnderscores (replaceIllegal name))) ∧
      sanitizeChars name maxLen = if safe = [] then "untitled".data else safe := by
  refine ⟨if ((trimDotsSpaces (collapseUnderscores (replaceIllegal name))).length : Int) >
      (if maxLen ≤ 0 then 80 else maxLen) then
      (trimDotsSpaces (collapseUnderscores (replaceIllegal name))).take
        (if maxLen ≤ 0 then 80 else maxLen).toNat
      else trimDotsSpaces (collapseUnderscores (replaceIllegal name)), ?_, rfl⟩
  split_ifs
  all_goals first
    | exact List.take_sublist _ _
    | exact List.Sublist.refl _

/-- No character of the class of `illegalCharsRe` is left in a sanitised name. -/
theorem sanitizeChars_legal (name : List Char) (maxLen : Int) (c : Char)
    (hc : isIllegalChar c = true) : c ∉ sanitizeChars name maxLen := by
  intro h
  obtain ⟨safe, hsub, heq⟩ := sanitizeChars_shape name maxLen
  rw [heq] at h
  by_cases hs : safe = []
  · rw [if_pos hs] at h
    have hu : ∀ x ∈ "untitled".data, isIllegalChar x = false := by decide
    rw [hu c h] at hc
    cases hc
  · rw [if_neg hs] at h
    have h2 := mem_collapseUnderscores _ _ (mem_trimDotsSpaces _ _ (hsub.subset h))
    unfold replaceIllegal at h2
    rw [List.mem_map] at h2
    obtain ⟨a, _, ha⟩ := h2
    by_cases hia : isIllegalChar a = true
    · simp only [hia, if_true] at ha
      subst ha
      revert hc; decide
    · simp only [hia, if_false] at ha
      subst ha
      exact hia hc

theorem sanitizeChars_ne_nil (name : List Char) (maxLen : Int) :
    sanitizeChars name maxLen ≠ [] := by
  obtain ⟨safe, _, heq⟩ := sanitizeChars_shape name maxLen
  rw [heq]
  by_cases hs : safe = []
  · rw [if_pos hs]; decide
  · rw [if_neg hs]; exact hs

theorem sanitizeFilename_ne_empty (name : String) (maxLen : Int) :
    sanitizeFilename name maxLen ≠ "" := by
  intro h
  have := congrArg String.data h
  exact sanitizeChars_ne_nil name.data maxLen this


/-! ## Decimal counters -/

/-- One step of reading a digit sequence in base ten. -/
theorem decimal_value_step (acc : Nat) (c : Char) (cs : List Char) :
    List.foldl (fun a (x : Char) => a * 10 + (x.toNat - 48)) acc (c :: cs) =
      List.foldl (fun a (x : Char) => a * 10 + (x.toNat - 48)) (acc * 10 + (c.toNat - 48)) cs :=
  rfl

theorem digitChar_value (m : Nat) (h : m < 10) : (Nat.digitChar m).toNat - 48 = m := by
  interval_cases m <;> rfl

theorem digitChar_ne_slash (m : Nat) (h : m < 10) : Nat.digitChar m ≠ '/' := by
  interval_cases m <;> decide

theorem toDigitsCore_value : ∀ (fuel n : Nat) (ds : List Char), n < fuel →
    List.foldl (fun a (x : Char) => a * 10 + (x.toNat - 48)) 0 (Nat.toDigitsCore 10 fuel n ds) =
      List.foldl (fun a (x : Char) => a * 10 + (x.toNat - 48)) n ds := by
  intro fuel
  induction fuel with
  | zero => intro n ds h; omega
  | succ f ih =>
    intro n ds h
    unfold Nat.toDigitsCore
    simp only
    have hd := digitChar_value (n % 10) (Nat.mod_lt _ (by decide))
    by_cases h0 : n / 10 = 0
    · rw [if_pos h0, decimal_value_step, hd]
      congr 1
      omega
    · rw [if_neg h0, ih (n / 10) _ (by omega), decimal_value_step, hd]
      congr 1
      omega

theorem toDigitsCore_no_slash : ∀ (fuel n : Nat) (ds : List Char), '/' ∉ ds →
    '/' ∉ Nat.toDigitsCore 10 fuel n ds := by
  intro fuel
  induction fuel with
  | zero => intro n ds h; simpa [Nat.toDigitsCore] using h
  | succ f ih =>
    intro n ds h
    unfold Nat.toDigitsCore
    simp only
    have hd := digitChar_ne_slash (n % 10) (Nat.mod_lt _ (by decide))
    have hcons : '/' ∉ Nat.digitChar (n % 10) :: ds := by
      intro hm
      rcases List.mem_cons.1 hm with e | e
      · exact hd e.symm
      · exact h e
    by_cases h0 : n / 10 = 0
    · rw [if_pos h0]; exact hcons
    · rw [if_neg h0]; exact ih _ _ hcons

theorem repr_data (n : Nat) : (toString n).data = Nat.toDigits 10 n := rfl

theorem repr_injective (a b : Nat) (h : toString a = toString b) : a = b := by
  have hd : Nat.toDigits 10 a = Nat.toDigits 10 b := by
    rw [← repr_data, ← repr_data, h]
  have ha := toDigitsCore_value (a + 1) a [] (by omega)
  have hb := toDigitsCore_value (b + 1) b [] (by omega)
  unfold Nat.toDigits at hd
  rw [hd, hb] at ha
  simpa using ha.symm

theorem repr_no_slash (n : Nat) : '/' ∉ (toString n).data := by
  rw [repr_data]
  exact toDigitsCore_no_slash _ _ _ (by simp)


/-! ## The unique-path loop -/

theorem candidateName_no_slash (base ext : String) (hb : '/' ∉ base.data)
    (he : '/' ∉ ext.data) (k : Nat) : '/' ∉ (candidateName base ext k).data := by
  cases k with
  | zero =>
    simp only [candidateName, String.data_append, List.mem_append, not_or]
    exact ⟨hb, he⟩
  | succ n =>
    simp only [candidateName, String.data_append, List.mem_append, not_or]
    exact ⟨⟨⟨hb, by decide⟩, repr_no_slash _⟩, he⟩

theorem candidateName_length (base ext : String) (k : Nat) :
    ext.length ≤ (candidateName base ext k).length := by
  cases k with
  | zero => simp only [candidateName, String.length_append]; omega
  | succ n => simp only [candidateName, String.length_append]; omega

theorem candidateName_injective (base ext : String) (i j : Nat)
    (h : candidateName base ext i = candidateName base ext j) : i = j := by
  have hlen := congrArg String.length h
  have hdat := congrArg String.data h
  cases i with
  | zero =>
    cases j with
    | zero => rfl
    | succ n =>
      simp only [candidateName, String.length_append] at hlen
      have : "_".length = 1 := rfl
      omega
  | succ m =>
    cases j with
    | zero =>
      simp only [candidateName, String.length_append] at hlen
      have : "_".length = 1 := rfl
      omega
    | succ n =>
      simp only [candidateName, String.data_append, List.append_assoc] at hdat
      have h1 := List.append_cancel_left hdat
      have h2 := List.append_cancel_left h1
      have h3 := List.append_cancel_right h2
      have h4 : toString (m + 1) = toString (n + 1) := String.ext h3
      exact repr_injective _ _ h4

theorem candidatePath_eq (dir : Path) (base ext : String) (hb : '/' ∉ base.data)
    (he : '/' ∉ ext.data) (hlen : 3 ≤ ext.length) (k : Nat) :
    candidatePath dir base ext k = dir ++ [candidateName base ext k] := by
  unfold candidatePath
  have hl := candidateName_length base ext k
  apply joinPath_single _ _ (candidateName_no_slash base ext hb he k)
  · intro e; rw [e] at hl; have : "".length = 0 := rfl; omega
  · intro e; rw [e] at hl; have : ".".length = 1 := rfl; omega
  · intro e; rw [e] at hl; have : "..".length = 2 := rfl; omega

theorem uniqueFrom_none (fs : FS) (dir : Path) (base ext : String) :
    ∀ (fuel k : Nat), uniqueFrom fs dir base ext fuel k = none →
    ∀ i, i < fuel → (fs.stat (candidatePath dir base ext (k + i))).isNotExist = false := by
  intro fuel
  induction fuel with
  | zero => intro k _ i hi; omega
  | succ f ih =>
    intro k h i hi
    unfold uniqueFrom at h
    by_cases hk : (fs.stat (candidatePath dir base ext k)).isNotExist = true
    · simp [hk] at h
    · simp only [hk, if_false] at h
      cases i with
      | zero => simpa using hk
      | succ n =>
        have := ih (k + 1) h n (by omega)
        rw [show k + (n + 1) = k + 1 + n by omega]
        exact this

theorem uniqueFrom_some (fs : FS) (dir : Path) (base ext : String) :
    ∀ (fuel k : Nat) (p : Path), uniqueFrom fs dir base ext fuel k = some p →
    ∃ j, k ≤ j ∧ j < k + fuel ∧ p = candidatePath dir base ext j ∧
      (fs.stat (candidatePath dir base ext j)).isNotExist = true ∧
      ∀ i, k ≤ i → i < j → (fs.stat (candidatePath dir base ext i)).isNotExist = false := by
  intro fuel
  induction fuel with
  | zero => intro k p h; simp [uniqueFrom] at h
  | succ f ih =>
    intro k p h
    unfold uniqueFrom at h
    by_cases hk : (fs.stat (candidatePath dir base ext k)).isNotExist = true
    · simp only [hk, if_true, Option.some.injEq] at h
      exact ⟨k, le_refl _, by omega, h.symm, hk, fun i h1 h2 => by omega⟩
    · simp only [hk, if_false] at h
      obtain ⟨j, hj, hlt, hp, hne, hbefore⟩ := ih (k + 1) p h
      refine ⟨j, by omega, by omega, hp, hne, ?_⟩
      intro i h1 h2
      by_cases hik : i = k
      · subst hik; simpa using hk
      · exact hbefore i (by omega) h2

theorem mem_entries_of_node (fs : FS) (p : Path) (hp : p ≠ []) (h : fs.node p ≠ none) :
    p ∈ fs.entries.map Prod.fst := by
  unfold FS.node at h
  simp only [hp, if_false, ne_eq, Option.map_eq_none'] at h
  cases hf : fs.entries.find? (fun e => decide (e.1 = p)) with
  | none => exact absurd hf h
  | some e =>
    have h1 := List.find?_some hf
    have h2 := List.mem_of_find?_eq_some hf
    rw [List.mem_map]
    exact ⟨e, h2, by simpa using h1⟩

/-- Below a directory, `os.Stat` of a name that is an entry never reports a
missing file. -/
theorem stat_present (fs : FS) (dir : Path) (name : String)
    (hd : fs.stat dir = StatResult.found Node.dir) (hn : fs.node (dir ++ [name]) ≠ none) :
    (fs.stat (dir ++ [name])).isNotExist = false := by
  obtain ⟨_, _, hres⟩ := stat_dir_inv fs dir hd
  unfold FS.stat
  by_cases h1 : hasNul (dir ++ [name]) = true
  · rw [if_pos h1]; rfl
  · rw [if_neg h1]
    by_cases h2 : pathMax ≤ pathBytes (dir ++ [name])
    · rw [if_pos h2]; rfl
    · rw [if_neg h2, statFrom_append_of_dir fs dir [] hres [name]]
      simp only [List.nil_append, statFrom]
      by_cases h3 : nameMax < name.utf8ByteSize
      · rw [if_pos h3]; rfl
      · rw [if_neg h3]
        cases hnode : fs.node (dir ++ [name]) with
        | none => exact absurd hnode hn
        | some n => cases n <;> simp [StatResult.isNotExist]

/-- The loop returns the candidate of round `j` when `os.Stat` reports it
missing, reports none of the rounds before it missing, and the rounds suffice. -/
theorem uniqueFrom_reaches (fs : FS) (dir : Path) (base ext : String) :
    ∀ (fuel k j : Nat), k ≤ j → j < k + fuel →
    (∀ i, k ≤ i → i < j → (fs.stat (candidatePath dir base ext i)).isNotExist = false) →
    (fs.stat (candidatePath dir base ext j)).isNotExist = true →
    uniqueFrom fs dir base ext fuel k = some (candidatePath dir base ext j) := by
  intro fuel
  induction fuel with
  | zero => intro k j h1 h2; omega
  | succ f ih =>
    intro k j h1 h2 hbefore hj
    unfold uniqueFrom
    by_cases hkj : k = j
    · subst hkj
      rw [if_pos hj]
    · rw [hbefore k (le_refl _) (by omega)]
      simp only [Bool.false_eq_true, if_false]
      exact ih (k + 1) j (by omega) (by omega) (fun i hi1 hi2 => hbefore i (by omega) hi2) hj

/-- Candidates that are all entries are no more than the file system has
entries. -/
theorem present_le_entries (fs : FS) (dir : Path) (base ext : String) (j : Nat)
    (h : ∀ i, i < j → fs.node (dir ++ [candidateName base ext i]) ≠ none) :
    j ≤ fs.entries.length := by
  have hsub : (List.range j).map (fun k => dir ++ [candidateName base ext k]) ⊆
      fs.entries.map Prod.fst := by
    intro p hp
    rw [List.mem_map] at hp
    obtain ⟨k, hk, rfl⟩ := hp
    rw [List.mem_range] at hk
    exact mem_entries_of_node fs _ (by simp) (h k hk)
  have hnd : ((List.range j).map (fun k => dir ++ [candidateName base ext k])).Nodup := by
    apply List.Nodup.map _ (List.nodup_range _)
    intro a b hab
    have h1 := List.append_cancel_left hab
    exact candidateName_injective base ext a b (List.cons.inj h1).1
  have hle := (List.subperm_of_subset hnd hsub).length_le
  simpa using hle

/-- Some candidate is not an entry: there is a first such round, and it is at
most the number of entries. -/
theorem exists_first_missing (fs : FS) (dir : Path) (base ext : String) :
    ∃ j, j ≤ fs.entries.length ∧ fs.node (dir ++ [candidateName base ext j]) = none ∧
      ∀ i, i < j → fs.node (dir ++ [candidateName base ext i]) ≠ none := by
  have hex : ∃ k, fs.node (dir ++ [candidateName base ext k]) = none := by
    by_contra hno
    have hall : ∀ i, i < fs.entries.length + 1 →
        fs.node (dir ++ [candidateName base ext i]) ≠ none :=
      fun i _ hi => hno ⟨i, hi⟩
    have := present_le_entries fs dir base ext _ hall
    omega
  refine ⟨Nat.find hex, ?_, Nat.find_spec hex, fun i hi => Nat.find_min hex hi⟩
  exact present_le_entries fs dir base ext _ (fun i hi => Nat.find_min hex hi)

/-- Below a directory, when every candidate is a name directly inside it,
`getUniqueFilePath` returns the first candidate that is not an entry, provided
the operating system accepts that name. -/
theorem getUniqueFilePath_below (fs : FS) (dir : Path) (base ext : String)
    (hdir : fs.stat dir = StatResult.found Node.dir)
    (hcand : ∀ k, candidatePath dir base ext k = dir ++ [candidateName base ext k])
    (j : Nat) (hfree : fs.node (dir ++ [candidateName base ext j]) = none)
    (hbefore : ∀ i, i < j → fs.node (dir ++ [candidateName base ext i]) ≠ none)
    (hacc : osAccepts (dir ++ [candidateName base ext j]) = true) :
    getUniqueFilePath fs dir base ext = some (dir ++ [candidateName base ext j]) ∧
      fs.stat (dir ++ [candidateName base ext j]) = StatResult.notExist ∧
      ∀ i, i < j → (fs.stat (dir ++ [candidateName base ext i])).isNotExist = false := by
  have hj : fs.stat (dir ++ [candidateName base ext j]) = StatResult.notExist := by
    rw [stat_child fs dir _ hdir hacc, hfree]
  have hb : ∀ i, i < j → (fs.stat (dir ++ [candidateName base ext i])).isNotExist = false :=
    fun i hi => stat_present fs dir _ hdir (hbefore i hi)
  refine ⟨?_, hj, hb⟩
  unfold getUniqueFilePath
  rw [← hcand j]
  apply uniqueFrom_reaches fs dir base ext _ 0 j (Nat.zero_le _)
  · have := present_le_entries fs dir base ext j hbefore
    omega
  · intro i _ hi
    rw [hcand i]
    exact hb i hi
  · rw [hcand j, hj]
    rfl

/-- Below a directory, and for a base name and an extension without slash,
`getUniqueFilePath` returns the first candidate that is not an entry, provided
the operating system accepts that name. -/
theorem getUniqueFilePath_total (fs : FS) (dir : Path) (base ext : String)
    (hdir : fs.stat dir = StatResult.found Node.dir) (hb : '/' ∉ base.data)
    (he : '/' ∉ ext.data) (hlen : 3 ≤ ext.length)
    (hacc : ∀ j, firstMissing fs dir base ext j →
      osAccepts (candidatePath dir base ext j) = true) :
    ∃ j, getUniqueFilePath fs dir base ext = some (dir ++ [candidateName base ext j]) ∧
      fs.node (dir ++ [candidateName base ext j]) = none ∧
      (∀ i, i < j → fs.node (dir ++ [candidateName base ext i]) ≠ none) ∧
      osAccepts (dir ++ [candidateName base ext j]) = true := by
  have hcand := candidatePath_eq dir base ext hb he hlen
  obtain ⟨j, _, hfree, hbefore⟩ := exists_first_missing fs dir base ext
  have hacc1 : osAccepts (dir ++ [candidateName base ext j]) = true := by
    rw [← hcand j]
    apply hacc j
    refine ⟨by rw [hcand j]; exact hfree, fun i hi => by rw [hcand i]; exact hbefore i hi⟩
  exact ⟨j, (getUniqueFilePath_below fs dir base ext hdir hcand j hfree hbefore hacc1).1,
    hfree, hbefore, hacc1⟩


/-! ## The save run -/

theorem sanitizeFilename_no_slash (name : String) (maxLen : Int) :
    '/' ∉ (sanitizeFilename name maxLen).data :=
  sanitizeChars_legal name.data maxLen '/' (by decide)

theorem utf8ByteSize_go_eq (cs : List Char) :
    String.utf8ByteSize.go cs = (cs.flatMap String.utf8EncodeChar).length := by
  induction cs with
  | nil => rfl
  | cons c t ih =>
    simp only [String.utf8ByteSize.go, List.flatMap_cons, List.length_append, ih,
      String.length_utf8EncodeChar]
    omega

/-- The bytes written for a string are as many as its `len`. -/
theorem utf8Bytes_length (s : String) : (utf8Bytes s).length = s.utf8ByteSize := by
  unfold utf8Bytes String.utf8ByteSize
  exact (utf8ByteSize_go_eq s.data).symm

theorem utf8ByteSize_append (a b : String) :
    (a ++ b).utf8ByteSize = a.utf8ByteSize + b.utf8ByteSize := by
  rw [← utf8Bytes_length, ← utf8Bytes_length, ← utf8Bytes_length]
  unfold utf8Bytes
  rw [String.data_append, List.flatMap_append, List.length_append]

theorem hasNul_single (c : String) :
    hasNul [c] = c.data.any (fun ch => decide (ch = Char.ofNat 0)) := by
  simp [hasNul]

theorem stat_put_longer (fs : FS) (d p : Path) (n : Node) (hp : d.length < p.length) :
    (fs.put p n).stat d = fs.stat d := by
  unfold FS.stat
  congr 2
  apply statFrom_congr
  intro q hq
  have hp0 : p ≠ [] := by
    intro e; rw [e] at hp; simp at hp
  rw [node_put _ _ _ _ hp0]
  have : q ≠ p := by
    intro e
    rw [e] at hq
    simp only [List.length_nil, Nat.zero_add] at hq
    omega
  simp [this]

theorem writeFile_child (ioErr : Path → Bool) (fs : FS) (d : Path) (name : String)
    (data : List UInt8) (hd : fs.stat d = StatResult.found Node.dir)
    (hfree : fs.node (d ++ [name]) = none) (hio : ioErr (d ++ [name]) = false)
    (hok : osAccepts (d ++ [name]) = true) :
    fs.writeFile ioErr (d ++ [name]) data = some (fs.put (d ++ [name]) (Node.file data)) := by
  unfold FS.writeFile
  simp [hio, hok, parentDir, hd, hfree]

theorem mkdirAll_accepts (ioErr : Path → Bool) (fs fs1 : FS) (d : Path)
    (h : fs.mkdirAll ioErr d = some fs1) :
    osAccepts d = true ∧ mkdirFrom ioErr fs [] d = some fs1 := by
  unfold FS.mkdirAll at h
  by_cases hok : osAccepts d = true
  · rw [if_pos hok] at h; exact ⟨hok, h⟩
  · rw [if_neg hok] at h; cases h

theorem mkdirAll_resolves (ioErr : Path → Bool) (fs fs1 : FS) (d : Path)
    (h : fs.mkdirAll ioErr d = some fs1) : fs1.stat d = StatResult.found Node.dir := by
  obtain ⟨hok, hm⟩ := mkdirAll_accepts ioErr fs fs1 d h
  have := mkdirFrom_resolves ioErr d fs fs1 [] ((osAccepts_iff d).1 hok).2.2 hm []
  rw [stat_of_accepts fs1 d hok]
  simpa [statFrom] using this

theorem png_ne_html (a b : String) : a ++ ".png" ≠ b ++ ".html" := by
  intro h
  have hd := congrArg (fun s => s.data.reverse.head?) h
  simp [String.data_append] at hd

theorem candidateName_png_ne_html (t : String) (k j : Nat) :
    candidateName t ".png" k ≠ candidateName t ".html" j := by
  cases k <;> cases j <;> exact png_ne_html _ _

/-- The thumbnail step returns below a directory, and changes at most the
entry of one `.png` candidate; when there are bytes to store, the first
candidate that is not an entry has to be a name the operating system accepts. -/
theorem saveThumbnail_returns (env : Env) (fs : FS) (dir : Path) (t screenshot : String)
    (hd : fs.stat dir = StatResult.found Node.dir) (ht : '/' ∉ t.data)
    (hacc : screenshotData env screenshot ≠ none →
      ∀ j, firstMissing fs dir t ".png" j → osAccepts (candidatePath dir t ".png" j) = true) :
    ∃ fs1 th, saveThumbnail env fs dir t screenshot = some (fs1, th) ∧
      ∀ q, (∀ k, q ≠ dir ++ [candidateName t ".png" k]) → fs1.node q = fs.node q := by
  unfold saveThumbnail
  by_cases hp : "data:image/".data.isPrefixOf screenshot.data = true
  · rw [if_pos hp]
    cases hsplit : splitFirstComma screenshot.data with
    | none => exact ⟨fs, "", rfl, fun _ _ => rfl⟩
    | some parts =>
      obtain ⟨a, payload⟩ := parts
      simp only
      cases hdec : env.decodeBase64 (String.mk payload) with
      | none => exact ⟨fs, "", rfl, fun _ _ => rfl⟩
      | some data =>
        have hdata : screenshotData env screenshot ≠ none := by
          unfold screenshotData
          rw [if_pos hp, hsplit]
          simp only
          rw [hdec]
          exact Option.some_ne_none _
        obtain ⟨j, hj, _, _, _⟩ := getUniqueFilePath_total fs dir t ".png" hd ht (by decide)
          (by decide) (hacc hdata)
        simp only [hj]
        cases hw : fs.writeFile env.ioErr (dir ++ [candidateName t ".png" j]) data with
        | none => exact ⟨fs, "", rfl, fun _ _ => rfl⟩
        | some fs1 =>
          refine ⟨fs1, _, rfl, ?_⟩
          intro q hq
          unfold FS.writeFile at hw
          split_ifs at hw
          split at hw
          · split at hw
            · cases hw
            · simp only [Option.some.injEq] at hw
              subst hw
              rw [node_put _ _ _ _ (by simp)]
              simp [hq j]
          · cases hw
  · rw [if_neg hp]
    exact ⟨fs, "", rfl, fun _ _ => rfl⟩


theorem uuidString_ne_empty (u : Fin 16 → Nat) : uuidString u ≠ "" := by
  intro h
  have h1 : (uuidString u).data = [] := by rw [h]
  have h2 := congrArg List.length h1
  unfold uuidString at h2
  simp only [List.length_append, hexByte, List.length_cons, List.length_nil] at h2
  omega

theorem getBookmark_appended (env : Env) (db : Store) (row : Bookmark)
    (hfresh : ∀ b ∈ db, b.id ≠ row.id) (hsel : env.selectErr row.id = false) :
    getBookmark env (db ++ [row]) row.id = Except.ok (some row) := by
  unfold getBookmark
  simp only [hsel, Bool.false_eq_true, if_false, List.find?_append,
    find_none_of_absent db row.id hfresh]
  simp

theorem dbInsert_fresh (env : Env) (db : Store) (row : Bookmark)
    (hfresh : ∀ b ∈ db, b.id ≠ row.id) (hexec : env.execErr row.id = false) :
    dbInsert env db row = Except.ok (db ++ [row]) := by
  unfold dbInsert
  have : db.any (fun b => decide (b.id = row.id)) = false := by
    rw [List.any_eq_false]
    intro b hb
    simpa using hfresh b hb
  simp [hexec, this]

/-- The run of `saveBookmark` when the directory is created, the first free
file name is one the operating system accepts, for the HTML file and, when
there is a screenshot to store, for the thumbnail, the system accepts the write
of the HTML file, the identifier is fresh and the driver executes the insert
and the read-back. -/
theorem saveBookmark_run (env : Env) (w : World) (u : Fin 16 → Nat) (now : Int)
    (input : SaveInput) (fs1 : FS)
    (hdir : w.fs.mkdirAll env.ioErr (domainDirOf env input.url) = some fs1)
    (hhtml : ∀ j, firstMissing fs1 (domainDirOf env input.url)
      (sanitizeFilename input.title 80) ".html" j →
      osAccepts (candidatePath (domainDirOf env input.url)
        (sanitizeFilename input.title 80) ".html" j) = true)
    (hpng : screenshotData env input.screenshot ≠ none →
      ∀ j, firstMissing fs1 (domainDirOf env input.url)
        (sanitizeFilename input.title 80) ".png" j →
      osAccepts (candidatePath (domainDirOf env input.url)
        (sanitizeFilename input.title 80) ".png" j) = true)
    (hwrite : ∀ p, getUniqueFilePath fs1 (domainDirOf env input.url)
      (sanitizeFilename input.title 80) ".html" = some p → env.ioErr p = false)
    (hfresh : ∀ b ∈ w.db, b.id ≠ uuidString u) (hexec : env.execErr (uuidString u) = false)
    (hsel : env.selectErr (uuidString u) = false) :
    ∃ j fs3 th,
      fs1.node (domainDirOf env input.url ++
        [candidateName (sanitizeFilename input.title 80) ".html" j]) = none ∧
      (∀ i, i < j → fs1.node (domainDirOf env input.url ++
        [candidateName (sanitizeFilename input.title 80) ".html" i]) ≠ none) ∧
      fs3.node (domainDirOf env input.url ++
        [candidateName (sanitizeFilename input.title 80) ".html" j]) =
          some (Node.file (utf8Bytes input.html)) ∧
      saveBookmark env w u now input =
        some (⟨fs3, w.db ++ [savedRow env u now input (domainDirOf env input.url ++
          [candidateName (sanitizeFilename input.title 80) ".html" j]) th]⟩,
          Except.ok (some (savedRow env u now input (domainDirOf env input.url ++
            [candidateName (sanitizeFilename input.title 80) ".html" j]) th))) := by
  have hd1 := mkdirAll_resolves env.ioErr w.fs fs1 _ hdir
  have ht := sanitizeFilename_no_slash input.title 80
  obtain ⟨j, hj, hnone, hbefore, hjacc⟩ := getUniqueFilePath_total fs1
    (domainDirOf env input.url) (sanitizeFilename input.title 80) ".html" hd1 ht (by decide)
    (by decide) hhtml
  have hio := hwrite _ hj
  have hw := writeFile_child env.ioErr fs1 _ _ (utf8Bytes input.html) hd1 hnone hio hjacc
  have hd2 : (fs1.put (domainDirOf env input.url ++
      [candidateName (sanitizeFilename input.title 80) ".html" j])
      (Node.file (utf8Bytes input.html))).stat (domainDirOf env input.url)
      = StatResult.found Node.dir := by
    rw [stat_put_longer _ _ _ _ (by simp)]
    exact hd1
  have hpngcand := candidatePath_eq (domainDirOf env input.url)
    (sanitizeFilename input.title 80) ".png" ht (by decide) (by decide)
  have hsame : ∀ k, (fs1.put (domainDirOf env input.url ++
      [candidateName (sanitizeFilename input.title 80) ".html" j])
      (Node.file (utf8Bytes input.html))).node (candidatePath (domainDirOf env input.url)
        (sanitizeFilename input.title 80) ".png" k) =
      fs1.node (candidatePath (domainDirOf env input.url)
        (sanitizeFilename input.title 80) ".png" k) := by
    intro k
    rw [hpngcand k, node_put _ _ _ _ (by simp)]
    rw [if_neg]
    intro e
    exact candidateName_png_ne_html _ k j (List.cons.inj (List.append_cancel_left e)).1
  obtain ⟨fs3, th, hth, hframe⟩ := saveThumbnail_returns env _ (domainDirOf env input.url)
    (sanitizeFilename input.title 80) input.screenshot hd2 ht
    (fun hdata k hk => hpng hdata k
      ⟨by rw [← hsame k]; exact hk.1, fun i hi => by rw [← hsame i]; exact hk.2 i hi⟩)
  have hfile : fs3.node (domainDirOf env input.url ++
      [candidateName (sanitizeFilename input.title 80) ".html" j]) =
      some (Node.file (utf8Bytes input.html)) := by
    rw [hframe]
    · rw [node_put _ _ _ _ (by simp)]
      simp
    · intro k e
      have h1 := List.append_cancel_left e
      exact candidateName_png_ne_html _ k j (List.cons.inj h1).1.symm
  refine ⟨j, fs3, th, hnone, hbefore, hfile, ?_⟩
  have hrow : (savedRow env u now input (domainDirOf env input.url ++
      [candidateName (sanitizeFilename input.title 80) ".html" j]) th).id = uuidString u := rfl
  have hins := dbInsert_fresh env w.db (savedRow env u now input (domainDirOf env input.url ++
      [candidateName (sanitizeFilename input.title 80) ".html" j]) th) hfresh hexec
  have hget := getBookmark_appended env w.db (savedRow env u now input
      (domainDirOf env input.url ++
      [candidateName (sanitizeFilename input.title 80) ".html" j]) th) hfresh hsel
  unfold saveBookmark
  simp only [domainDirOf] at hdir hj hw hth hins hget ⊢
  simp only [hdir, if_neg (sanitizeFilename_ne_empty input.title 80), hj, hw, hth]
  unfold savedRow at hins hget ⊢
  simp only [domainDirOf] at hins hget ⊢
  rw [hins]
  simp only
  rw [hget]


theorem domainDirOf_plain (env : Env) (rawURL : String)
    (hplain : plainComponent (getDomain env rawURL)) :
    domainDirOf env rawURL = env.dataDir ++ ["pages", getDomain env rawURL] := by
  obtain ⟨h1, h2, h3, h4⟩ := hplain
  unfold domainDirOf
  rw [joinPath_single _ "pages" (by decide) (by decide) (by decide) (by decide),
    joinPath_single _ _ h4 h1 h2 h3]
  simp

/-- C1: for every save input for which the directory is created, the first
free file name for the HTML file (the first of the sanitized title with
`.html`, plain and with the suffixes `_1`, `_2`, ..., that is not in the
directory) is one the operating system accepts, and likewise the first free
`.png` name when there is a screenshot to store, the system accepts the write
of the HTML file, and the insert of the row (fresh identifier, statement
executed) and its read-back succeed, `saveBookmark` returns a record whose id
is not empty and whose `deletedAt` is 0, and `getBookmark` of that id on the
table left behind returns that same record. -/
theorem saveBookmark_returns_stored_record (env : Env) (w : World) (u : Fin 16 → Nat)
    (now : Int) (input : SaveInput) (fs1 : FS)
    (hdir : w.fs.mkdirAll env.ioErr (domainDirOf env input.url) = some fs1)
    (hhtml : ∀ j, firstMissing fs1 (domainDirOf env input.url)
      (sanitizeFilename input.title 80) ".html" j →
      osAccepts (candidatePath (domainDirOf env input.url)
        (sanitizeFilename input.title 80) ".html" j) = true)
    (hpng : screenshotData env input.screenshot ≠ none →
      ∀ j, firstMissing fs1 (domainDirOf env input.url)
        (sanitizeFilename input.title 80) ".png" j →
      osAccepts (candidatePath (domainDirOf env input.url)
        (sanitizeFilename input.title 80) ".png" j) = true)
    (hwrite : ∀ p, getUniqueFilePath fs1 (domainDirOf env input.url)
      (sanitizeFilename input.title 80) ".html" = some p → env.ioErr p = false)
    (hfresh : ∀ b ∈ w.db, b.id ≠ uuidString u) (hexec : env.execErr (uuidString u) = false)
    (hsel : env.selectErr (uuidString u) = false) :
    ∃ w1 bm, saveBookmark env w u now input = some (w1, Except.ok (some bm)) ∧
      bm.id ≠ "" ∧ bm.deletedAt = 0 ∧ getBookmark env w1.db bm.id = Except.ok (some bm) := by
  obtain ⟨j, fs3, th, _, _, _, hrun⟩ :=
    saveBookmark_run env w u now input fs1 hdir hhtml hpng hwrite hfresh hexec hsel
  refine ⟨_, _, hrun, uuidString_ne_empty u, rfl, ?_⟩
  exact getBookmark_appended env w.db _ hfresh hsel

set_option maxRecDepth 4000 in
theorem saveBookmark_returns_stored_record_witness :
    ∃ w1 bm, saveBookmark quietEnv emptyWorld (fun _ => 171) 5 helloInput =
        some (w1, Except.ok (some bm)) ∧
      bm.id ≠ "" ∧ bm.deletedAt = 0 ∧ getBookmark quietEnv w1.db bm.id = Except.ok (some bm) :=
  saveBookmark_returns_stored_record quietEnv emptyWorld (fun _ => 171) 5 helloInput
    ⟨[(["srv", "data", "pages", "example.com"], Node.dir), (["srv", "data", "pages"], Node.dir),
      (["srv", "data"], Node.dir), (["srv"], Node.dir)]⟩
    (by rfl)
    (fun j hj => by
      have h0 : j = 0 := by
        by_contra hne
        exact hj.2 0 (Nat.pos_of_ne_zero hne) (by rfl)
      subst h0
      rfl)
    (fun h => (h (by rfl)).elim)
    (fun _ _ => rfl) (fun _ hb => by cases hb) rfl rfl

/-- Where the file goes for an ordinary host.  Let `h` be the directory name
`getDomain` gives for the URL of a save input, that is its hostname, or
`unknown` when the URL does not parse or has an empty hostname, and let the
title sanitize (maxLen 80) to `t`.  When `h` is an ordinary path component (not
`.` or `..`, no separator), the directory `pages/h` exists or can be created,
nothing exists at `pages/h/t.html`, that path is one the operating system
accepts, and so is the first free `.png` name when there is a screenshot to
store, the write is accepted and the row insert and read-back succeed,
`saveBookmark` creates the file `pages/h/t.html` with the submitted HTML as
content and returns a record with `filePath = "pages/h/t.html"` and `fileSize`
the byte length of the HTML; for the hostname `example.com` and the title
`Hello/World` the path is `pages/example.com/Hello_World.html`. -/
theorem saveBookmark_file_location (env : Env) (w : World) (u : Fin 16 → Nat) (now : Int)
    (input : SaveInput) (h : String) (fs1 : FS)
    (hhost : getDomain env input.url = h) (hplain : plainComponent h)
    (hdir : w.fs.mkdirAll env.ioErr (env.dataDir ++ ["pages", h]) = some fs1)
    (hfree : w.fs.node (env.dataDir ++ ["pages", h] ++
      [sanitizeFilename input.title 80 ++ ".html"]) = none)
    (hacc : osAccepts (env.dataDir ++ ["pages", h] ++
      [sanitizeFilename input.title 80 ++ ".html"]) = true)
    (hpng : screenshotData env input.screenshot ≠ none →
      ∀ j, firstMissing fs1 (env.dataDir ++ ["pages", h])
        (sanitizeFilename input.title 80) ".png" j →
      osAccepts (candidatePath (env.dataDir ++ ["pages", h])
        (sanitizeFilename input.title 80) ".png" j) = true)
    (hio : env.ioErr (env.dataDir ++ ["pages", h] ++
      [sanitizeFilename input.title 80 ++ ".html"]) = false)
    (hfresh : ∀ b ∈ w.db, b.id ≠ uuidString u) (hexec : env.execErr (uuidString u) = false)
    (hsel : env.selectErr (uuidString u) = false) :
    ∃ w1 bm, saveBookmark env w u now input = some (w1, Except.ok (some bm)) ∧
      w1.fs.node (env.dataDir ++ ["pages", h] ++ [sanitizeFilename input.title 80 ++ ".html"]) =
        some (Node.file (utf8Bytes input.html)) ∧
      bm.filePath = "pages" ++ "/" ++ h ++ "/" ++ (sanitizeFilename input.title 80 ++ ".html") ∧
      bm.fileSize = ((utf8Bytes input.html).length : Int) ∧
      (env.hostname input.url = some "example.com" → input.title = "Hello/World" →
        bm.filePath = "pages/example.com/Hello_World.html") := by
  subst hhost
  have hdom := domainDirOf_plain env input.url hplain
  have ht := sanitizeFilename_no_slash input.title 80
  have hcand := candidatePath_eq (env.dataDir ++ ["pages", getDomain env input.url])
    (sanitizeFilename input.title 80) ".html" ht (by decide) (by decide)
  have hd1 := mkdirAll_resolves env.ioErr w.fs fs1 _ hdir
  have hfree1 : fs1.node (env.dataDir ++ ["pages", getDomain env input.url] ++
      [candidateName (sanitizeFilename input.title 80) ".html" 0]) = none := by
    have := mkdirFrom_frame env.ioErr _ w.fs fs1 [] (mkdirAll_accepts _ _ _ _ hdir).2
      (env.dataDir ++ ["pages", getDomain env input.url] ++
      [candidateName (sanitizeFilename input.title 80) ".html" 0]) (by simp)
    rw [this]
    exact hfree
  have hfirst : getUniqueFilePath fs1 (env.dataDir ++ ["pages", getDomain env input.url])
      (sanitizeFilename input.title 80) ".html" =
      some (env.dataDir ++ ["pages", getDomain env input.url] ++
        [sanitizeFilename input.title 80 ++ ".html"]) :=
    (getUniqueFilePath_below fs1 _ _ ".html" hd1 hcand 0 hfree1
      (fun i hi => absurd hi (Nat.not_lt_zero i)) hacc).1
  obtain ⟨j, fs3, th, hnone, hbefore, hfile, hrun⟩ :=
    saveBookmark_run env w u now input fs1 (by rw [hdom]; exact hdir)
      (by
        intro j hj
        rw [hdom] at hj ⊢
        have h0 : j = 0 := by
          by_contra hne
          exact hj.2 0 (Nat.pos_of_ne_zero hne) (by rw [hcand 0]; exact hfree1)
        subst h0
        rw [hcand 0]
        exact hacc)
      (by rw [hdom]; exact hpng)
      (by
        intro p hp
        rw [hdom, hfirst] at hp
        rw [← Option.some.inj hp]
        exact hio)
      hfresh hexec hsel
  have hj : j = 0 := by
    cases j with
    | zero => rfl
    | succ n =>
      have := hbefore 0 (Nat.succ_pos n)
      rw [hdom] at this
      exact absurd hfree1 this
  subst hj
  rw [hdom] at hfile hrun
  have hpath : (savedRow env u now input (env.dataDir ++ ["pages", getDomain env input.url] ++
      [candidateName (sanitizeFilename input.title 80) ".html" 0]) th).filePath =
      "pages" ++ "/" ++ getDomain env input.url ++ "/" ++
        (sanitizeFilename input.title 80 ++ ".html") := by
    have := relPath_below env.dataDir "pages" (getDomain env input.url)
      (sanitizeFilename input.title 80 ++ ".html")
    simpa [savedRow, toRelativePath, candidateName] using this
  refine ⟨_, _, hrun, hfile, hpath, ?_, ?_⟩
  · rw [utf8Bytes_length]; rfl
  · intro h1 h2
    have hg : getDomain env input.url = "example.com" := by
      unfold getDomain; rw [h1]; rfl
    rw [hpath, hg, h2]
    decide

set_option maxRecDepth 4000 in
/-- C2 fails for the URL `http://../a`, whose hostname is `..`: with the title
`Hello/World` and the `pages` directory in place, `filepath.Join` cleans
`pages/..` away, so `saveBookmark` writes the file `Hello_World.html` into the
data root, outside `pages`, and returns `filePath = "Hello_World.html"`; the
`pages` directory stays empty and the path is not `pages/../Hello_World.html`.
The same request for `https://example.com/a` gives
`pages/example.com/Hello_World.html` with `fileSize` 9, as the claim says. -/
theorem saveBookmark_hostname_leaves_pages :
    (parentInput.url = "http://../a" ∧ getDomain parentHostEnv parentInput.url = ".." ∧
      sanitizeFilename parentInput.title 80 = "Hello_World" ∧
      startedWorld.fs.node ["srv", "data", "Hello_World.html"] = none ∧
      ∃ w1 bm, saveBookmark parentHostEnv startedWorld (fun _ => 171) 5 parentInput =
          some (w1, Except.ok (some bm)) ∧
        bm.filePath = "Hello_World.html" ∧
        w1.fs.node ["srv", "data", "Hello_World.html"] = some (Node.file (utf8Bytes "<p>hi</p>")) ∧
        w1.fs.children ["srv", "data", "pages"] = [] ∧
        bm.filePath ≠ "pages/" ++ ".." ++ "/" ++ "Hello_World" ++ ".html") ∧
    (∃ w1 bm, saveBookmark quietEnv startedWorld (fun _ => 171) 5 helloInput =
        some (w1, Except.ok (some bm)) ∧
      bm.filePath = "pages/" ++ "example.com" ++ "/" ++ "Hello_World" ++ ".html" ∧
      w1.fs.node ["srv", "data", "pages", "example.com", "Hello_World.html"] =
        some (Node.file (utf8Bytes "<p>hi</p>")) ∧
      bm.fileSize = 9) := by
  refine ⟨⟨rfl, rfl, by decide, rfl, _, _, rfl, rfl, rfl, rfl, by decide⟩,
    ⟨_, _, rfl, by decide, rfl, rfl⟩⟩


set_option maxRecDepth 4000 in
/-- C5 at a record with a thumbnail: `permanentDelete` succeeds and both backing
files are gone, but the directory that held them is still there although it
has no entry left, because it was listed while the thumbnail was still in it.
For the same record without thumbnail the directory is removed. -/
theorem permanentDelete_keeps_emptied_directory :
    (permanentDelete quietEnv thumbWorld "a").2 = Except.ok true ∧
    (permanentDelete quietEnv thumbWorld "a").1.db = [] ∧
    (permanentDelete quietEnv thumbWorld "a").1.fs.node
      ["srv", "data", "pages", "example.com", "a.html"] = none ∧
    (permanentDelete quietEnv thumbWorld "a").1.fs.node
      ["srv", "data", "pages", "example.com", "a.png"] = none ∧
    (permanentDelete quietEnv thumbWorld "a").1.fs.children
      ["srv", "data", "pages", "example.com"] = [] ∧
    (permanentDelete quietEnv thumbWorld "a").1.fs.node
      ["srv", "data", "pages", "example.com"] = some Node.dir ∧
    (permanentDelete quietEnv plainWorld "a").1.fs.node
      ["srv", "data", "pages", "example.com"] = none := by
  refine ⟨rfl, rfl, rfl, rfl, rfl, rfl, rfl⟩


/-! ## Sanitised names, once more -/

theorem trimDotsSpaces_eq (l : List Char) :
    trimDotsSpaces l = List.rdropWhile isTrimChar (l.dropWhile isTrimChar) := rfl

theorem dropWhile_head_not (p : Char → Bool) (l : List Char) (c : Char)
    (h : (l.dropWhile p).head? = some c) : p c = false := by
  induction l with
  | nil => simp at h
  | cons a t ih =>
    by_cases ha : p a = true
    · rw [List.dropWhile_cons_of_pos ha] at h
      exact ih h
    · rw [List.dropWhile_cons_of_neg ha] at h
      simp only [List.head?_cons, Option.some.injEq] at h
      subst h
      simpa using ha

theorem dropWhile_of_head (p : Char → Bool) (l : List Char)
    (h : ∀ c, l.head? = some c → p c = false) : l.dropWhile p = l := by
  cases l with
  | nil => rfl
  | cons a t =>
    have := h a rfl
    rw [List.dropWhile_cons_of_neg (by simp [this])]

theorem trim_head_not (l : List Char) (c : Char)
    (h : (trimDotsSpaces l).head? = some c) : isTrimChar c = false := by
  rw [trimDotsSpaces_eq] at h
  obtain ⟨t, ht⟩ := List.rdropWhile_prefix isTrimChar (l.dropWhile isTrimChar)
  have hh : (l.dropWhile isTrimChar).head? = some c := by
    rw [← ht]
    cases hr : List.rdropWhile isTrimChar (l.dropWhile isTrimChar) with
    | nil => rw [hr] at h; simp at h
    | cons a r => rw [hr] at h; simpa using h
  exact dropWhile_head_not _ _ _ hh

theorem trim_last_not (l : List Char) (c : Char)
    (h : (trimDotsSpaces l).getLast? = some c) : isTrimChar c = false := by
  unfold trimDotsSpaces at h
  rw [List.getLast?_reverse] at h
  exact dropWhile_head_not _ _ _ h

theorem trim_of_ends (l : List Char) (hh : ∀ c, l.head? = some c → isTrimChar c = false)
    (hl : ∀ c, l.getLast? = some c → isTrimChar c = false) : trimDotsSpaces l = l := by
  unfold trimDotsSpaces
  rw [dropWhile_of_head _ l hh, dropWhile_of_head _ l.reverse, List.reverse_reverse]
  intro c hc
  rw [List.head?_reverse] at hc
  exact hl c hc

theorem collapse_chain (l : List Char) :
    List.Chain' notBothUnderscore (collapseUnderscores l) := by
  induction l with
  | nil => simp [collapseUnderscores]
  | cons a t ih =>
    unfold collapseUnderscores
    by_cases ha : a = '_'
    · simp only [ha, if_true]
      cases hc : collapseUnderscores t with
      | nil => simp
      | cons d ds =>
        rw [hc] at ih
        by_cases hd : d = '_'
        · simp only [hd, if_true]
          rw [hd] at ih
          exact ih
        · simp only [hd, if_false]
          rw [List.chain'_cons]
          exact ⟨fun e => hd e.2, ih⟩
    · simp only [ha, if_false]
      rw [List.chain'_cons']
      exact ⟨fun y _ e => ha e.1, ih⟩

theorem collapse_of_chain (l : List Char) (h : List.Chain' notBothUnderscore l) :
    collapseUnderscores l = l := by
  induction l with
  | nil => rfl
  | cons a t ih =>
    have ht : List.Chain' notBothUnderscore t := (List.chain'_cons'.1 h).2
    unfold collapseUnderscores
    rw [ih ht]
    by_cases ha : a = '_'
    · simp only [ha, if_true]
      cases t with
      | nil => rfl
      | cons d ds =>
        have hd : d ≠ '_' := by
          intro e
          rw [ha, List.chain'_cons] at h
          exact h.1 ⟨rfl, e⟩
        simp [hd]
    · simp only [ha, if_false]

theorem replaceIllegal_of_legal (l : List Char) (h : ∀ c ∈ l, isIllegalChar c = false) :
    replaceIllegal l = l := by
  unfold replaceIllegal
  conv_rhs => rw [← List.map_id l]
  apply List.map_congr_left
  intro c hc
  simp [h c hc]

theorem cleanedChars_chain (name : List Char) :
    List.Chain' notBothUnderscore (cleanedChars name) := by
  unfold cleanedChars
  rw [trimDotsSpaces_eq]
  apply List.Chain'.infix (collapse_chain (replaceIllegal name))
  exact (List.rdropWhile_prefix isTrimChar _).isInfix.trans
    (List.dropWhile_suffix isTrimChar).isInfix

theorem sanitizeChars_unfold (name : List Char) (maxLen : Int) :
    sanitizeChars name maxLen =
      if (if ((cleanedChars name).length : Int) > effectiveMaxLen maxLen then
            (cleanedChars name).take (effectiveMaxLen maxLen).toNat else cleanedChars name) = []
      then "untitled".data
      else (if ((cleanedChars name).length : Int) > effectiveMaxLen maxLen then
            (cleanedChars name).take (effectiveMaxLen maxLen).toNat else cleanedChars name) := rfl

theorem effectiveMaxLen_pos (maxLen : Int) : 0 < effectiveMaxLen maxLen := by
  unfold effectiveMaxLen
  split_ifs <;> omega

/-- A name that is already clean and short enough is returned unchanged. -/
theorem sanitizeChars_fixed (r : List Char) (maxLen : Int)
    (hlegal : ∀ c ∈ r, isIllegalChar c = false)
    (hchain : List.Chain' notBothUnderscore r)
    (hhead : ∀ c, r.head? = some c → isTrimChar c = false)
    (hlast : ∀ c, r.getLast? = some c → isTrimChar c = false)
    (hlen : (r.length : Int) ≤ effectiveMaxLen maxLen) (hne : r ≠ []) :
    sanitizeChars r maxLen = r := by
  have hclean : cleanedChars r = r := by
    unfold cleanedChars
    rw [replaceIllegal_of_legal r hlegal, collapse_of_chain r hchain, trim_of_ends r hhead hlast]
  rw [sanitizeChars_unfold, hclean]
  have : ¬ (r.length : Int) > effectiveMaxLen maxLen := by omega
  simp only [this, if_false, hne]


theorem head_take_pos (l : List Char) (n : Nat) (hn : 0 < n) : (l.take n).head? = l.head? := by
  cases l with
  | nil => simp
  | cons a t =>
    cases n with
    | zero => omega
    | succ k => simp

theorem untitled_chain : List.Chain' notBothUnderscore "untitled".data := by
  show List.Chain' notBothUnderscore ['u', 'n', 't', 'i', 't', 'l', 'e', 'd']
  simp [notBothUnderscore]

/-- The name returned by `sanitizeFilename` is not empty, has no two
neighbouring underscores and does not begin with a dot or a space. -/
theorem sanitizeChars_wellformed (name : List Char) (maxLen : Int) :
    sanitizeChars name maxLen ≠ [] ∧
    List.Chain' notBothUnderscore (sanitizeChars name maxLen) ∧
    ∀ c, (sanitizeChars name maxLen).head? = some c → isTrimChar c = false := by
  have hpos := effectiveMaxLen_pos maxLen
  have hcut : List.Chain' notBothUnderscore
        (if ((cleanedChars name).length : Int) > effectiveMaxLen maxLen then
          (cleanedChars name).take (effectiveMaxLen maxLen).toNat else cleanedChars name) ∧
      ∀ c, (if ((cleanedChars name).length : Int) > effectiveMaxLen maxLen then
          (cleanedChars name).take (effectiveMaxLen maxLen).toNat else cleanedChars name).head?
            = some c → isTrimChar c = false := by
    by_cases hgt : ((cleanedChars name).length : Int) > effectiveMaxLen maxLen
    · rw [if_pos hgt]
      have hpre := List.IsPrefix.isInfix (List.take_prefix (effectiveMaxLen maxLen).toNat (cleanedChars name))
      have hch := List.Chain'.infix (cleanedChars_chain name) hpre
      refine ⟨hch, ?_⟩
      intro c hc
      rw [head_take_pos _ _ (by omega)] at hc
      exact trim_head_not _ c hc
    · rw [if_neg hgt]
      exact ⟨cleanedChars_chain name, fun c hc => trim_head_not _ c hc⟩
  refine ⟨sanitizeChars_ne_nil name maxLen, ?_, ?_⟩
  · rw [sanitizeChars_unfold]
    by_cases he : (if ((cleanedChars name).length : Int) > effectiveMaxLen maxLen then
          (cleanedChars name).take (effectiveMaxLen maxLen).toNat else cleanedChars name) = []
    · rw [if_pos he]; exact untitled_chain
    · rw [if_neg he]; exact hcut.1
  · intro c hc
    rw [sanitizeChars_unfold] at hc
    by_cases he : (if ((cleanedChars name).length : Int) > effectiveMaxLen maxLen then
          (cleanedChars name).take (effectiveMaxLen maxLen).toNat else cleanedChars name) = []
    · rw [if_pos he] at hc
      revert hc; revert c; decide
    · rw [if_neg he] at hc
      exact hcut.2 c hc

/-- C11 (amended): `sanitizeFilename` returns its own result unchanged whenever
that result does not end in a dot or a space and has at most `maxLen`
characters (80 for `maxLen ≤ 0`); this is the case whenever the cleaned name
was not cut, that is has at most `maxLen` characters, and, should it be empty,
the limit is at least the 8 characters of `untitled`. -/
theorem sanitizeFilename_idempotent_when :
    (∀ (x : String) (maxLen : Int),
      (∀ c, (sanitizeFilename x maxLen).data.getLast? = some c → isTrimChar c = false) →
      ((sanitizeFilename x maxLen).length : Int) ≤ effectiveMaxLen maxLen →
      sanitizeFilename (sanitizeFilename x maxLen) maxLen = sanitizeFilename x maxLen) ∧
    (∀ (x : String) (maxLen : Int),
      ((cleanedChars x.data).length : Int) ≤ effectiveMaxLen maxLen →
      (cleanedChars x.data = [] → 8 ≤ effectiveMaxLen maxLen) →
      sanitizeFilename (sanitizeFilename x maxLen) maxLen = sanitizeFilename x maxLen) := by
  have hA : ∀ (x : String) (maxLen : Int),
      (∀ c, (sanitizeFilename x maxLen).data.getLast? = some c → isTrimChar c = false) →
      ((sanitizeFilename x maxLen).length : Int) ≤ effectiveMaxLen maxLen →
      sanitizeFilename (sanitizeFilename x maxLen) maxLen = sanitizeFilename x maxLen := by
    intro x maxLen hlast hlen
    obtain ⟨hne, hchain, hhead⟩ := sanitizeChars_wellformed x.data maxLen
    have hlegal : ∀ c ∈ sanitizeChars x.data maxLen, isIllegalChar c = false := by
      intro c hc
      by_contra hi
      exact sanitizeChars_legal x.data maxLen c (by simpa using hi) hc
    have := sanitizeChars_fixed (sanitizeChars x.data maxLen) maxLen hlegal hchain hhead
      hlast hlen hne
    unfold sanitizeFilename
    simp only [this]
  refine ⟨hA, ?_⟩
  intro x maxLen hlen hempty
  have hr : (sanitizeFilename x maxLen).data =
      if cleanedChars x.data = [] then "untitled".data else cleanedChars x.data := by
    unfold sanitizeFilename
    simp only
    rw [sanitizeChars_unfold]
    have : ¬ ((cleanedChars x.data).length : Int) > effectiveMaxLen maxLen := by omega
    simp only [this, if_false]
  apply hA
  · intro c hc
    rw [hr] at hc
    split_ifs at hc with h
    · revert hc; revert c; decide
    · exact trim_last_not _ c hc
  · have hl : (sanitizeFilename x maxLen).length = (sanitizeFilename x maxLen).data.length := rfl
    rw [hl, hr]
    split_ifs with h
    · have := hempty h
      have h8 : "untitled".data.length = 8 := rfl
      omega
    · exact hlen

theorem sanitizeFilename_idempotent_when_witness :
    sanitizeFilename (sanitizeFilename "Hello/World" 80) 80 = sanitizeFilename "Hello/World" 80 :=
  sanitizeFilename_idempotent_when.2 "Hello/World" 80 (by decide) (by decide)

/-- C11, as stated, fails: a name cut to `maxLen` characters can end in a dot,
which the next call trims away.  With limit 2 the name `a.b` gives `a.` and
then `a`; with the limit 80 of the callers a name of 79 letters followed by
`.b` loses its dot in the second call; and for a limit below 8 the fallback
`untitled` is itself cut by the next call. -/
theorem sanitizeFilename_not_idempotent :
    sanitizeFilename "a.b" 2 = "a." ∧ sanitizeFilename (sanitizeFilename "a.b" 2) 2 = "a" ∧
    sanitizeFilename (sanitizeFilename
      (String.mk (List.replicate 79 'a' ++ ['.', 'b'])) 80) 80 ≠
      sanitizeFilename (String.mk (List.replicate 79 'a' ++ ['.', 'b'])) 80 ∧
    sanitizeFilename "" 3 = "untitled" ∧ sanitizeFilename (sanitizeFilename "" 3) 3 = "unt" ∧
    ¬ (∀ (x : String) (maxLen : Int),
        sanitizeFilename (sanitizeFilename x maxLen) maxLen = sanitizeFilename x maxLen) := by
  refine ⟨by decide, by decide, by decide, by decide, by decide, ?_⟩
  intro h
  exact absurd (h "a.b" 2) (by decide)

/-- C12: for every name and every `maxLen` the result of `sanitizeFilename`
contains none of backslash, slash, colon, asterisk, question mark, double
quote, `<`, `>`, `|`, carriage return, line feed and tab; it is not empty, not
`.` and not `..`, so joined to a directory it names an entry directly inside
that directory. -/
theorem sanitizeFilename_single_component (name : String) (maxLen : Int) :
    (∀ c ∈ ['\\', '/', ':', '*', '?', '"', '<', '>', '|', '\r', '\n', '\t'],
      c ∉ (sanitizeFilename name maxLen).data) ∧
    (∀ c, isIllegalChar c = true → c ∉ (sanitizeFilename name maxLen).data) ∧
    sanitizeFilename name maxLen ≠ "" ∧ sanitizeFilename name maxLen ≠ "." ∧
    sanitizeFilename name maxLen ≠ ".." ∧
    ∀ dir : Path, joinPath dir (sanitizeFilename name maxLen) =
        dir ++ [sanitizeFilename name maxLen] ∧
      parentDir (joinPath dir (sanitizeFilename name maxLen)) = dir := by
  have hlegal : ∀ c, isIllegalChar c = true → c ∉ (sanitizeFilename name maxLen).data :=
    fun c hc => sanitizeChars_legal name.data maxLen c hc
  obtain ⟨_, _, hhead⟩ := sanitizeChars_wellformed name.data maxLen
  have hdot : ∀ s : String, s.data.head? = some '.' → sanitizeFilename name maxLen ≠ s := by
    intro s hs e
    have h1 : (sanitizeFilename name maxLen).data.head? = some '.' := by rw [e]; exact hs
    have := hhead '.' h1
    revert this; decide
  have h1 := sanitizeFilename_ne_empty name maxLen
  have h2 := hdot "." rfl
  have h3 := hdot ".." rfl
  refine ⟨?_, hlegal, h1, h2, h3, ?_⟩
  · intro c hc
    apply hlegal
    revert hc; revert c; decide
  · intro dir
    have hj := joinPath_single dir _ (hlegal '/' (by decide)) h1 h2 h3
    rw [hj]
    exact ⟨rfl, by simp [parentDir]⟩


/-! ## The unique-path loop, in general -/

theorem underscore_mem_candidateName (base ext : String) (k : Nat) :
    '_' ∈ (candidateName base ext (k + 1)).data := by
  simp [candidateName, String.data_append]

/-- When `base+ext` is an ordinary file name, every candidate is a name
directly inside the directory. -/
theorem candidatePath_plain (dir : Path) (base ext : String)
    (hplain : plainComponent (base ++ ext)) (k : Nat) :
    candidatePath dir base ext k = dir ++ [candidateName base ext k] := by
  obtain ⟨h1, h2, h3, h4⟩ := hplain
  have hb : '/' ∉ base.data := fun h => h4 (by simp [String.data_append, h])
  have he : '/' ∉ ext.data := fun h => h4 (by simp [String.data_append, h])
  unfold candidatePath
  cases k with
  | zero => exact joinPath_single _ _ h4 h1 h2 h3
  | succ n =>
    have hu := underscore_mem_candidateName base ext n
    apply joinPath_single _ _ (candidateName_no_slash base ext hb he (n + 1))
    · intro e; rw [e] at hu; revert hu; decide
    · intro e; rw [e] at hu; revert hu; decide
    · intro e; rw [e] at hu; revert hu; decide

theorem candidatePath_injective (dir : Path) (base ext : String)
    (hplain : plainComponent (base ++ ext)) (i j : Nat)
    (h : candidatePath dir base ext i = candidatePath dir base ext j) : i = j := by
  rw [candidatePath_plain dir base ext hplain, candidatePath_plain dir base ext hplain] at h
  exact candidateName_injective base ext i j (List.cons.inj (List.append_cancel_left h)).1

/-- When `os.Stat` reports no candidate as missing, no round returns. -/
theorem uniqueFrom_none_of_all (fs : FS) (dir : Path) (base ext : String)
    (h : ∀ k, (fs.stat (candidatePath dir base ext k)).isNotExist = false) :
    ∀ fuel k, uniqueFrom fs dir base ext fuel k = none := by
  intro fuel
  induction fuel with
  | zero => intro k; rfl
  | succ n ih =>
    intro k
    unfold uniqueFrom
    rw [h k]
    simp only [Bool.false_eq_true, if_false]
    exact ih (k + 1)

theorem candidateName_mem (base ext : String) (k : Nat) (c : Char)
    (hc : c ∈ (base ++ ext).data) : c ∈ (candidateName base ext k).data := by
  rw [String.data_append, List.mem_append] at hc
  cases k with
  | zero =>
    simp only [candidateName, String.data_append, List.mem_append]
    exact hc
  | succ n =>
    simp only [candidateName, String.data_append, List.mem_append]
    rcases hc with hc | hc
    · exact Or.inl (Or.inl (Or.inl hc))
    · exact Or.inr hc

theorem candidateName_size (base ext : String) (k : Nat) :
    (base ++ ext).utf8ByteSize ≤ (candidateName base ext k).utf8ByteSize := by
  cases k with
  | zero => exact le_refl _
  | succ n =>
    simp only [candidateName, utf8ByteSize_append]
    omega

/-- A file name that holds U+0000 makes `os.Stat` fail with EINVAL in every
round, so the loop of `getUniqueFilePath` never returns. -/
theorem uniqueFrom_nul (fs : FS) (dir : Path) (base ext : String)
    (hplain : plainComponent (base ++ ext)) (hnul : hasNul [base ++ ext] = true) :
    ∀ fuel k, uniqueFrom fs dir base ext fuel k = none := by
  apply uniqueFrom_none_of_all
  intro k
  rw [candidatePath_plain dir base ext hplain k]
  have h1 : hasNul (dir ++ [candidateName base ext k]) = true := by
    rw [hasNul_append, hasNul_single, Bool.or_eq_true]
    right
    rw [hasNul_single, List.any_eq_true] at hnul
    obtain ⟨c, hc, hc0⟩ := hnul
    rw [List.any_eq_true]
    exact ⟨c, candidateName_mem base ext k c hc, hc0⟩
  unfold FS.stat
  rw [if_pos h1]
  rfl

/-- Below a directory, a file name of more than `nameMax` bytes makes `os.Stat`
fail in every round, so the loop of `getUniqueFilePath` never returns. -/
theorem uniqueFrom_long (fs : FS) (dir : Path) (base ext : String)
    (hplain : plainComponent (base ++ ext))
    (hdir : fs.stat dir = StatResult.found Node.dir)
    (hlong : nameMax < (base ++ ext).utf8ByteSize) :
    ∀ fuel k, uniqueFrom fs dir base ext fuel k = none := by
  apply uniqueFrom_none_of_all
  intro k
  rw [candidatePath_plain dir base ext hplain k]
  obtain ⟨_, _, hres⟩ := stat_dir_inv fs dir hdir
  have hsize := candidateName_size base ext k
  unfold FS.stat
  by_cases h1 : hasNul (dir ++ [candidateName base ext k]) = true
  · rw [if_pos h1]; rfl
  · rw [if_neg h1]
    by_cases h2 : pathMax ≤ pathBytes (dir ++ [candidateName base ext k])
    · rw [if_pos h2]; rfl
    · rw [if_neg h2, statFrom_append_of_dir fs dir [] hres [candidateName base ext k]]
      simp only [List.nil_append, statFrom]
      rw [if_pos (by omega)]
      rfl

set_option maxRecDepth 8000 in
/-- The callers reach both cases: `sanitizeFilename` keeps a title of 80 emoji
and a title that holds U+0000 as they are, and `saveBookmark` of such a request
does not get past `getUniqueFilePath`, whose loop never returns below the
directory that was just created. -/
theorem saveBookmark_never_returns :
    startedWorld.fs.mkdirAll quietEnv.ioErr ["srv", "data", "pages", "example.com"] =
      some ⟨[(["srv", "data", "pages", "example.com"], Node.dir), (["srv"], Node.dir),
        (["srv", "data"], Node.dir), (["srv", "data", "pages"], Node.dir)]⟩ ∧
    (sanitizeFilename nulName 80 = nulName ∧
      saveBookmark quietEnv startedWorld (fun _ => 171) 5
        { helloInput with title := nulName } = none ∧
      ¬ ∃ fuel k, (uniqueFrom
        ⟨[(["srv", "data", "pages", "example.com"], Node.dir), (["srv"], Node.dir),
          (["srv", "data"], Node.dir), (["srv", "data", "pages"], Node.dir)]⟩
        ["srv", "data", "pages", "example.com"] nulName ".html" fuel k).isSome = true) ∧
    (sanitizeFilename emojiTitle 80 = emojiTitle ∧
      saveBookmark quietEnv startedWorld (fun _ => 171) 5
        { helloInput with title := emojiTitle } = none ∧
      ¬ ∃ fuel k, (uniqueFrom
        ⟨[(["srv", "data", "pages", "example.com"], Node.dir), (["srv"], Node.dir),
          (["srv", "data"], Node.dir), (["srv", "data", "pages"], Node.dir)]⟩
        ["srv", "data", "pages", "example.com"] emojiTitle ".html" fuel k).isSome = true) := by
  refine ⟨by rfl, ⟨by rfl, by rfl, ?_⟩, ⟨by rfl, by rfl, ?_⟩⟩
  · rintro ⟨fuel, k, h⟩
    rw [uniqueFrom_nul _ _ nulName ".html" (by decide) (by rfl) fuel k] at h
    cases h
  · rintro ⟨fuel, k, h⟩
    rw [uniqueFrom_long _ _ emojiTitle ".html" (by decide) (by rfl)
      (by decide) fuel k] at h
    cases h

/-! ### Two calls in sequence -/

/-- The alias is never consulted: the base name is the sanitised title. -/
theorem migrationBaseName_eq (item : Bookmark) :
    migrationBaseName item = sanitizeFilename item.title 80 := by
  unfold migrationBaseName
  simp only [if_neg (sanitizeFilename_ne_empty item.title 80)]

set_option maxRecDepth 8000 in
/-- C15 at a legacy record with an empty title and the alias `My Page`: the
base name `migrateOldFiles` uses is in every case the sanitised title, which is
`untitled` for an empty title, so the alias is never used; the record is moved
to `pages/example.com/untitled.html` and no file named after the alias
exists. -/
theorem migrateOldFiles_ignores_alias :
    (∀ item : Bookmark, migrationBaseName item = sanitizeFilename item.title 80) ∧
    sanitizeFilename "" 80 = "untitled" ∧ sanitizeFilename "My Page" 80 = "My Page" ∧
    (migrateOldFiles quietEnv aliasOnlyWorld).map (fun w => w.db.map (fun b => b.filePath)) =
      some ["pages/example.com/untitled.html"] ∧
    (migrateOldFiles quietEnv aliasOnlyWorld).map
      (fun w => w.fs.node ["srv", "data", "pages", "example.com", "untitled.html"]) =
      some (some (Node.file [60, 112, 62])) ∧
    (migrateOldFiles quietEnv aliasOnlyWorld).map
      (fun w => w.fs.node ["srv", "data", "pages", "example.com", "My Page.html"]) =
      some none := by
  refine ⟨migrationBaseName_eq, by decide, by decide, by rfl, by rfl, by rfl⟩

set_option maxRecDepth 8000 in
/-- C16 at a legacy record whose URL has the hostname `.` and whose title has
the shape of a uuid: the cleaned directory is `pages` itself, so the first run
moves the file to `pages/<title>.html`, a path that matches the legacy pattern
again, and a second run right after it moves the file once more and rewrites
the record.  For the same record on the host `example.com` the second run
changes nothing. -/
theorem migrateOldFiles_second_run_moves_again :
    (migrateOldFiles dotHostEnv uuidTitleWorld).map (fun w => w.db.map (fun b => b.filePath)) =
      some ["pages/01234567-89ab-cdef-0123-456789abcdef.html"] ∧
    matchesLegacyPattern "pages/01234567-89ab-cdef-0123-456789abcdef.html" = true ∧
    ((migrateOldFiles dotHostEnv uuidTitleWorld).bind (migrateOldFiles dotHostEnv)).map
      (fun w => w.db.map (fun b => b.filePath)) =
      some ["pages/01234567-89ab-cdef-0123-456789abcdef_1.html"] ∧
    ((migrateOldFiles dotHostEnv uuidTitleWorld).bind (migrateOldFiles dotHostEnv)).map
      (fun w => w.fs.node ["srv", "data", "pages", "01234567-89ab-cdef-0123-456789abcdef.html"])
      = some none ∧
    (migrateOldFiles dotHostEnv uuidTitleWorld).bind (migrateOldFiles dotHostEnv) ≠
      migrateOldFiles dotHostEnv uuidTitleWorld ∧
    (migrateOldFiles quietEnv uuidTitleWorld).bind (migrateOldFiles quietEnv) =
      migrateOldFiles quietEnv uuidTitleWorld := by
  refine ⟨by rfl, by decide, by rfl, by rfl, ?_, by rfl⟩
  intro h
  have h1 := congrArg (fun o : Option World => o.map (fun w => w.db.map (fun b => b.filePath))) h
  have h2 : ((migrateOldFiles dotHostEnv uuidTitleWorld).bind (migrateOldFiles dotHostEnv)).map
      (fun w => w.db.map (fun b => b.filePath)) =
      some ["pages/01234567-89ab-cdef-0123-456789abcdef_1.html"] := by rfl
  have h3 : (migrateOldFiles dotHostEnv uuidTitleWorld).map
      (fun w => w.db.map (fun b => b.filePath)) =
      some ["pages/01234567-89ab-cdef-0123-456789abcdef.html"] := by rfl
  simp only at h1
  rw [h2, h3] at h1
  revert h1
  decide


/-! ## The wait loop of the updater -/

theorem getLast_cons_cons_of_some (a b e : Event) (l : List Event)
    (h : l.getLast? = some e) : (a :: b :: l).getLast? = some e := by
  cases l with
  | nil => simp at h
  | cons x xs => simpa [List.getLast?_cons_cons] using h

/-- The loop stops at the first probe that does not report a live process. -/
theorem waitLoop_stops (probes : Nat → Probe) : ∀ (n i m : Nat), m < n →
    (∀ j, j < m → probes (i + j) = Probe.alive) → probes (i + m) ≠ Probe.alive →
    probeCount (waitLoop probes n i) = m + 1 ∧ sleepCount (waitLoop probes n i) = m ∧
    sleepMs (waitLoop probes n i) = 100 * m ∧
    (waitLoop probes n i).getLast? = some (Event.probe (i + m)) := by
  intro n
  induction n with
  | zero => intro i m h; omega
  | succ k ih =>
    intro i m hm halive hstop
    cases m with
    | zero =>
      have h0 : probes i ≠ Probe.alive := by simpa using hstop
      unfold waitLoop
      cases hp : probes i with
      | alive => exact absurd hp h0
      | findFailed => simp [probeCount, sleepCount, sleepMs]
      | pingFailed => simp [probeCount, sleepCount, sleepMs]
    | succ m1 =>
      have h0 : probes i = Probe.alive := by simpa using halive 0 (Nat.succ_pos m1)
      have hrec := ih (i + 1) m1 (by omega)
        (fun j hj => by
          have := halive (j + 1) (by omega)
          rwa [show i + 1 + j = i + (j + 1) by omega])
        (by rwa [show i + 1 + m1 = i + (m1 + 1) by omega])
      obtain ⟨h1, h2, h3, h4⟩ := hrec
      unfold waitLoop
      rw [h0]
      refine ⟨?_, ?_, ?_, ?_⟩
      · simp only [probeCount, h1]
      · simp only [sleepCount, h2]
      · simp only [sleepMs, h3]; omega
      · rw [getLast_cons_cons_of_some _ _ _ _ h4]
        rw [show i + 1 + m1 = i + (m1 + 1) by omega]

/-- While every probe reports a live process the loop runs all its rounds. -/
theorem waitLoop_runs_out (probes : Nat → Probe) : ∀ (n i : Nat),
    (∀ j, j < n → probes (i + j) = Probe.alive) →
    probeCount (waitLoop probes n i) = n ∧ sleepCount (waitLoop probes n i) = n ∧
    sleepMs (waitLoop probes n i) = 100 * n := by
  intro n
  induction n with
  | zero => intro i _; simp [waitLoop, probeCount, sleepCount, sleepMs]
  | succ k ih =>
    intro i halive
    have h0 : probes i = Probe.alive := by simpa using halive 0 (Nat.succ_pos k)
    obtain ⟨h1, h2, h3⟩ := ih (i + 1) (fun j hj => by
      have := halive (j + 1) (by omega)
      rwa [show i + 1 + j = i + (j + 1) by omega])
    unfold waitLoop
    rw [h0]
    refine ⟨?_, ?_, ?_⟩
    · simp only [probeCount, h1]
    · simp only [sleepCount, h2]
    · simp only [sleepMs, h3]; omega

/-- C17: for every sequence of probe results, when the first probe that does
not report a live process (not running, or a probe error) is the `k`-th with
`k ≤ 300`, the wait loop makes exactly `k` probes and `k - 1` sleeps of 100 ms
and ends with that probe; when the first 300 probes all report a live process
it makes exactly 300 probes and 300 sleeps, 30 000 ms in all; in either case
`runUpdaterMode` goes on with the same steps: the pause of 500 ms and the
replacement. -/
theorem runUpdaterMode_wait_bounded (env : UpdaterEnv) (targetPath : Bytes) :
    (∀ k, 1 ≤ k → k ≤ 300 → (∀ i, i < k - 1 → env.probes i = Probe.alive) →
      env.probes (k - 1) ≠ Probe.alive →
      probeCount (waitLoop env.probes 300 0) = k ∧
      sleepCount (waitLoop env.probes 300 0) = k - 1 ∧
      sleepMs (waitLoop env.probes 300 0) = 100 * (k - 1) ∧
      (waitLoop env.probes 300 0).getLast? = some (Event.probe (k - 1))) ∧
    ((∀ i, i < 300 → env.probes i = Probe.alive) →
      probeCount (waitLoop env.probes 300 0) = 300 ∧
      sleepCount (waitLoop env.probes 300 0) = 300 ∧
      sleepMs (waitLoop env.probes 300 0) = 30000) ∧
    runUpdaterMode env targetPath =
      waitLoop env.probes 300 0 ++ replaceAndRestart env targetPath ∧
    (replaceAndRestart env targetPath).head? = some (Event.sleep 500) ∧
    (∀ selfPath, env.executable = some selfPath →
      (replaceAndRestart env targetPath).tail.head? = some (Event.rename selfPath targetPath)) := by
  refine ⟨?_, ?_, rfl, rfl, ?_⟩
  · intro k hk1 hk2 halive hstop
    have h := waitLoop_stops env.probes 300 0 (k - 1) (by omega)
      (fun j hj => by rw [Nat.zero_add]; exact halive j hj)
      (by rw [Nat.zero_add]; exact hstop)
    obtain ⟨h1, h2, h3, h4⟩ := h
    refine ⟨by omega, h2, h3, ?_⟩
    rw [h4, Nat.zero_add]
  · intro halive
    have h := waitLoop_runs_out env.probes 300 0
      (fun j hj => by rw [Nat.zero_add]; exact halive j hj)
    exact h
  · intro selfPath hs
    unfold replaceAndRestart
    rw [hs]
    by_cases h1 : env.renameOk = true
    · simp [h1]
    · by_cases h2 : env.copyOk = true
      · simp [h1, h2]
      · simp [h1, h2]

theorem runUpdaterMode_wait_bounded_witness :
    probeCount (waitLoop quickExitEnv.probes 300 0) = 3 ∧
    sleepCount (waitLoop quickExitEnv.probes 300 0) = 3 - 1 ∧
    sleepMs (waitLoop quickExitEnv.probes 300 0) = 100 * (3 - 1) ∧
    (waitLoop quickExitEnv.probes 300 0).getLast? = some (Event.probe (3 - 1)) :=
  (runUpdaterMode_wait_bounded quickExitEnv []).1 3 (by decide) (by decide)
    (by intro i hi; have : i < 2 := hi; simp [quickExitEnv, this])
    (by simp [quickExitEnv])


/-! ## The hand-off arguments -/

theorem digit_encode (m : Nat) (h : m < 10) :
    ∃ b : UInt8, String.utf8EncodeChar (Nat.digitChar m) = [b] ∧ b.toNat = 48 + m := by
  interval_cases m <;> exact ⟨_, rfl, rfl⟩

theorem toDigitsCore_digits : ∀ (fuel n : Nat) (ds : List Char),
    (∀ c ∈ ds, ∃ m, m < 10 ∧ c = Nat.digitChar m) →
    ∀ c ∈ Nat.toDigitsCore 10 fuel n ds, ∃ m, m < 10 ∧ c = Nat.digitChar m := by
  intro fuel
  induction fuel with
  | zero => intro n ds h; simpa [Nat.toDigitsCore] using h
  | succ f ih =>
    intro n ds h
    unfold Nat.toDigitsCore
    simp only
    have hcons : ∀ c ∈ Nat.digitChar (n % 10) :: ds, ∃ m, m < 10 ∧ c = Nat.digitChar m := by
      intro c hc
      rcases List.mem_cons.1 hc with e | e
      · exact ⟨n % 10, Nat.mod_lt _ (by decide), e⟩
      · exact h c e
    by_cases h0 : n / 10 = 0
    · rw [if_pos h0]; exact hcons
    · rw [if_neg h0]; exact ih _ _ hcons

theorem toDigitsCore_ne_nil : ∀ (fuel n : Nat) (ds : List Char), ds ≠ [] →
    Nat.toDigitsCore 10 fuel n ds ≠ [] := by
  intro fuel
  induction fuel with
  | zero => intro n ds h; simpa [Nat.toDigitsCore] using h
  | succ f ih =>
    intro n ds _
    unfold Nat.toDigitsCore
    simp only
    by_cases h0 : n / 10 = 0
    · rw [if_pos h0]; simp
    · rw [if_neg h0]; exact ih _ _ (by simp)

theorem toDigits_ne_nil (n : Nat) : Nat.toDigits 10 n ≠ [] := by
  unfold Nat.toDigits Nat.toDigitsCore
  simp only
  by_cases h0 : n / 10 = 0
  · rw [if_pos h0]; simp
  · rw [if_neg h0]; exact toDigitsCore_ne_nil _ _ _ (by simp)

theorem decimal_value_mono : ∀ (ds : List Char) (acc : Nat),
    acc ≤ List.foldl (fun a (x : Char) => a * 10 + (x.toNat - 48)) acc ds := by
  intro ds
  induction ds with
  | nil => intro acc; exact le_refl _
  | cons c cs ih =>
    intro acc
    rw [decimal_value_step]
    exact le_trans (by omega) (ih _)

/-- Reading back the bytes of decimal digits gives their value, as long as it
fits 64 bits. -/
theorem scanDigits_digits : ∀ (ds : List Char) (acc : Nat),
    (∀ c ∈ ds, ∃ m, m < 10 ∧ c = Nat.digitChar m) →
    List.foldl (fun a (x : Char) => a * 10 + (x.toNat - 48)) acc ds < 2 ^ 64 →
    scanDigits (ds.flatMap String.utf8EncodeChar) acc =
      DigitScan.value (List.foldl (fun a (x : Char) => a * 10 + (x.toNat - 48)) acc ds) := by
  intro ds
  induction ds with
  | nil => intro acc _ _; rfl
  | cons c cs ih =>
    intro acc hd hv
    obtain ⟨m, hm, hc⟩ := hd c (List.mem_cons_self _ _)
    subst hc
    obtain ⟨b, hb, hbn⟩ := digit_encode m hm
    have hval : (Nat.digitChar m).toNat - 48 = m := digitChar_value m hm
    rw [decimal_value_step, hval] at hv
    have hle := decimal_value_mono cs (acc * 10 + m)
    rw [List.flatMap_cons, hb, List.singleton_append, scanDigits, decimal_value_step, hval]
    have h1 : ¬ (b.toNat < 48 ∨ 57 < b.toNat) := by omega
    have h2 : b.toNat - 48 = m := by omega
    have h3 : ¬ 2 ^ 64 ≤ acc * 10 + m := by omega
    rw [if_neg h1, h2, if_neg h3]
    exact ih _ (fun x hx => hd x (List.mem_cons_of_mem _ hx)) hv

/-- `strconv.Atoi` reads back what `%d` prints for a number in the range of `int`. -/
theorem atoi_decimal (n : Nat) (h : n < 2 ^ 63) : atoi (utf8Bytes (toString n)) = (n : Int) := by
  have hdig : ∀ c ∈ Nat.toDigits 10 n, ∃ m, m < 10 ∧ c = Nat.digitChar m :=
    toDigitsCore_digits _ _ _ (by simp)
  have hval : List.foldl (fun a (x : Char) => a * 10 + (x.toNat - 48)) 0 (Nat.toDigits 10 n) = n := by
    have := toDigitsCore_value (n + 1) n [] (by omega)
    simpa [Nat.toDigits] using this
  have hscan := scanDigits_digits (Nat.toDigits 10 n) 0 hdig (by rw [hval]; omega)
  rw [hval] at hscan
  have hbytes : utf8Bytes (toString n) = (Nat.toDigits 10 n).flatMap String.utf8EncodeChar := rfl
  rw [hbytes]
  cases hds : Nat.toDigits 10 n with
  | nil => exact absurd hds (toDigits_ne_nil n)
  | cons c cs =>
    rw [hds] at hscan hdig
    obtain ⟨m, hm, hc⟩ := hdig c (List.mem_cons_self _ _)
    obtain ⟨b, hb, hbn⟩ := digit_encode m hm
    rw [List.flatMap_cons, hc, hb, List.singleton_append] at hscan ⊢
    have hne45 : b ≠ 45 := by
      intro e; rw [e] at hbn
      have : (45 : UInt8).toNat = 45 := rfl
      omega
    have hne43 : b ≠ 43 := by
      intro e; rw [e] at hbn
      have : (43 : UInt8).toNat = 43 := rfl
      omega
    unfold atoi
    simp only [List.head?_cons, Option.some.injEq, hne45, hne43, or_self, if_false]
    rw [hscan]
    have h2 : ¬ 2 ^ 63 ≤ n := by omega
    simp only [if_neg h2]
    rw [if_neg (by simp)]


theorem pidTag_bytes : utf8Bytes "--update-pid=" =
    [45, 45, 117, 112, 100, 97, 116, 101, 45, 112, 105, 100, 61] := by decide

theorem targetTag_bytes : utf8Bytes "--update-target=" =
    [45, 45, 117, 112, 100, 97, 116, 101, 45, 116, 97, 114, 103, 101, 116, 61] := by decide

theorem pidHead_bytes : utf8Bytes "--update-pid" =
    [45, 45, 117, 112, 100, 97, 116, 101, 45, 112, 105, 100] := by decide

/-- The first test never panics: its slices are inside the argument. -/
theorem parsePidArg_eq (pid : Int) (arg : Bytes) :
    parsePidArg pid arg = some (if isPidArg arg then atoi (arg.drop 13) else pid) := by
  unfold parsePidArg isPidArg sliceTo sliceFrom
  by_cases h : arg.length > 12
  · have h12 : 12 ≤ arg.length := by omega
    have h13 : 13 ≤ arg.length := by omega
    by_cases he : arg.take 12 = utf8Bytes "--update-pid"
    · simp [h, h12, h13, he]
    · simp [h, h12, he]
  · simp [h]

/-- The second test never panics. -/
theorem parseTargetArg_eq (target arg : Bytes) :
    parseTargetArg target arg = some (if isTargetArg arg then arg.drop 16 else target) := by
  unfold parseTargetArg isTargetArg sliceTo sliceFrom
  by_cases h : arg.length > 16
  · have h16 : 16 ≤ arg.length := by omega
    by_cases he : arg.take 16 = utf8Bytes "--update-target="
    · simp [h, h16, he]
    · simp [h, h16, he]
  · simp [h]

theorem parseArgs_cons (arg : Bytes) (rest : List Bytes) (acc : Int × Bytes) :
    parseArgs (arg :: rest) acc =
      parseArgs rest (if isPidArg arg then atoi (arg.drop 13) else acc.1,
        if isTargetArg arg then arg.drop 16 else acc.2) := by
  rw [parseArgs, parsePidArg_eq, parseTargetArg_eq]

theorem parseArgs_isSome : ∀ (args : List Bytes) (acc : Int × Bytes),
    (parseArgs args acc).isSome = true := by
  intro args
  induction args with
  | nil => intro acc; rfl
  | cons a rest ih => intro acc; rw [parseArgs_cons]; exact ih _

theorem parseArgs_no_target : ∀ (args : List Bytes) (acc : Int × Bytes),
    (∀ a ∈ args, ¬ isTargetArg a) → ∃ pid, parseArgs args acc = some (pid, acc.2) := by
  intro args
  induction args with
  | nil => intro acc _; exact ⟨acc.1, rfl⟩
  | cons a rest ih =>
    intro acc h
    rw [parseArgs_cons, if_neg (h a (List.mem_cons_self _ _))]
    exact ih _ (fun x hx => h x (List.mem_cons_of_mem _ hx))

theorem parseArgs_no_pid : ∀ (args : List Bytes) (acc : Int × Bytes),
    (∀ a ∈ args, ¬ isPidArg a) → ∃ target, parseArgs args acc = some (acc.1, target) := by
  intro args
  induction args with
  | nil => intro acc _; exact ⟨acc.2, rfl⟩
  | cons a rest ih =>
    intro acc h
    rw [parseArgs_cons, if_neg (h a (List.mem_cons_self _ _))]
    exact ih _ (fun x hx => h x (List.mem_cons_of_mem _ hx))

theorem pidArg_shape (d : Bytes) :
    isPidArg (utf8Bytes "--update-pid=" ++ d) ∧ ¬ isTargetArg (utf8Bytes "--update-pid=" ++ d) ∧
    (utf8Bytes "--update-pid=" ++ d).drop 13 = d := by
  rw [pidTag_bytes]
  refine ⟨⟨by simp, by rw [pidHead_bytes]; rfl⟩, ?_, rfl⟩
  rintro ⟨_, h⟩
  rw [targetTag_bytes] at h
  have h1 := congrArg (fun l => l.take 10) h
  simp at h1

theorem targetArg_shape (p : Bytes) :
    ¬ isPidArg (utf8Bytes "--update-target=" ++ p) ∧
    (p ≠ [] → isTargetArg (utf8Bytes "--update-target=" ++ p)) ∧
    (utf8Bytes "--update-target=" ++ p).drop 16 = p := by
  rw [targetTag_bytes]
  refine ⟨?_, ?_, rfl⟩
  · rintro ⟨_, h⟩
    rw [pidHead_bytes] at h
    have h1 := congrArg (fun l => l.drop 9) h
    simp at h1
  · intro hp
    refine ⟨?_, rfl⟩
    have : 0 < p.length := List.length_pos.2 hp
    simp only [List.length_append, List.length_cons, List.length_nil]
    omega

/-- C19: for every process id `pid > 0` in the range of `int` and every
non-empty target path `p`, `parseUpdaterArgs` applied to the arguments that
`launchUpdater` passes, `--update-pid=<decimal pid>` and `--update-target=<p>`,
returns `(pid, p, true)`; no slice of `parseUpdaterArgs` is ever out of range,
whatever the arguments are; and when the pid argument or the target argument
is absent (no argument begins with `--update-pid`, or none begins with
`--update-target=`) it returns `(0, "", false)`. -/
theorem parseUpdaterArgs_roundtrip :
    (∀ (tmpPath : Bytes) (pid : Nat) (p : Bytes), 0 < pid → pid < 2 ^ 63 → p ≠ [] →
      parseUpdaterArgs (launchUpdaterArgs tmpPath (pid : Int) p) = some ((pid : Int), p, true)) ∧
    (∀ (prog : Bytes) (args : List Bytes), (parseUpdaterArgs (prog :: args)).isSome = true) ∧
    (∀ (tmpPath : Bytes) (pid : Int),
      parseUpdaterArgs [tmpPath, utf8Bytes "--update-pid=" ++ utf8Bytes (toString pid)] =
        some (0, [], false)) ∧
    (∀ (tmpPath p : Bytes),
      parseUpdaterArgs [tmpPath, utf8Bytes "--update-target=" ++ p] = some (0, [], false)) ∧
    (∀ (tmpPath : Bytes), parseUpdaterArgs [tmpPath] = some (0, [], false)) ∧
    (∀ (prog : Bytes) (args : List Bytes),
      ((∀ a ∈ args, ¬ isPidArg a) ∨ (∀ a ∈ args, ¬ isTargetArg a)) →
      parseUpdaterArgs (prog :: args) = some (0, [], false)) := by
  have habsent : ∀ (prog : Bytes) (args : List Bytes),
      ((∀ a ∈ args, ¬ isPidArg a) ∨ (∀ a ∈ args, ¬ isTargetArg a)) →
      parseUpdaterArgs (prog :: args) = some (0, [], false) := by
    intro prog args h
    unfold parseUpdaterArgs
    rcases h with h | h
    · obtain ⟨t, ht⟩ := parseArgs_no_pid args (0, []) h
      simp [ht]
    · obtain ⟨q, hq⟩ := parseArgs_no_target args (0, []) h
      simp [hq]
  refine ⟨?_, ?_, ?_, ?_, ?_, habsent⟩
  · intro tmpPath pid p hpos hlt hp
    obtain ⟨h1, h2, h3⟩ := pidArg_shape (utf8Bytes (toString pid))
    obtain ⟨h4, h5, h6⟩ := targetArg_shape p
    have hfmt : toString ((pid : Nat) : Int) = toString pid := rfl
    have hrun : parseArgs [utf8Bytes "--update-pid=" ++ utf8Bytes (toString pid),
        utf8Bytes "--update-target=" ++ p] (0, []) = some ((pid : Int), p) := by
      rw [parseArgs_cons, if_pos h1, if_neg h2, parseArgs_cons, if_neg h4, if_pos (h5 hp), h3, h6,
        atoi_decimal pid hlt]
      rfl
    have hp0 : (pid : Int) > 0 := by exact_mod_cast hpos
    unfold parseUpdaterArgs launchUpdaterArgs
    simp only [hfmt, hrun]
    rw [if_pos ⟨hp0, hp⟩]
  · intro prog args
    have h := parseArgs_isSome args (0, [])
    have hstep : parseUpdaterArgs (prog :: args) =
        match parseArgs args (0, []) with
        | none => none
        | some (pid, target) =>
          if pid > 0 ∧ target ≠ [] then some (pid, target, true) else some (0, [], false) := rfl
    rw [hstep]
    cases hres : parseArgs args (0, []) with
    | none => rw [hres] at h; cases h
    | some r =>
      obtain ⟨pid, target⟩ := r
      simp only
      by_cases hc : pid > 0 ∧ target ≠ []
      · rw [if_pos hc]; rfl
      · rw [if_neg hc]; rfl
  · intro tmpPath pid
    apply habsent
    right
    intro a ha
    rw [List.mem_singleton] at ha
    rw [ha]
    exact (pidArg_shape _).2.1
  · intro tmpPath p
    apply habsent
    left
    intro a ha
    rw [List.mem_singleton] at ha
    rw [ha]
    exact (targetArg_shape p).1
  · intro tmpPath
    exact habsent tmpPath [] (Or.inl (fun a ha => by cases ha))

theorem parseUpdaterArgs_roundtrip_witness :
    parseUpdaterArgs (launchUpdaterArgs (utf8Bytes "/tmp/new") ((4242 : Nat) : Int)
      (utf8Bytes "/opt/cc")) = some (((4242 : Nat) : Int), utf8Bytes "/opt/cc", true) :=
  parseUpdaterArgs_roundtrip.1 (utf8Bytes "/tmp/new") 4242 (utf8Bytes "/opt/cc")
    (by decide) (by decide) (by decide)


/-! ## Startup -/

/-- C18 on a fresh table, when the statement that adds `deleted_at` fails for
a cause other than an existing column: `db.Exec` returns that error, the column
is still missing, and yet `initDB` does not end in `log.Fatal` but returns.
The same start ends in `log.Fatal` when it is the `CREATE TABLE` statement
that fails.  In general no outcome of an `ADD COLUMN` statement makes `initDB`
fatal. -/
theorem initDB_continues_after_alter_failure :
    (addColumn [] Column.deletedAt (lockedAlterEnv.alterFails 0)).2 = AlterResult.otherError ∧
    initDB quietEnv lockedAlterEnv emptyWorld [] 0 =
      some (Startup.started
        ⟨⟨[(["srv", "data", "pages"], Node.dir), (["srv", "data"], Node.dir),
          (["srv"], Node.dir)]⟩, []⟩ [Column.notes]) ∧
    initDB quietEnv { lockedAlterEnv with createFails := true } emptyWorld [] 0 =
      some Startup.fatalCreate ∧
    (∀ (env : Env) (senv : StartupEnv) (w : World) (schema : Schema) (now : Int) (r : Startup),
      senv.openFails = false → senv.createFails = false →
      (w.fs.mkdirAll env.ioErr (joinPath env.dataDir "pages")).isSome = true →
      initDB env senv w schema now = some r → ∃ w1 s1, r = Startup.started w1 s1) := by
  refine ⟨rfl, by rfl, by rfl, ?_⟩
  intro env senv w schema now r hopen hcreate hdir hres
  unfold initDB at hres
  cases hm : w.fs.mkdirAll env.ioErr (joinPath env.dataDir "pages") with
  | none => rw [hm] at hdir; cases hdir
  | some fs1 =>
    rw [hm] at hres
    simp only [hopen, hcreate, Bool.false_eq_true, if_false] at hres
    by_cases hc : (addColumn (addColumn schema Column.deletedAt (senv.alterFails 0)).1
        Column.notes (senv.alterFails 1)).1 = [Column.deletedAt, Column.notes]
    · rw [if_pos hc] at hres
      cases hmig : migrateOldFiles env ⟨fs1, w.db⟩ with
      | none => rw [hmig] at hres; cases hres
      | some w1 =>
        rw [hmig] at hres
        exact ⟨_, _, (Option.some.inj hres).symm⟩
    · rw [if_neg hc] at hres
      by_cases hq : env.queryErr = true
      · simp only [hq, if_true] at hres
        exact ⟨_, _, (Option.some.inj hres).symm⟩
      · simp only [hq, Bool.false_eq_true, if_false] at hres
        cases hmig : migrateAll env ⟨fs1, w.db⟩ (w.db.filter (fun b =>
            scanSucceeds (addColumn (addColumn schema Column.deletedAt (senv.alterFails 0)).1
              Column.notes (senv.alterFails 1)).1 b && matchesLegacyPattern b.filePath)) with
        | none => rw [hmig] at hres; cases hres
        | some w1 =>
          rw [hmig] at hres
          exact ⟨_, _, (Option.some.inj hres).symm⟩

set_option maxRecDepth 8000 in
/-- The start after the one above, on the table that has `notes` but not
`deleted_at`: both statements run, `deleted_at` comes last, and `scanBookmark`
then reads the empty text of `notes` into the integer field and fails on the
row, so the legacy record that a start on a table in the right order migrates
is left where it is. -/
theorem initDB_after_partial_migration :
    initDB quietEnv { lockedAlterEnv with alterFails := fun _ => false } aliasOnlyWorld
      [Column.notes] 0 =
      some (Startup.started aliasOnlyWorld [Column.notes, Column.deletedAt]) ∧
    (∃ w1, initDB quietEnv { lockedAlterEnv with alterFails := fun _ => false } aliasOnlyWorld
      [] 0 = some (Startup.started w1 [Column.deletedAt, Column.notes]) ∧
      w1.fs.node ["srv", "data", "pages", "example.com", "untitled.html"] =
        some (Node.file [60, 112, 62])) := by
  refine ⟨by rfl, _, by rfl, by rfl⟩

end ChromeCollect
